import Mathlib

/-!
# A verification model of cJSON (fork at version 1.3.0, single file `cJSON.c`)

This file gives a shallow embedding, in Lean 4, of the parts of `cJSON.c`
needed to settle the claims about the library: the tree data model, the
numeric saturation logic, the growable print buffer (`ensure`), the printer
(`print_value` and friends over a byte buffer), the recursive-descent parser
(`parse_value` and friends, with an explicit allocation census and error
pointer), the case-insensitive object lookup, and the sibling-list detach
primitive over an explicit pointer heap.

Modelling conventions:
* C byte strings are `List Nat` of byte values; the terminating NUL is
  implicit (reading past the end of the list yields 0, like reading the
  terminator).
* C `double` is modelled by `CDouble`: an exact rational, or NaN, or a signed
  infinity.  IEEE rounding of decimal literals and of arithmetic is not
  modelled: rationals are exact.  All claims settled here are insensitive to
  that rounding (they concern branch structure, digit truncation at printing,
  and comparisons whose margins are far larger than one ulp).
* Allocation always succeeds (out-of-memory paths are not modelled), and the
  parser carries a census of node allocations and frees so that leak claims
  are expressible.
* `size_t`/`int` values are modelled as `Nat`/`Int` with the explicit bound
  `INT_MAX` where the code checks it.
-/

namespace CJsonModel

/-- Byte strings: C `unsigned char*` payloads, NUL terminator implicit. -/
abbrev Bytes := List Nat

/-- Reading byte `i` of a C string: past the end of the stored bytes the
terminator (and, in the model, everything beyond) reads as 0. -/
def byteAt (s : Bytes) (i : Nat) : Nat := s.getD i 0

/-! ## The double model -/

/-- Model of a C `double`: exact rational, NaN, or a signed infinity. -/
inductive CDouble : Type where
  | fin (q : ℚ)
  | nan
  | inf (neg : Bool)
deriving DecidableEq, Repr

/-- C `<=` on doubles: any comparison with NaN is false. -/
def CDouble.le : CDouble → CDouble → Bool
  | .fin a, .fin b => a ≤ b
  | .nan, _ => false
  | _, .nan => false
  | .inf neg, _ => neg
  | .fin _, .inf neg => !neg

/-- C `fabs`. -/
def CDouble.fabs : CDouble → CDouble
  | .fin q => .fin |q|
  | .nan => .nan
  | .inf _ => .inf false

/-- C `floor`. -/
def CDouble.cfloor : CDouble → CDouble
  | .fin q => .fin (⌊q⌋ : ℤ)
  | .nan => .nan
  | .inf n => .inf n

/-- Subtraction of doubles. -/
def CDouble.sub : CDouble → CDouble → CDouble
  | .fin a, .fin b => .fin (a - b)
  | .nan, _ => .nan
  | _, .nan => .nan
  | .inf a, .inf b => if a = b then .nan else .inf a
  | .inf a, .fin _ => .inf a
  | .fin _, .inf b => .inf (!b)

/-- The check `(d * 0) != 0` used by `print_number` to detect NaN/infinity. -/
def CDouble.timesZeroNeZero : CDouble → Bool
  | .fin _ => false
  | _ => true

/-- C cast `(int)d`, truncation toward zero (only ever applied, in the code's
saturation idiom, to values strictly inside the `int` range). -/
def CDouble.toIntTrunc : CDouble → Int
  | .fin q => q.num.tdiv q.den
  | .nan => 0
  | .inf neg => if neg then 0 else 0

/-- `INT_MAX` (32-bit). -/
def INT_MAX : Int := 2147483647

/-- `INT_MIN` (32-bit). -/
def INT_MIN : Int := -2147483648

/-- `INT_MAX` as a size bound (used by `ensure` on `size_t` values). -/
def INT_MAX_N : Nat := 2147483647

/-- `DBL_EPSILON` = 2^-52. -/
def DBL_EPSILON : ℚ := 1 / 4503599627370496

/-! ## Type constants

Modelled from the spec: the header `cJSON.h` (absent from `src/`) defines the
overloaded type tag — §9 of the spec: one field carrying the value kind
together with the `reference` / `const-key` bit flags.  The numeric values
follow the upstream cJSON 1.3.0 header (kind bits in the low byte, flags at
bits 8 and 9); the code only ever inspects the tag through `& 0xFF` and the
two flag bits, so the claims below do not depend on the exact kind encoding,
only on the kinds being distinct small constants. -/

def cJSON_Invalid : Nat := 0

def cJSON_False : Nat := 1

def cJSON_True : Nat := 2

def cJSON_NULL : Nat := 4

def cJSON_Number : Nat := 8

def cJSON_String : Nat := 16

def cJSON_Array : Nat := 32

def cJSON_Object : Nat := 64

def cJSON_Raw : Nat := 128

def cJSON_IsReference : Nat := 256

def cJSON_StringIsConst : Nat := 512

/-! ## The node model

A `cJSON` value models one node of the tree together with the sibling chain
hanging off its `child` pointer: `child` in the model is the list of children
in sibling order (the C `child` pointer is the head, each further child is
reached through `next`; `prev` is the non-owning back link and carries no
extra information).  The pointer-level structure, where the detach claim
lives, is modelled separately by `NodeHeap` below. -/

inductive cJSON : Type where
  | mk : (type : Nat) → (valuestring : Option Bytes) → (valueint : Int) →
      (valuedouble : CDouble) → (string : Option Bytes) →
      (child : List cJSON) → cJSON

def cJSON.type : cJSON → Nat
  | .mk t _ _ _ _ _ => t

def cJSON.valuestring : cJSON → Option Bytes
  | .mk _ v _ _ _ _ => v

def cJSON.valueint : cJSON → Int
  | .mk _ _ v _ _ _ => v

def cJSON.valuedouble : cJSON → CDouble
  | .mk _ _ _ v _ _ => v

def cJSON.string : cJSON → Option Bytes
  | .mk _ _ _ _ s _ => s

def cJSON.child : cJSON → List cJSON
  | .mk _ _ _ _ _ c => c

/-- `cJSON_New_Item`: a fresh node, all fields zeroed. -/
def cJSON_New_Item : cJSON :=
  .mk cJSON_Invalid none 0 (.fin 0) none []

/-! ## Numeric saturation (`parse_number` tail, `cJSON_CreateNumber`,
`cJSON_SetNumberHelper`) -/

/-- The saturation idiom shared by `parse_number` and `cJSON_CreateNumber`:
`INT_MAX` when `number >= INT_MAX`, `INT_MIN` when `number <= INT_MIN`,
`(int)number` otherwise. -/
def saturatedInt (number : CDouble) : Int :=
  if CDouble.le (.fin (INT_MAX : ℤ)) number then INT_MAX
  else if CDouble.le number (.fin (INT_MIN : ℤ)) then INT_MIN
  else number.toIntTrunc

/-- `cJSON_CreateNumber` (allocation always succeeds in the model). -/
def cJSON_CreateNumber (num : CDouble) : cJSON :=
  .mk cJSON_Number none (saturatedInt num) num none []

/-- `cJSON_SetNumberHelper`, exactly as written in the source: the final
branch stores the type constant `cJSON_Number` into `valueint` (where
`parse_number` and `cJSON_CreateNumber` store `(int)number`), and
`valuedouble` is set to `number`.  Returns the updated node (the C function
returns `object->valuedouble = number`). -/
def cJSON_SetNumberHelper (object : cJSON) (number : CDouble) : cJSON :=
  let vi : Int :=
    if CDouble.le (.fin (INT_MAX : ℤ)) number then INT_MAX
    else if CDouble.le number (.fin (INT_MIN : ℤ)) then INT_MIN
    else (cJSON_Number : Int)
  .mk object.type object.valuestring vi number object.string object.child

/-! ## Case-insensitive comparison (`cJSON_strcasecmp`) and object lookup -/

/-- C `tolower` in the default locale, on byte values: maps A–Z to a–z. -/
def ctolower (c : Nat) : Nat :=
  if 65 ≤ c ∧ c ≤ 90 then c + 32 else c

/-- The loop of `cJSON_strcasecmp` on two non-NULL C strings (a list stands
for the bytes up to the implicit terminator; the loop compares `tolower`
images and, on a match, returns 0 at a NUL — the list ends play the
terminator's role, and an embedded 0 stops the walk like in C). -/
def strcasecmpBytes : Bytes → Bytes → Int
  | [], [] => 0
  | [], c2 :: _ =>
    if ctolower 0 = ctolower c2 then 0 else (ctolower 0 : Int) - ctolower c2
  | c1 :: _, [] =>
    if ctolower c1 = ctolower 0 then 0 else (ctolower c1 : Int) - ctolower 0
  | c1 :: s1, c2 :: s2 =>
    if ctolower c1 = ctolower c2 then
      if c1 = 0 then 0 else strcasecmpBytes s1 s2
    else (ctolower c1 : Int) - ctolower c2

/-- `cJSON_strcasecmp`, NULL cases included. -/
def cJSON_strcasecmp : Option Bytes → Option Bytes → Int
  | none, none => 0
  | none, some _ => 1
  | some _, none => 1
  | some s1, some s2 => strcasecmpBytes s1 s2

/-- `cJSON_GetObjectItem`: walk the child chain until `cJSON_strcasecmp`
returns 0. -/
def cJSON_GetObjectItem (object : cJSON) (string : Bytes) : Option cJSON :=
  let rec go : List cJSON → Option cJSON
    | [] => none
    | c :: rest =>
      if cJSON_strcasecmp c.string (some string) = 0 then some c else go rest
  go object.child

/-! ## The pointer heap and `DetachItemFromArray`

The detach claim is about the `prev`/`next` pointer surgery itself, so here
the sibling links are explicit: a heap maps addresses to node records whose
non-link fields are bundled into an opaque `payload` (detach never touches
them). -/

/-- A node as laid out for the sibling-list surgery: the two sibling links,
the first-child link, and the remaining fields (type, strings, numbers)
bundled opaquely. -/
structure NodeRec : Type where
  next : Option Nat
  prev : Option Nat
  child : Option Nat
  payload : Nat
deriving DecidableEq, Repr

/-- The heap: every address holds a node record. -/
abbrev Heap := Nat → NodeRec

def setNext (h : Heap) (a : Nat) (v : Option Nat) : Heap :=
  Function.update h a { h a with next := v }

def setPrev (h : Heap) (a : Nat) (v : Option Nat) : Heap :=
  Function.update h a { h a with prev := v }

def setChild (h : Heap) (a : Nat) (v : Option Nat) : Heap :=
  Function.update h a { h a with child := v }

/-- The walk loop `while (c && (which > 0)) { c = c->next; which--; }`. -/
def walkNext (h : Heap) : Option Nat → Nat → Option Nat
  | c, 0 => c
  | none, _ + 1 => none
  | some a, w + 1 => walkNext h (h a).next w

/-- `DetachItemFromArray` (static helper), field write by field write in
source order; returns the detached address (if any) and the updated heap. -/
def DetachItemFromArray (h : Heap) (array : Nat) (which : Nat) :
    Option Nat × Heap :=
  match walkNext h (h array).child which with
  | none => (none, h)
  | some c =>
    let h1 := match (h c).prev with
      | some p => setNext h p (h c).next
      | none => h
    let h2 := match (h1 c).next with
      | some n => setPrev h1 n (h1 c).prev
      | none => h1
    let h3 :=
      if some c = (h2 array).child then setChild h2 array (h2 c).next else h2
    let h4 := setNext (setPrev h3 c none) c none
    (some c, h4)

/-- `cJSON_DetachItemFromArray`: rejects negative indices, then calls the
helper. -/
def cJSON_DetachItemFromArray (h : Heap) (array : Nat) (which : Int) :
    Option Nat × Heap :=
  if which < 0 then (none, h) else DetachItemFromArray h array which.toNat

/-- The chain shape the parser and the splice primitives maintain: `array`'s
`child` points at the head of `ns`, `next` follows `ns` ending in NULL, and
`prev` runs backward ending in NULL. -/
def isChain (h : Heap) (array : Nat) (ns : List Nat) : Prop :=
  (h array).child = ns.head? ∧
  (∀ i : Nat, i < ns.length → (h (ns.getD i 0)).next = ns[i + 1]?) ∧
  (∀ i : Nat, i < ns.length →
    (h (ns.getD i 0)).prev = if i = 0 then none else ns[i - 1]?)

/-! ## The growable print buffer -/

/-- `printbuffer`.  `buffer` is the backing storage; its list length is the
allocated block size, while `length` is the capacity the code tracks.  In
growable mode the two coincide; in fixed-capacity (`noalloc`) mode the
backing list may be longer, so that writes past the tracked capacity would
be visible.  (The NULL-buffer guard of the C code is not modelled: in every
run modelled here the pointer is valid.) -/
structure printbuffer : Type where
  buffer : List Nat
  length : Nat
  offset : Nat
  noalloc : Bool
deriving DecidableEq, Repr

/-- `realloc` to `newsize`, preserving content up to `min` of the sizes and
zero-filling fresh storage (fresh C storage is indeterminate but is never
read before being written; the model fixes it to 0). -/
def reallocBytes (buf : List Nat) (newsize : Nat) : List Nat :=
  buf.take newsize ++ List.replicate (newsize - buf.length) 0

/-- Grow the buffer to `newsize`. -/
def growTo (p : printbuffer) (newsize : Nat) : printbuffer :=
  { p with buffer := reallocBytes p.buffer newsize, length := newsize }

/-- `ensure(p, needed)`: guarantee `needed` more writable bytes at the
current offset.  Returns the updated buffer and the write index (the C
function returns the pointer `buffer + offset`). -/
def ensure (p : printbuffer) (needed0 : Nat) : Option (printbuffer × Nat) :=
  if needed0 > INT_MAX_N then none
  else if needed0 + p.offset ≤ p.length then some (p, p.offset)
  else if p.noalloc then none
  else if (needed0 + p.offset) * 2 > INT_MAX_N then
    if needed0 + p.offset ≤ INT_MAX_N then some (growTo p INT_MAX_N, p.offset)
    else none
  else some (growTo p ((needed0 + p.offset) * 2), p.offset)

/-- `strlen` on the model of C memory. -/
def cstrlen (l : List Nat) : Nat := (l.takeWhile (fun b => b ≠ 0)).length

/-- `update(p)`: offset of the terminator reached by scanning from the
current offset. -/
def update (p : printbuffer) : Nat :=
  p.offset + cstrlen (p.buffer.drop p.offset)

/-- Write a run of bytes at index `i` (each C `*ptr++ = b` or `strcpy` /
`sprintf` body is a run of in-bounds single-byte stores; `List.set` out of
bounds is a no-op, and the theorems prove the stores are in bounds). -/
def writeAt : List Nat → Nat → List Nat → List Nat
  | buf, _, [] => buf
  | buf, i, b :: bs => writeAt (buf.set i b) (i + 1) bs

/-! ## Decimal formatting (the `sprintf` conversions used by the printer) -/

/-- Little-endian decimal digits, fuel-structured so the kernel can evaluate
it (`fuel > n` suffices). -/
def decDigitsAux : Nat → Nat → List Nat
  | 0, _ => []
  | _ + 1, 0 => []
  | fuel + 1, n => (n % 10) :: decDigitsAux fuel (n / 10)

/-- Decimal representation of a natural number, as ASCII bytes. -/
def decRepr (n : Nat) : Bytes :=
  if n = 0 then [48] else ((decDigitsAux (n + 1) n).reverse.map (fun d => d + 48))

/-- `sprintf("%d", i)`. -/
def intRepr (i : Int) : Bytes :=
  if i < 0 then 45 :: decRepr i.natAbs else decRepr i.toNat

/-- Decimal representation zero-padded on the left to width `w`. -/
def zeroPad (w : Nat) (n : Nat) : Bytes :=
  List.replicate (w - (decRepr n).length) 48 ++ decRepr n

/-- Rounding to the nearest integer as done by `printf` when cutting digits.
(`printf` rounds the exact binary value, ties to even; no claim settled here
evaluates a tie, so Mathlib's `round` is used.) -/
def rnd (q : ℚ) : ℤ := round q

/-- `sprintf("%.0f", q)`. -/
def fmtF0 (q : ℚ) : Bytes :=
  if q < 0 then 45 :: decRepr (rnd |q|).toNat else decRepr (rnd q).toNat

/-- `sprintf("%f", q)`: six digits after the decimal point. -/
def fmtF (q : ℚ) : Bytes :=
  let scaled := (rnd (|q| * 1000000)).toNat
  (if q < 0 then [45] else []) ++
    decRepr (scaled / 1000000) ++ 46 :: zeroPad 6 (scaled % 1000000)

/-- Search for the smallest `m ≥ start` with `q * 10^m ≥ 1` (for `0 < q < 1`;
fuel-structured). -/
def negExpAux (q : ℚ) : Nat → Nat → Nat
  | start, 0 => start
  | start, fuel + 1 =>
    if 1 ≤ q * 10 ^ start then start else negExpAux q (start + 1) fuel

/-- `⌊log10 q⌋` for positive `q`. -/
def decExp (q : ℚ) : ℤ :=
  if 1 ≤ q then ((decDigitsAux (⌊q⌋.toNat + 1) ⌊q⌋.toNat).length : ℤ) - 1
  else -(negExpAux q 1 (decDigitsAux (q.den + 1) q.den).length : ℤ)

/-- `sprintf("%e", q)`: normalized mantissa with six digits after the point,
`e`, explicit sign, at least two exponent digits. -/
def fmtE (q : ℚ) : Bytes :=
  if q = 0 then
    [48, 46, 48, 48, 48, 48, 48, 48, 101, 43, 48, 48]
  else
    let a := |q|
    let k := decExp a
    let m := (rnd (a * 10 ^ (6 - k))).toNat
    let mk := if 10000000 ≤ m then (m / 10, k + 1) else (m, k)
    (if q < 0 then [45] else []) ++
      decRepr (mk.1 / 1000000) ++ 46 :: zeroPad 6 (mk.1 % 1000000) ++
      101 :: (if mk.2 < 0 then 45 else 43) :: zeroPad 2 mk.2.natAbs

/-! ## `print_number` -/

/-- "null" as bytes. -/
def nullLit : Bytes := [110, 117, 108, 108]

/-- "true" as bytes. -/
def trueLit : Bytes := [116, 114, 117, 101]

/-- "false" as bytes. -/
def falseLit : Bytes := [102, 97, 108, 115, 101]

/-- The first test of `print_number`: the value is (within `DBL_EPSILON`) its
own integer mirror and lies in the 32-bit `int` range. -/
def numberIntPath (item : cJSON) : Bool :=
  CDouble.le
      (CDouble.fabs (CDouble.sub (.fin ((item.valueint : ℤ) : ℚ)) item.valuedouble))
      (.fin DBL_EPSILON) &&
    CDouble.le item.valuedouble (.fin ((INT_MAX : ℤ) : ℚ)) &&
    CDouble.le (.fin ((INT_MIN : ℤ) : ℚ)) item.valuedouble

/-- The bytes `print_number` renders (the `sprintf` output chosen by its
branch cascade).  The NaN/infinity cases are fully decided by
`timesZeroNeZero` before the rational match, so the non-finite arms of the
match are unreachable. -/
def printNumberBytes (item : cJSON) : Bytes :=
  if numberIntPath item then intRepr item.valueint
  else if item.valuedouble.timesZeroNeZero then nullLit
  else
    match item.valuedouble with
    | .fin q =>
      if |((⌊q⌋ : ℤ) : ℚ) - q| ≤ DBL_EPSILON ∧ |q| < 1000000000000000000000000000000000000000000000000000000000000 then
        fmtF0 q
      else if |q| < 1 / 1000000 ∨ 1000000000 < |q| then fmtE q
      else fmtF q
    | .nan => []
    | .inf _ => []

/-- `print_number`: reserve 21 bytes on the integer path, 64 otherwise, then
`sprintf` into the reserved region (digits plus NUL terminator); the offset
is not advanced (callers re-derive it with `update`). -/
def print_number (item : cJSON) (p : printbuffer) : Option (printbuffer × Nat) :=
  let needed : Nat := if numberIntPath item then 21 else 64
  match ensure p needed with
  | none => none
  | some (p1, ptr) =>
    some ({ p1 with buffer := writeAt p1.buffer ptr (printNumberBytes item ++ [0]) }, ptr)

/-! ## String escaping (`print_string_ptr`) -/

/-- The per-byte test of the printer's first scan: control bytes, the double
quote, and the backslash need escaping. -/
def isSpecialChar (b : Nat) : Bool :=
  (decide (0 < b) && decide (b < 32)) || b == 34 || b == 92

/-- The space the second scan reserves for one byte: 2 for the named escapes,
6 (`\u00XX`) for other control bytes, 1 otherwise. -/
def escapedLen1 (b : Nat) : Nat :=
  if b = 34 ∨ b = 92 ∨ b = 8 ∨ b = 12 ∨ b = 10 ∨ b = 13 ∨ b = 9 then 2
  else if b < 32 then 6 else 1

/-- Lowercase hex digit. -/
def hexDigit (d : Nat) : Nat := if d < 10 then 48 + d else 87 + d

/-- Little-endian hex digits (fuel-structured). -/
def hexDigitsAux : Nat → Nat → List Nat
  | 0, _ => []
  | _ + 1, 0 => []
  | fuel + 1, n => (n % 16) :: hexDigitsAux fuel (n / 16)

/-- `sprintf("%04x", n)`. -/
def hexRepr4 (n : Nat) : Bytes :=
  let ds := if n = 0 then [48] else ((hexDigitsAux (n + 1) n).reverse.map hexDigit)
  List.replicate (4 - ds.length) 48 ++ ds

/-- The escaped form of one byte, as emitted by the copy loop of
`print_string_ptr`. -/
def escapeByte (b : Nat) : Bytes :=
  if 31 < b ∧ b ≠ 34 ∧ b ≠ 92 then [b]
  else
    92 :: (match b with
      | 92 => [92]
      | 34 => [34]
      | 8 => [98]
      | 12 => [102]
      | 10 => [110]
      | 13 => [114]
      | 9 => [116]
      | _ => 117 :: hexRepr4 b)

/-- Escape a whole payload. -/
def escapeBytes (s : Bytes) : Bytes := s.flatMap escapeByte

/-- The C-string content of a payload: everything before the first NUL (the
C loops all stop at the terminator). -/
def cstrContent (s : Bytes) : Bytes := s.takeWhile (fun b => b ≠ 0)

/-- `print_string_ptr`: NULL prints `""`; a payload with nothing to escape is
copied verbatim between quotes; otherwise the exact escaped length is
reserved and the escaped copy emitted.  The net bytes stored are recorded
(intermediate NUL terminators that the C code overwrites are elided). -/
def print_string_ptr (input : Option Bytes) (p : printbuffer) :
    printbuffer × Bool :=
  match input with
  | none =>
    match ensure p 3 with
    | none => (p, false)
    | some (p1, ptr) =>
      ({ p1 with buffer := writeAt p1.buffer ptr [34, 34, 0] }, true)
  | some s0 =>
    let s := cstrContent s0
    if !s.any isSpecialChar then
      match ensure p (s.length + 3) with
      | none => (p, false)
      | some (p1, ptr) =>
        ({ p1 with buffer := writeAt p1.buffer ptr (34 :: (s ++ [34, 0])) }, true)
    else
      let len := (s.map escapedLen1).sum
      match ensure p (len + 3) with
      | none => (p, false)
      | some (p1, ptr) =>
        ({ p1 with buffer := writeAt p1.buffer ptr (34 :: (escapeBytes s ++ [34, 0])) },
          true)

/-- `print_string`. -/
def print_string (item : cJSON) (p : printbuffer) : printbuffer × Bool :=
  print_string_ptr item.valuestring p

/-! ## The printer (`print_value`, `print_array`, `print_object`)

Failure returns the buffer state reached at the failure point, so that the
fixed-capacity claims can speak about failing runs too.  The C functions
return a byte pointer that callers only NULL-test; the model returns the
success flag. -/

/-- `print_number` with the state-preserving signature. -/
def print_number_s (item : cJSON) (p : printbuffer) : printbuffer × Bool :=
  match print_number item p with
  | none => (p, false)
  | some (p1, _) => (p1, true)

/-- Reserve `needed` bytes and `strcpy` a literal (plus terminator). -/
def writeLit (p : printbuffer) (needed : Nat) (lit : Bytes) :
    printbuffer × Bool :=
  match ensure p needed with
  | none => (p, false)
  | some (p1, ptr) =>
    ({ p1 with buffer := writeAt p1.buffer ptr (lit ++ [0]) }, true)

mutual

/-- Number of nodes of a tree (what `cJSON_Delete` frees). -/
def nodeCount : cJSON → Nat
  | .mk _ _ _ _ _ c => 1 + nodeCountList c

/-- Number of nodes of a sibling list. -/
def nodeCountList : List cJSON → Nat
  | [] => 0
  | x :: xs => nodeCount x + nodeCountList xs

end

/-! The printer's recursion is fuel-structured so that the kernel can
evaluate it; fuel exhaustion acts like the code's allocation-failure paths
(fail, no write), and the entry points supply fuel that the recursion — one
unit per `print_value`/container/loop step, two steps per node — can never
exhaust. -/

mutual

/-- `print_value`: dispatch on `(type) & 0xFF`. -/
def print_value : Nat → cJSON → Nat → Bool → printbuffer → printbuffer × Bool
  | 0, _, _, _, p => (p, false)
  | fuel + 1, item, depth, fmt, p =>
  let t := item.type % 256
  if t = cJSON_NULL then writeLit p 5 nullLit
  else if t = cJSON_False then writeLit p 6 falseLit
  else if t = cJSON_True then writeLit p 5 trueLit
  else if t = cJSON_Number then print_number_s item p
  else if t = cJSON_Raw then
    match item.valuestring with
    | none => (p, false)
    | some raw0 =>
      let raw := cstrContent raw0
      match ensure p (raw.length + 1) with
      | none => (p, false)
      | some (p1, ptr) =>
        ({ p1 with buffer := writeAt p1.buffer ptr (raw ++ [0]) }, true)
  else if t = cJSON_String then print_string item p
  else if t = cJSON_Array then print_array fuel item depth fmt p
  else if t = cJSON_Object then print_object fuel item depth fmt p
  else (p, false)

/-- `print_array`. -/
def print_array : Nat → cJSON → Nat → Bool → printbuffer → printbuffer × Bool
  | 0, _, _, _, p => (p, false)
  | fuel + 1, item, depth, fmt, p =>
  if item.child.length = 0 then
    match ensure p 3 with
    | none => (p, false)
    | some (p1, ptr) =>
      ({ p1 with buffer := writeAt p1.buffer ptr [91, 93, 0] }, true)
  else
    match ensure p 1 with
    | none => (p, false)
    | some (p1, ptr) =>
      let p2 := { p1 with buffer := p1.buffer.set ptr 91, offset := p1.offset + 1 }
      match print_array_items fuel item.child depth fmt p2 with
      | (p3, false) => (p3, false)
      | (p3, true) =>
        match ensure p3 2 with
        | none => (p3, false)
        | some (p4, ptr2) =>
          ({ p4 with buffer := writeAt p4.buffer ptr2 [93, 0] }, true)

/-- The element loop of `print_array`: child, then `,` (plus a space when
formatted) between elements. -/
def print_array_items : Nat → List cJSON → Nat → Bool → printbuffer → printbuffer × Bool
  | 0, _, _, _, p => (p, false)
  | fuel + 1, children, depth, fmt, p =>
  match children with
  | [] => (p, true)
  | child :: rest =>
    match print_value fuel child (depth + 1) fmt p with
    | (p1, false) => (p1, false)
    | (p1, true) =>
      let p2 := { p1 with offset := update p1 }
      if rest.isEmpty then (p2, true)
      else
        let len : Nat := if fmt then 2 else 1
        match ensure p2 (len + 1) with
        | none => (p2, false)
        | some (p3, ptr) =>
          let p4 := { p3 with
            buffer := writeAt p3.buffer ptr ((if fmt then [44, 32] else [44]) ++ [0]),
            offset := p3.offset + len }
          print_array_items fuel rest depth fmt p4

/-- `print_object`. -/
def print_object : Nat → cJSON → Nat → Bool → printbuffer → printbuffer × Bool
  | 0, _, _, _, p => (p, false)
  | fuel + 1, item, depth, fmt, p =>
  if item.child.length = 0 then
    match ensure p (if fmt then depth + 4 else 3) with
    | none => (p, false)
    | some (p1, ptr) =>
      let bytes := 123 :: ((if fmt then 10 :: List.replicate depth 9 else []) ++ [125, 0])
      ({ p1 with buffer := writeAt p1.buffer ptr bytes }, true)
  else
    let len : Nat := if fmt then 2 else 1
    match ensure p (len + 1) with
    | none => (p, false)
    | some (p1, ptr) =>
      let p2 := { p1 with
        buffer := writeAt p1.buffer ptr (123 :: ((if fmt then [10] else []) ++ [0])),
        offset := p1.offset + len }
      match print_object_items fuel item.child (depth + 1) fmt p2 with
      | (p3, false) => (p3, false)
      | (p3, true) =>
        match ensure p3 (if fmt then (depth + 1) + 1 else 2) with
        | none => (p3, false)
        | some (p4, ptr2) =>
          let bytes := (if fmt then List.replicate depth 9 else []) ++ [125, 0]
          ({ p4 with buffer := writeAt p4.buffer ptr2 bytes }, true)

/-- The member loop of `print_object` (`depth1` is the already-incremented
depth): indentation, key, `:`, value, then `,`/newline bookkeeping. -/
def print_object_items : Nat → List cJSON → Nat → Bool → printbuffer → printbuffer × Bool
  | 0, _, _, _, p => (p, false)
  | fuel + 1, children, depth1, fmt, p =>
  match children with
  | [] => (p, true)
  | child :: rest =>
    let step1 : printbuffer × Bool :=
      if fmt then
        match ensure p depth1 with
        | none => (p, false)
        | some (pa, ptr) =>
          let buf := writeAt pa.buffer ptr (List.replicate depth1 9)
          ({ pa with buffer := buf, offset := pa.offset + depth1 }, true)
      else (p, true)
    match step1 with
    | (p1, false) => (p1, false)
    | (p1, true) =>
      match print_string_ptr child.string p1 with
      | (p2, false) => (p2, false)
      | (p2, true) =>
        let p3 := { p2 with offset := update p2 }
        let len : Nat := if fmt then 2 else 1
        match ensure p3 len with
        | none => (p3, false)
        | some (p4, ptr) =>
          let p5 := { p4 with
            buffer := writeAt p4.buffer ptr (58 :: (if fmt then [9] else [])),
            offset := p4.offset + len }
          match print_value fuel child depth1 fmt p5 with
          | (p6, false) => (p6, false)
          | (p6, true) =>
            let p7 := { p6 with offset := update p6 }
            let len2 : Nat :=
              (if fmt then 1 else 0) + (if rest.isEmpty then 0 else 1)
            match ensure p7 (len2 + 1) with
            | none => (p7, false)
            | some (p8, ptr2) =>
              let p9 := { p8 with
                buffer := writeAt p8.buffer ptr2
                  ((if rest.isEmpty then [] else [44]) ++
                    (if fmt then [10] else []) ++ [0]),
                offset := p8.offset + len2 }
              print_object_items fuel rest depth1 fmt p9

end

/-- `print`: allocate a 256-byte growable buffer, print, re-derive the
length, and hand back the rendered bytes (the content of the returned C
string, terminator excluded). -/
def print (item : cJSON) (format : Bool) : Option Bytes :=
  let buffer : printbuffer :=
    { buffer := List.replicate 256 0, length := 256, offset := 0, noalloc := false }
  match print_value (2 * nodeCount item + 2) item 0 format buffer with
  | (_, false) => none
  | (p1, true) => some (p1.buffer.take (update p1))

/-- `cJSON_Print`. -/
def cJSON_Print (item : cJSON) : Option Bytes := print item true

/-- `cJSON_PrintUnformatted`. -/
def cJSON_PrintUnformatted (item : cJSON) : Option Bytes := print item false

/-- `cJSON_PrintPreallocated`: print into caller storage `buf` of claimed
capacity `len`, never growing.  Returns the final memory and the success
flag. -/
def cJSON_PrintPreallocated (item : cJSON) (buf : List Nat) (len : Int)
    (fmt : Bool) : List Nat × Bool :=
  if len < 0 then (buf, false)
  else
    let p : printbuffer :=
      { buffer := buf, length := len.toNat, offset := 0, noalloc := true }
    match print_value (2 * nodeCount item + 2) item 0 fmt p with
    | (p1, ok) => (p1.buffer, ok)

/-! ## The parser -/

theorem byteAt_pos_lt {s : Bytes} {i : Nat} (h : 0 < byteAt s i) : i < s.length := by
  by_contra hc
  have : byteAt s i = 0 := List.getD_eq_default _ _ (Nat.le_of_not_lt hc)
  omega

/-- The loop of `skip_whitespace` (bytes `≤ 32` are whitespace; the
terminator stops it).  Fuel-structured so the kernel can evaluate it; the
wrapper below supplies always-adequate fuel. -/
def skipWsFuel (text : Bytes) : Nat → Nat → Nat
  | 0, pos => pos
  | fuel + 1, pos =>
    if 0 < byteAt text pos ∧ byteAt text pos ≤ 32 then skipWsFuel text fuel (pos + 1)
    else pos

/-- `skip_whitespace` from `pos` (the loop runs at most `text.length - pos`
times, so the supplied fuel is never exhausted). -/
def skipWsAux (text : Bytes) (pos : Nat) : Nat :=
  skipWsFuel text (text.length + 1) pos

/-- ASCII digit test. -/
def isDigit (b : Nat) : Bool := decide (48 ≤ b) && decide (b ≤ 57)

/-- Length of the run of digits starting at `pos` (fuel-structured). -/
def digitRunFuel (text : Bytes) : Nat → Nat → Nat
  | 0, _ => 0
  | fuel + 1, pos =>
    if isDigit (byteAt text pos) then digitRunFuel text fuel (pos + 1) + 1
    else 0

/-- Length of the run of digits starting at `pos`. -/
def digitRun (text : Bytes) (pos : Nat) : Nat :=
  digitRunFuel text (text.length + 1) pos

/-- Value of the `n` digits starting at `pos` (big-endian). -/
def digitsVal (text : Bytes) (pos : Nat) : Nat → Nat
  | 0 => 0
  | n + 1 => digitsVal text pos n * 10 + (byteAt text (pos + n) - 48)

/-- Model of C `strtod` on the decimal forms the parser can reach: optional
sign, digits with optional fraction, optional exponent.  Returns the exact
value and the end position (`= pos` when nothing was converted, like
`strtod` leaving `endptr = input`).  Hexadecimal floats and the `inf`/`nan`
words are outside the JSON-reachable subset and are not modelled; IEEE
rounding of the decimal value is not modelled (exact rationals). -/
def strtodM (text : Bytes) (pos : Nat) : ℚ × Nat :=
  let neg := byteAt text pos = 45
  let hasSign := neg ∨ byteAt text pos = 43
  let p1 := if hasSign then pos + 1 else pos
  let k1 := digitRun text p1
  let intVal := digitsVal text p1 k1
  let hasDot := byteAt text (p1 + k1) = 46
  let pFrac := p1 + k1 + 1
  let k2 := if hasDot then digitRun text pFrac else 0
  let fracVal := digitsVal text pFrac k2
  if k1 + k2 = 0 then (0, pos)
  else
    let pm := if hasDot then pFrac + k2 else p1 + k1
    let eb := byteAt text pm
    let hasE := eb = 101 ∨ eb = 69
    let esb := byteAt text (pm + 1)
    let eneg := esb = 45
    let eSign := eneg ∨ esb = 43
    let pe := if eSign then pm + 2 else pm + 1
    let k3 := if hasE then digitRun text pe else 0
    let eVal : ℤ := if eneg then -(digitsVal text pe k3 : ℤ) else (digitsVal text pe k3 : ℤ)
    let endPos := if hasE ∧ k3 ≠ 0 then pe + k3 else pm
    let mag : ℚ := ((intVal : ℚ) + (fracVal : ℚ) / 10 ^ k2) *
      (if hasE ∧ k3 ≠ 0 then (10 : ℚ) ^ eVal else 1)
    ((if neg then -mag else mag), endPos)

/-- `parse_number`: fail when `strtod` consumed nothing, else populate the
value and its saturated mirror. -/
def parse_number (text : Bytes) (pos : Nat) : Option (cJSON × Nat) :=
  let r := strtodM text pos
  if r.2 = pos then none
  else
    some (.mk cJSON_Number none (saturatedInt (.fin r.1)) (.fin r.1) none [], r.2)

/-- One hex digit (`parse_hex4` rejects anything else). -/
def hexVal (c : Nat) : Option Nat :=
  if 48 ≤ c ∧ c ≤ 57 then some (c - 48)
  else if 65 ≤ c ∧ c ≤ 70 then some (10 + c - 65)
  else if 97 ≤ c ∧ c ≤ 102 then some (10 + c - 97)
  else none

/-- `parse_hex4`: four hex digits at `pos`; any invalid digit yields 0 (the
caller then rejects the zero codepoint). -/
def parse_hex4 (text : Bytes) (pos : Nat) : Nat :=
  match hexVal (byteAt text pos), hexVal (byteAt text (pos + 1)),
      hexVal (byteAt text (pos + 2)), hexVal (byteAt text (pos + 3)) with
  | some a, some b, some c, some d => ((a * 16 + b) * 16 + c) * 16 + d
  | _, _, _, _ => 0

/-- The UTF-8 encoding switch of `utf16_literal_to_utf8` in closed form: the
C loop emits `0x80 | (cp & 0x3F)` continuation bytes while shifting, then the
length-marked first byte; on the reachable ranges that is exactly the
arithmetic below. -/
def encodeUTF8 (cp : Nat) : Bytes :=
  if cp < 128 then [cp]
  else if cp < 2048 then [192 + cp / 64, 128 + cp % 64]
  else if cp < 65536 then [224 + cp / 4096, 128 + cp / 64 % 64, 128 + cp % 64]
  else [240 + cp / 262144, 128 + cp / 4096 % 64, 128 + cp / 64 % 64, 128 + cp % 64]

/-- `utf16_literal_to_utf8` at the escape starting at `ip` (pointing at the
backslash), inside a string ending at `input_end`.  Returns the consumed
length (6 or 12) and the emitted UTF-8 bytes; `none` is failure (the C code
sets the error pointer to `ip` on every failure path).
Surrogate constants: 0xD800 = 55296, 0xDBFF = 56319, 0xDC00 = 56320,
0xDFFF = 57343. -/
def utf16_literal_to_utf8 (text : Bytes) (ip input_end : Nat) :
    Option (Nat × Bytes) :=
  if input_end < ip + 6 then none
  else if (56320 ≤ parse_hex4 text (ip + 2) ∧ parse_hex4 text (ip + 2) ≤ 57343) ∨
      parse_hex4 text (ip + 2) = 0 then none
  else if 55296 ≤ parse_hex4 text (ip + 2) ∧ parse_hex4 text (ip + 2) ≤ 56319 then
    if input_end < (ip + 6) + 6 then none
    else if byteAt text (ip + 6) ≠ 92 ∨ byteAt text (ip + 7) ≠ 117 then none
    else if parse_hex4 text (ip + 8) < 56320 ∨ 57343 < parse_hex4 text (ip + 8) then none
    else if 1114111 < 65536 + ((parse_hex4 text (ip + 2) % 1024) * 1024 +
        (parse_hex4 text (ip + 8) % 1024)) then none
    else some (12, encodeUTF8 (65536 + ((parse_hex4 text (ip + 2) % 1024) * 1024 +
        (parse_hex4 text (ip + 8) % 1024))))
  else
    if 1114111 < parse_hex4 text (ip + 2) then none
    else some (6, encodeUTF8 (parse_hex4 text (ip + 2)))

/-- The first scan of `parse_string`: find the closing quote, honouring
escapes; `none` when the literal is unterminated (including a trailing
backslash), in which case the C code fails without setting the error
pointer. -/
def scanStringEndFuel (text : Bytes) : Nat → Nat → Option Nat
  | 0, _ => none
  | fuel + 1, pos =>
    if byteAt text pos = 34 then some pos
    else if byteAt text pos = 0 then none
    else if byteAt text pos = 92 then
      if byteAt text (pos + 1) = 0 then none
      else scanStringEndFuel text fuel (pos + 2)
    else scanStringEndFuel text fuel (pos + 1)

/-- The first scan with always-adequate fuel (each iteration advances,
starting from a live byte, so at most `text.length - pos` iterations run). -/
def scanStringEnd (text : Bytes) (pos : Nat) : Option Nat :=
  scanStringEndFuel text (text.length + 1) pos

/-- The named escapes of the copy loop (the `\u` case is separate). -/
def escUnescape : Nat → Option Nat
  | 98 => some 8
  | 102 => some 12
  | 110 => some 10
  | 114 => some 13
  | 116 => some 9
  | 34 => some 34
  | 92 => some 92
  | 47 => some 47
  | _ => none

/-- The copy loop of `parse_string`, from `ip` up to `input_end` (the closing
quote found by the scan).  Failure carries the error position (all copy-loop
failures set it to the backslash of the offending escape).  Fuel-structured;
`parse_string` supplies fuel exceeding the iteration count. -/
def copyStringAux (text : Bytes) (input_end : Nat) : Nat → Nat → Except Nat Bytes
  | 0, ip => if input_end ≤ ip then .ok [] else .error ip
  | fuel + 1, ip =>
    if input_end ≤ ip then .ok []
    else
      let b := byteAt text ip
      if b ≠ 92 then
        (copyStringAux text input_end fuel (ip + 1)).map (fun rest => b :: rest)
      else
        let e := byteAt text (ip + 1)
        if e = 117 then
          match utf16_literal_to_utf8 text ip input_end with
          | none => .error ip
          | some (seqlen, utf8) =>
            (copyStringAux text input_end fuel (ip + seqlen)).map
              (fun rest => utf8 ++ rest)
        else
          match escUnescape e with
          | none => .error ip
          | some c =>
            (copyStringAux text input_end fuel (ip + 2)).map (fun rest => c :: rest)

/-- `parse_string` at `pos` (which must hold the opening quote), with the
current error pointer threaded through: returns the unescaped content and
the position after the closing quote, or a failure with the (possibly
updated) error pointer — unterminated literals fail without touching it. -/
def parse_string (text : Bytes) (pos : Nat) (ep : Option Nat) :
    Option (Bytes × Nat) × Option Nat :=
  if byteAt text pos ≠ 34 then (none, some pos)
  else
    match scanStringEnd text (pos + 1) with
    | none => (none, ep)
    | some input_end =>
      match copyStringAux text input_end (input_end + 1) (pos + 1) with
      | .error e => (none, some e)
      | .ok content => (some (content, input_end + 1), ep)

/-- `strncmp(input, lit, |lit|) == 0`: exact prefix match (reads past the
stored text see the terminator, so a short input cannot match). -/
def matchLit (text : Bytes) (pos : Nat) : Bytes → Bool
  | [] => true
  | b :: rest => byteAt text pos == b && matchLit text (pos + 1) rest

/-- Parser-side state: the error pointer (a byte position, `none` = NULL)
and the census of node allocations and node frees. -/
structure PSt : Type where
  ep : Option Nat
  alloc : Nat
  freed : Nat
deriving DecidableEq, Repr

/-- `cJSON_New_Item` in the census. -/
def PSt.allocate (st : PSt) : PSt := { st with alloc := st.alloc + 1 }

/-- `cJSON_Delete` of a partial sibling list (`n` nodes) in the census. -/
def PSt.free (st : PSt) (n : Nat) : PSt := { st with freed := st.freed + n }

/-- Set the error pointer. -/
def PSt.seterr (st : PSt) (pos : Nat) : PSt := { st with ep := some pos }

mutual

/-- `parse_value`: dispatch on the lookahead byte.  Fuel-structured: fuel
exhaustion behaves like the code's allocation-failure path (fail, freeing
what the enclosing container built); the canonical entry point supplies
more than enough fuel for any input it models. -/
def parse_value : Nat → Bytes → Nat → PSt → Option (cJSON × Nat) × PSt
  | 0, _, _, st => (none, st)
  | fuel + 1, text, pos, st =>
    if matchLit text pos nullLit then
      (some (.mk cJSON_NULL none 0 (.fin 0) none [], pos + 4), st)
    else if matchLit text pos falseLit then
      (some (.mk cJSON_False none 0 (.fin 0) none [], pos + 5), st)
    else if matchLit text pos trueLit then
      (some (.mk cJSON_True none 1 (.fin 0) none [], pos + 4), st)
    else if byteAt text pos = 34 then
      match parse_string text pos st.ep with
      | (none, ep) => (none, { st with ep := ep })
      | (some (content, after), ep) =>
        (some (.mk cJSON_String (some content) 0 (.fin 0) none [], after),
          { st with ep := ep })
    else if byteAt text pos = 45 ∨ (48 ≤ byteAt text pos ∧ byteAt text pos ≤ 57) then
      match parse_number text pos with
      | none => (none, st)
      | some (item, after) => (some (item, after), st)
    else if byteAt text pos = 91 then parse_array fuel text pos st
    else if byteAt text pos = 123 then parse_object fuel text pos st
    else (none, st.seterr pos)

/-- `parse_array`. -/
def parse_array : Nat → Bytes → Nat → PSt → Option (cJSON × Nat) × PSt
  | 0, _, _, st => (none, st)
  | fuel + 1, text, pos, st =>
    if byteAt text pos ≠ 91 then (none, st.seterr pos)
    else
      let pos1 := skipWsAux text (pos + 1)
      if byteAt text pos1 = 93 then
        (some (.mk cJSON_Array none 0 (.fin 0) none [], pos1 + 1), st)
      else
        match parse_array_items fuel text (pos + 1) [] st with
        | (none, st2) => (none, st2)
        | (some (items, after), st2) =>
          (some (.mk cJSON_Array none 0 (.fin 0) none items, after), st2)

/-- The element loop of `parse_array`: `pos` is just past the `[` or the
`,`; every failure path deletes the whole sibling list built so far
(including the element node the failure happened on). -/
def parse_array_items :
    Nat → Bytes → Nat → List cJSON → PSt → Option (List cJSON × Nat) × PSt
  | 0, _, _, items, st => (none, (st.free (nodeCountList items + 1)).allocate)
  | fuel + 1, text, pos, items, st =>
    let posv := skipWsAux text pos
    let st1 := st.allocate
    match parse_value fuel text posv st1 with
    | (none, st2) => (none, st2.free (nodeCountList items + 1))
    | (some (item, pos2), st2) =>
      let pos3 := skipWsAux text pos2
      if byteAt text pos3 = 44 then
        parse_array_items fuel text (pos3 + 1) (items ++ [item]) st2
      else if byteAt text pos3 = 93 then
        (some (items ++ [item], pos3 + 1), st2)
      else
        (none, (st2.seterr pos3).free (nodeCountList items + nodeCount item))

/-- `parse_object`. -/
def parse_object : Nat → Bytes → Nat → PSt → Option (cJSON × Nat) × PSt
  | 0, _, _, st => (none, st)
  | fuel + 1, text, pos, st =>
    if byteAt text pos ≠ 123 then (none, st.seterr pos)
    else
      let pos1 := skipWsAux text (pos + 1)
      if byteAt text pos1 = 125 then
        (some (.mk cJSON_Object none 0 (.fin 0) none [], pos1 + 1), st)
      else
        match parse_object_items fuel text (pos + 1) [] st with
        | (none, st2) => (none, st2)
        | (some (items, after), st2) =>
          (some (.mk cJSON_Object none 0 (.fin 0) none items, after), st2)

/-- The member loop of `parse_object`: name (via the string rule, then moved
into the key slot), `:`, value; same cleanup discipline as the array loop. -/
def parse_object_items :
    Nat → Bytes → Nat → List cJSON → PSt → Option (List cJSON × Nat) × PSt
  | 0, _, _, items, st => (none, (st.free (nodeCountList items + 1)).allocate)
  | fuel + 1, text, pos, items, st =>
    let posk := skipWsAux text pos
    let st1 := st.allocate
    match parse_string text posk st1.ep with
    | (none, ep) => (none, ({ st1 with ep := ep }).free (nodeCountList items + 1))
    | (some (key, pos2), ep) =>
      let st2 : PSt := { st1 with ep := ep }
      let pos3 := skipWsAux text pos2
      if byteAt text pos3 ≠ 58 then
        (none, (st2.seterr pos3).free (nodeCountList items + 1))
      else
        let posv := skipWsAux text (pos3 + 1)
        match parse_value fuel text posv st2 with
        | (none, st3) => (none, st3.free (nodeCountList items + 1))
        | (some (item, pos4), st3) =>
          let item1 : cJSON := .mk item.type item.valuestring item.valueint
            item.valuedouble (some key) item.child
          let pos5 := skipWsAux text pos4
          if byteAt text pos5 = 44 then
            parse_object_items fuel text (pos5 + 1) (items ++ [item1]) st3
          else if byteAt text pos5 = 125 then
            (some (items ++ [item1], pos5 + 1), st3)
          else
            (none, (st3.seterr pos5).free (nodeCountList items + nodeCount item1))

end

/-- `cJSON_ParseWithOpts` (the internal fuel is model plumbing; it is chosen
generously so that no input this model covers can exhaust it).  Returns the
parsed root and end position (or `none`), the retained error position (the
caller-visible `*ep` / `global_ep`, NULL-initialised), and the final
allocation census. -/
def cJSON_ParseWithOpts (text : Bytes) (require_null_terminated : Bool) :
    Option (cJSON × Nat) × Option Nat × PSt :=
  let st0 : PSt := { ep := none, alloc := 1, freed := 0 }
  match parse_value (2 * text.length + 2) text (skipWsAux text 0) st0 with
  | (none, st) => (none, st.ep, st.free 1)
  | (some (c, endPos), st) =>
    if require_null_terminated then
      let endPos2 := skipWsAux text endPos
      if byteAt text endPos2 ≠ 0 then
        (none, some endPos2, (st.seterr endPos2).free (nodeCount c))
      else (some (c, endPos2), st.ep, st)
    else (some (c, endPos), st.ep, st)

/-- `cJSON_Parse`. -/
def cJSON_Parse (text : Bytes) : Option (cJSON × Nat) × Option Nat × PSt :=
  cJSON_ParseWithOpts text false

/-! ## Basic lemmas: reads of written buffers, `ensure` -/

theorem byteAt_set_ne (buf : List Nat) (i j b : Nat) (h : i ≠ j) :
    byteAt (buf.set i b) j = byteAt buf j := by
  simp [byteAt, List.getD, List.getElem?_set_ne h]

theorem byteAt_set_eq (buf : List Nat) (i b : Nat) (h : i < buf.length) :
    byteAt (buf.set i b) i = b := by
  simp [byteAt, List.getD, List.getElem?_set_self, h]

theorem writeAt_length (bs : Bytes) :
    ∀ (buf : List Nat) (i : Nat), (writeAt buf i bs).length = buf.length := by
  induction bs with
  | nil => intro buf i; rfl
  | cons b rest ih => intro buf i; simp only [writeAt, ih, List.length_set]

theorem byteAt_writeAt_lt (bs : Bytes) :
    ∀ (buf : List Nat) (i j : Nat), j < i →
      byteAt (writeAt buf i bs) j = byteAt buf j := by
  induction bs with
  | nil => intros; rfl
  | cons b rest ih =>
    intro buf i j hj
    simp only [writeAt]
    rw [ih _ _ _ (by omega), byteAt_set_ne _ _ _ _ (by omega)]

theorem byteAt_writeAt_ge (bs : Bytes) :
    ∀ (buf : List Nat) (i j : Nat), i + bs.length ≤ j →
      byteAt (writeAt buf i bs) j = byteAt buf j := by
  induction bs with
  | nil => intros; rfl
  | cons b rest ih =>
    intro buf i j hj
    simp only [writeAt, List.length_cons] at *
    rw [ih _ _ _ (by omega), byteAt_set_ne _ _ _ _ (by omega)]

theorem byteAt_writeAt_in (bs : Bytes) :
    ∀ (buf : List Nat) (i k : Nat), i + bs.length ≤ buf.length → k < bs.length →
      byteAt (writeAt buf i bs) (i + k) = byteAt bs k := by
  induction bs with
  | nil => intro _ _ _ _ hk; exact absurd hk (by simp)
  | cons b rest ih =>
    intro buf i k hb hk
    simp only [writeAt, List.length_cons] at *
    match k with
    | 0 =>
      rw [byteAt_writeAt_lt rest (buf.set i b) (i + 1) (i + 0) (by omega)]
      simpa using byteAt_set_eq buf i b (by omega)
    | k + 1 =>
      have heq : i + (k + 1) = (i + 1) + k := by omega
      rw [heq, ih (buf.set i b) (i + 1) k (by simp; omega) (by omega)]
      rfl

/-- The buffer-wellformedness the printer maintains: the tracked capacity is
backed by real storage, and a growable buffer's storage is exactly the
tracked capacity. -/
def bufOk (p : printbuffer) : Prop :=
  p.length ≤ p.buffer.length ∧ (p.noalloc = false → p.buffer.length = p.length)

theorem ensure_fits {p : printbuffer} {n : Nat} (h : p.offset + n ≤ p.length)
    (hcap : p.length ≤ INT_MAX_N) : ensure p n = some (p, p.offset) := by
  have hn : ¬ n > INT_MAX_N := by omega
  unfold ensure
  rw [if_neg hn, if_pos (by omega)]

theorem ensure_some {p p' : printbuffer} {n ptr : Nat}
    (h : ensure p n = some (p', ptr)) (hok : bufOk p) :
    ptr = p.offset ∧ p'.offset = p.offset ∧ p'.noalloc = p.noalloc ∧
      p.offset + n ≤ p'.length ∧ p.length ≤ p'.length ∧ bufOk p' ∧
      (∀ j, j < p.length → byteAt p'.buffer j = byteAt p.buffer j) ∧
      (p.noalloc = true → p' = p) := by
  have hgrow : ∀ ns, growTo p ns = p' → p.length < ns → p.noalloc = false →
      p'.offset = p.offset ∧ p'.noalloc = p.noalloc ∧
      ns = p'.length ∧ p.length ≤ p'.length ∧ bufOk p' ∧
      (∀ j, j < p.length → byteAt p'.buffer j = byteAt p.buffer j) ∧
      (p.noalloc = true → p' = p) := by
    intro ns hp hlt hna
    subst hp
    have hb : (growTo p ns).buffer.length = ns := by
      simp [growTo, reallocBytes]
      have := hok.2 hna
      omega
    refine ⟨rfl, rfl, rfl, by simp [growTo]; omega,
      ⟨by simp only [growTo] at hb ⊢; omega, fun _ => by simp only [growTo] at hb ⊢; omega⟩,
      ?_, ?_⟩
    · intro j hj
      have hblen := hok.1
      simp only [growTo, reallocBytes, byteAt]
      rw [List.getD_append _ _ _ _ (by simp; omega)]
      rw [List.getD_eq_getElem?_getD, List.getElem?_take_of_lt (by omega),
        ← List.getD_eq_getElem?_getD]
    · intro hcontra; rw [hcontra] at hna; simp at hna
  unfold ensure at h
  split at h
  · exact absurd h (by simp)
  next hbig =>
    split at h
    next hfit =>
      obtain ⟨rfl, rfl⟩ : p' = p ∧ ptr = p.offset := by
        cases h; exact ⟨rfl, rfl⟩
      exact ⟨rfl, rfl, rfl, by omega, le_refl _, hok, fun _ _ => rfl, fun _ => rfl⟩
    next hfit =>
      split at h
      · exact absurd h (by simp)
      next hna =>
        have hna' : p.noalloc = false := by
          cases hp : p.noalloc
          · rfl
          · exact absurd hp hna
        split at h
        next hdouble =>
          split at h
          next hcap =>
            obtain ⟨rfl, rfl⟩ : p' = growTo p INT_MAX_N ∧ ptr = p.offset := by
              cases h; exact ⟨rfl, rfl⟩
            have := hgrow INT_MAX_N rfl (by omega) hna'
            refine ⟨rfl, this.1, this.2.1, ?_, this.2.2.2.1, this.2.2.2.2.1,
              this.2.2.2.2.2.1, this.2.2.2.2.2.2⟩
            omega
          · exact absurd h (by simp)
        next hdouble =>
          obtain ⟨rfl, rfl⟩ : p' = growTo p ((n + p.offset) * 2) ∧ ptr = p.offset := by
            cases h; exact ⟨rfl, rfl⟩
          have := hgrow _ rfl (by omega) hna'
          refine ⟨rfl, this.1, this.2.1, ?_, this.2.2.2.1, this.2.2.2.2.1,
            this.2.2.2.2.2.1, this.2.2.2.2.2.2⟩
          omega

/-! ## Digit lemmas for the numeric formatter -/

theorem decDigitsAux_lt_ten :
    ∀ (fuel n d : Nat), d ∈ decDigitsAux fuel n → d < 10 := by
  intro fuel
  induction fuel with
  | zero => intro n d hd; simp [decDigitsAux] at hd
  | succ f ih =>
    intro n d hd
    match n with
    | 0 => simp [decDigitsAux] at hd
    | n + 1 =>
      simp only [decDigitsAux, List.mem_cons] at hd
      rcases hd with h | h
      · omega
      · exact ih _ _ h

theorem decRepr_digit_range {n b : Nat} (h : b ∈ decRepr n) : 48 ≤ b ∧ b ≤ 57 := by
  unfold decRepr at h
  split at h
  · simp at h; omega
  · simp only [List.mem_map, List.mem_reverse] at h
    obtain ⟨d, hd, rfl⟩ := h
    have := decDigitsAux_lt_ten _ _ _ hd
    omega

theorem intRepr_byte_range {i : Int} {b : Nat} (h : b ∈ intRepr i) :
    b = 45 ∨ (48 ≤ b ∧ b ≤ 57) := by
  unfold intRepr at h
  split at h
  · simp only [List.mem_cons] at h
    rcases h with rfl | h
    · exact Or.inl rfl
    · exact Or.inr (decRepr_digit_range h)
  · exact Or.inr (decRepr_digit_range h)

theorem fmtF0_byte_range {q : ℚ} {b : Nat} (h : b ∈ fmtF0 q) :
    b = 45 ∨ (48 ≤ b ∧ b ≤ 57) := by
  unfold fmtF0 at h
  split at h
  · simp only [List.mem_cons] at h
    rcases h with rfl | h
    · exact Or.inl rfl
    · exact Or.inr (decRepr_digit_range h)
  · exact Or.inr (decRepr_digit_range h)

/-! ## Claim C3: numeric saturation, and the `cJSON_SetNumberHelper` slip -/

/-- C3: `parse_number` and `cJSON_CreateNumber` populate the 32-bit mirror by
saturation (shown at 100, at 1e10 > `INT_MAX`, and at -1e10 < `INT_MIN`),
but `cJSON_SetNumberHelper`'s in-range branch stores the type-tag constant
`cJSON_Number` into `valueint` instead of `(int)number`: for the in-range
input 100.0 the mirror comes out as `cJSON_Number ≠ 100`.  This theorem
evaluates the code at that failing input. -/
theorem C3_setNumberHelper_stores_type_constant :
    parse_number [49, 48, 48] 0 =
      some (.mk cJSON_Number none 100 (.fin 100) none [], 3) ∧
    (cJSON_CreateNumber (.fin 100)).valueint = 100 ∧
    (cJSON_CreateNumber (.fin 10000000000)).valueint = INT_MAX ∧
    (cJSON_CreateNumber (.fin (-10000000000))).valueint = INT_MIN ∧
    (cJSON_SetNumberHelper cJSON_New_Item (.fin 100)).valuedouble = .fin 100 ∧
    (cJSON_SetNumberHelper cJSON_New_Item (.fin 100)).valueint = (cJSON_Number : Int) ∧
    (cJSON_Number : Int) ≠ 100 := by
  refine ⟨?_, ?_, ?_, ?_, ?_, ?_, by norm_num [cJSON_Number]⟩ <;> with_unfolding_all rfl

/-! ## Claim C8: the number formatting heuristics -/

/-- C8: printing `Number(3.0)` yields exactly `3`; printing `Number(1e100)`
yields exponential notation (`1.000000e+100`); printing a NaN-valued (or
infinite) `Number` yields the literal `null`; and any `Number` holding a
finite whole value of magnitude below 1e60 prints with zero decimal digits —
its rendering contains neither `.` nor `e`. -/
theorem C8_number_formats :
    cJSON_PrintUnformatted (cJSON_CreateNumber (.fin 3)) = some [51] ∧
    cJSON_PrintUnformatted (cJSON_CreateNumber (.fin (10 ^ 100))) =
      some [49, 46, 48, 48, 48, 48, 48, 48, 101, 43, 49, 48, 48] ∧
    cJSON_PrintUnformatted (cJSON_CreateNumber .nan) = some nullLit ∧
    cJSON_PrintUnformatted (cJSON_CreateNumber (.inf false)) = some nullLit ∧
    (∀ (item : cJSON) (q : ℚ), item.valuedouble = .fin q → ((⌊q⌋ : ℤ) : ℚ) = q →
      |q| < 10 ^ 60 → 46 ∉ printNumberBytes item ∧ 101 ∉ printNumberBytes item) := by
  refine ⟨by with_unfolding_all rfl, by set_option maxRecDepth 100000 in with_unfolding_all rfl,
    by with_unfolding_all rfl, by with_unfolding_all rfl, ?_⟩
  intro item q hq hwhole hsmall
  have habs : ∀ b, b ∈ printNumberBytes item → b = 45 ∨ (48 ≤ b ∧ b ≤ 57) ∨
      b ∈ nullLit := by
    intro b hb
    unfold printNumberBytes at hb
    split at hb
    · exact (intRepr_byte_range hb).imp id (fun h => Or.inl h)
    · rw [hq] at hb
      simp only [CDouble.timesZeroNeZero] at hb
      rw [if_neg (by simp)] at hb
      rw [if_pos ?side] at hb
      case side =>
        constructor
        · rw [hwhole]; norm_num [DBL_EPSILON]
        · calc |q| < 10 ^ 60 := hsmall
            _ = (1000000000000000000000000000000000000000000000000000000000000 : ℚ) := by
              norm_num
      · exact (fmtF0_byte_range hb).imp id (fun h => Or.inl h)
  constructor
  · intro hc
    rcases habs 46 hc with h | h | h
    · omega
    · omega
    · simp [nullLit] at h
  · intro hc
    rcases habs 101 hc with h | h | h
    · omega
    · omega
    · simp [nullLit] at h

/-- Witness for the universal part of `C8_number_formats`, at the whole value
1e20 (which is above `INT_MAX`, hence printed by the `%.0f` branch). -/
theorem C8_number_formats_witness :
    46 ∉ printNumberBytes (cJSON_CreateNumber (.fin (10 ^ 20))) ∧
      101 ∉ printNumberBytes (cJSON_CreateNumber (.fin (10 ^ 20))) := by
  refine C8_number_formats.2.2.2.2 (cJSON_CreateNumber (.fin (10 ^ 20))) (10 ^ 20)
    rfl ?_ (by norm_num)
  norm_num

/-! ## Claim C2: empty containers -/

/-- C2 counterexample: pretty-printing an empty Object (already at depth 0)
emits the three bytes `{`, newline, `}` — not the claimed two bytes `{}`
with no whitespace between the braces. -/
theorem C2_empty_object_pretty_newline :
    cJSON_Print (.mk cJSON_Object none 0 (.fin 0) none []) = some [123, 10, 125] ∧
      [123, 10, 125] ≠ [123, 125] := by
  exact ⟨by with_unfolding_all rfl, by simp⟩

/-- C2 as amended: an empty Array prints exactly `[]` at every depth in both
modes, and an empty Object prints exactly `{}` in unformatted mode; in
pretty mode an empty Object prints `{`, a newline, one tab per nesting
depth, and `}`.  (Each part reads the bytes the empty-container case wrote
at the entry offset, terminator included; the offset is left unchanged.) -/
theorem C2_empty_containers :
    (∀ fuel (item : cJSON) depth fmt p p', bufOk p → item.child = [] →
      print_array (fuel + 1) item depth fmt p = (p', true) →
      p'.offset = p.offset ∧
      ∀ k, k < 3 → byteAt p'.buffer (p.offset + k) = byteAt [91, 93, 0] k) ∧
    (∀ fuel (item : cJSON) depth p p', bufOk p → item.child = [] →
      print_object (fuel + 1) item depth false p = (p', true) →
      p'.offset = p.offset ∧
      ∀ k, k < 3 → byteAt p'.buffer (p.offset + k) = byteAt [123, 125, 0] k) ∧
    (∀ fuel (item : cJSON) depth p p', bufOk p → item.child = [] →
      print_object (fuel + 1) item depth true p = (p', true) →
      p'.offset = p.offset ∧
      ∀ k, k < depth + 4 →
        byteAt p'.buffer (p.offset + k) =
          byteAt (123 :: 10 :: (List.replicate depth 9 ++ [125, 0])) k) := by
  refine ⟨?_, ?_, ?_⟩
  · intro fuel item depth fmt p p' hok hempty hrun
    simp only [print_array, hempty, List.length_nil, if_pos] at hrun
    cases he : ensure p 3 with
    | none => rw [he] at hrun; simp at hrun
    | some pr =>
      obtain ⟨p1, ptr⟩ := pr
      rw [he] at hrun
      obtain ⟨rfl, hoff, _, hcap, _, hok1, _, _⟩ := ensure_some he hok
      obtain ⟨rfl, -⟩ : ({ p1 with buffer := writeAt p1.buffer p.offset [91, 93, 0] } = p')
          ∧ True := by
        cases hrun; exact ⟨rfl, trivial⟩
      refine ⟨hoff, fun k hk => ?_⟩
      exact byteAt_writeAt_in [91, 93, 0] p1.buffer p.offset k
        (by simp; have := hok1.1; omega) (by simpa using hk)
  · intro fuel item depth p p' hok hempty hrun
    simp only [print_object, hempty, List.length_nil, if_pos,
      show (if (false : Bool) = true then depth + 4 else 3) = 3 from rfl,
      show (if (false : Bool) = true then 10 :: List.replicate depth 9
        else ([] : Bytes)) = [] from rfl] at hrun
    cases he : ensure p 3 with
    | none => rw [he] at hrun; simp at hrun
    | some pr =>
      obtain ⟨p1, ptr⟩ := pr
      rw [he] at hrun
      obtain ⟨rfl, hoff, _, hcap, _, hok1, _, _⟩ := ensure_some he hok
      obtain rfl : { p1 with
          buffer := writeAt p1.buffer p.offset (123 :: ([] ++ [125, 0])) } = p' := by
        cases hrun; rfl
      refine ⟨hoff, fun k hk => ?_⟩
      have := byteAt_writeAt_in (123 :: ([] ++ [125, 0])) p1.buffer p.offset k
        (by simp; have := hok1.1; omega) (by simpa using hk)
      simpa using this
  · intro fuel item depth p p' hok hempty hrun
    simp only [print_object, hempty, List.length_nil, if_pos,
      show (if (true : Bool) = true then depth + 4 else 3) = depth + 4 from rfl,
      show (if (true : Bool) = true then 10 :: List.replicate depth 9
        else ([] : Bytes)) = 10 :: List.replicate depth 9 from rfl] at hrun
    cases he : ensure p (depth + 4) with
    | none => rw [he] at hrun; simp at hrun
    | some pr =>
      obtain ⟨p1, ptr⟩ := pr
      rw [he] at hrun
      obtain ⟨rfl, hoff, _, hcap, _, hok1, _, _⟩ := ensure_some he hok
      obtain rfl : { p1 with
          buffer := writeAt p1.buffer p.offset
            (123 :: ((10 :: List.replicate depth 9) ++ [125, 0])) } = p' := by
        cases hrun; rfl
      refine ⟨hoff, fun k hk => ?_⟩
      have := byteAt_writeAt_in (123 :: ((10 :: List.replicate depth 9) ++ [125, 0]))
        p1.buffer p.offset k
        (by simp; have := hok1.1; omega) (by simp; omega)
      simpa using this

/-- Witness for `C2_empty_containers`: an empty Object printed pretty at
depth 2 into a fixed 10-byte buffer writes `{`, `\n`, two tabs, `}`, NUL. -/
theorem C2_empty_containers_witness :
    (print_object 1 (.mk cJSON_Object none 0 (.fin 0) none []) 2 true
        ⟨List.replicate 10 0, 10, 0, true⟩).2 = true ∧
    ∀ k, k < 6 →
      byteAt (print_object 1 (.mk cJSON_Object none 0 (.fin 0) none []) 2 true
          ⟨List.replicate 10 0, 10, 0, true⟩).1.buffer (0 + k) =
        byteAt (123 :: 10 :: (List.replicate 2 9 ++ [125, 0])) k := by
  constructor
  · with_unfolding_all rfl
  · intro k hk
    have h := C2_empty_containers.2.2 0 (.mk cJSON_Object none 0 (.fin 0) none []) 2
      ⟨List.replicate 10 0, 10, 0, true⟩
      (print_object 1 (.mk cJSON_Object none 0 (.fin 0) none []) 2 true
        ⟨List.replicate 10 0, 10, 0, true⟩).1
      ⟨by simp, by simp⟩ rfl (by with_unfolding_all rfl)
    exact h.2 k (by omega)

/-! ## Claim C7: invalid `\u` escapes -/

/-- C7: parsing `"\uD800"` (unpaired high surrogate) fails with the error
position at the escape and no string node produced; in general
`utf16_literal_to_utf8` rejects a leading low surrogate and the zero
codepoint outright, and a leading high surrogate can only succeed when a
complete, in-range low-surrogate `\u` escape immediately follows.
(Codepoints above 0x10FFFF cannot be expressed by one or two `\u` escapes,
so the out-of-range guard can never be reached with a bad value.) -/
theorem C7_invalid_unicode_escape :
    (cJSON_Parse [34, 92, 117, 68, 56, 48, 48, 34]).1 = none ∧
    (cJSON_Parse [34, 92, 117, 68, 56, 48, 48, 34]).2.1 = some 1 ∧
    (∀ (text : Bytes) (ip input_end : Nat),
      ((56320 ≤ parse_hex4 text (ip + 2) ∧ parse_hex4 text (ip + 2) ≤ 57343) ∨
        parse_hex4 text (ip + 2) = 0) →
      utf16_literal_to_utf8 text ip input_end = none) ∧
    (∀ (text : Bytes) (ip input_end : Nat) (r : Nat × Bytes),
      55296 ≤ parse_hex4 text (ip + 2) → parse_hex4 text (ip + 2) ≤ 56319 →
      utf16_literal_to_utf8 text ip input_end = some r →
      ip + 12 ≤ input_end ∧ byteAt text (ip + 6) = 92 ∧ byteAt text (ip + 7) = 117 ∧
        56320 ≤ parse_hex4 text (ip + 8) ∧ parse_hex4 text (ip + 8) ≤ 57343) := by
  refine ⟨by with_unfolding_all rfl, by with_unfolding_all rfl, ?_, ?_⟩
  · intro text ip input_end hbad
    unfold utf16_literal_to_utf8
    split <;> first | rfl | (exact absurd hbad (by assumption))
  · intro text ip input_end r h1 h2 hr
    unfold utf16_literal_to_utf8 at hr
    by_cases hlen : input_end < ip + 6
    · rw [if_pos hlen] at hr; exact absurd hr (by simp)
    · rw [if_neg hlen] at hr
      by_cases hz : (56320 ≤ parse_hex4 text (ip + 2) ∧
          parse_hex4 text (ip + 2) ≤ 57343) ∨ parse_hex4 text (ip + 2) = 0
      · rw [if_pos hz] at hr; exact absurd hr (by simp)
      · rw [if_neg hz, if_pos ⟨h1, h2⟩] at hr
        by_cases hlen2 : input_end < (ip + 6) + 6
        · rw [if_pos hlen2] at hr; exact absurd hr (by simp)
        · rw [if_neg hlen2] at hr
          by_cases hbs : byteAt text (ip + 6) ≠ 92 ∨ byteAt text (ip + 7) ≠ 117
          · rw [if_pos hbs] at hr; exact absurd hr (by simp)
          · rw [if_neg hbs] at hr
            push_neg at hbs
            by_cases hlow : parse_hex4 text (ip + 8) < 56320 ∨
                57343 < parse_hex4 text (ip + 8)
            · rw [if_pos hlow] at hr; exact absurd hr (by simp)
            · push_neg at hlow
              exact ⟨by omega, hbs.1, hbs.2, by omega, by omega⟩

/-- Witness for `C7_invalid_unicode_escape`: a lone low surrogate `\uDC00`
is rejected by the UTF-16 decoder. -/
theorem C7_invalid_unicode_escape_witness :
    utf16_literal_to_utf8 [92, 117, 68, 67, 48, 48] 0 6 = none := by
  refine C7_invalid_unicode_escape.2.2.1 [92, 117, 68, 67, 48, 48] 0 6 ?_
  exact Or.inl (by decide)

/-! ## Claim C10: case-insensitive object lookup -/

theorem ctolower_ne_zero {c : Nat} (h : c ≠ 0) : ctolower c ≠ 0 := by
  unfold ctolower; split <;> omega

theorem strcasecmpBytes_eq_zero_iff :
    ∀ (s1 s2 : Bytes), 0 ∉ s1 → 0 ∉ s2 →
      (strcasecmpBytes s1 s2 = 0 ↔ s1.map ctolower = s2.map ctolower) := by
  intro s1
  induction s1 with
  | nil =>
    intro s2 _ h2
    cases s2 with
    | nil => simp [strcasecmpBytes]
    | cons c2 t2 =>
      have hc2 : c2 ≠ 0 := fun hc => h2 (by simp [hc])
      have hlc : ctolower c2 ≠ 0 := ctolower_ne_zero hc2
      have h0 : ctolower 0 = 0 := rfl
      simp only [strcasecmpBytes, List.map_nil, List.map_cons, h0]
      rw [if_neg (fun h => hlc h.symm)]
      constructor
      · intro hx; exfalso; omega
      · intro hx; simp at hx
  | cons c1 t1 ih =>
    intro s2 h1 h2
    cases s2 with
    | nil =>
      have hc1 : c1 ≠ 0 := fun hc => h1 (by simp [hc])
      have hlc : ctolower c1 ≠ 0 := ctolower_ne_zero hc1
      have h0 : ctolower 0 = 0 := rfl
      simp only [strcasecmpBytes, List.map_nil, List.map_cons, h0]
      rw [if_neg hlc]
      constructor
      · intro hx; exfalso; omega
      · intro hx; simp at hx
    | cons c2 t2 =>
      have hc1 : c1 ≠ 0 := fun hc => h1 (by simp [hc])
      simp only [strcasecmpBytes, List.map_cons]
      by_cases heq : ctolower c1 = ctolower c2
      · rw [if_pos heq, if_neg hc1]
        rw [ih t2 (fun hm => h1 (by simp [hm])) (fun hm => h2 (by simp [hm]))]
        constructor
        · intro hx; rw [heq, hx]
        · intro hx; exact (List.cons.injEq _ _ _ _ ▸ hx).2
      · rw [if_neg heq]
        constructor
        · intro hx
          exfalso
          have : (ctolower c1 : Int) ≠ ctolower c2 := by exact_mod_cast fun hh => heq (by exact_mod_cast hh)
          omega
        · intro hx
          exact absurd (List.cons.injEq _ _ _ _ ▸ hx).1 heq

theorem strcasecmpBytes_zero_congr :
    ∀ (s k1 k2 : Bytes), 0 ∉ k1 → 0 ∉ k2 → k1.map ctolower = k2.map ctolower →
      (strcasecmpBytes s k1 = 0 ↔ strcasecmpBytes s k2 = 0) := by
  intro s
  induction s with
  | nil =>
    intro k1 k2 h1 h2 hmap
    cases k1 with
    | nil => cases k2 with
      | nil => rfl
      | cons b t => simp at hmap
    | cons a t1 => cases k2 with
      | nil => simp at hmap
      | cons b t2 =>
        simp only [List.map_cons, List.cons.injEq] at hmap
        simp only [strcasecmpBytes, hmap.1]
  | cons c s' ih =>
    intro k1 k2 h1 h2 hmap
    cases k1 with
    | nil => cases k2 with
      | nil => rfl
      | cons b t => simp at hmap
    | cons a t1 => cases k2 with
      | nil => simp at hmap
      | cons b t2 =>
        simp only [List.map_cons, List.cons.injEq] at hmap
        simp only [strcasecmpBytes, hmap.1]
        by_cases hca : ctolower c = ctolower b
        · rw [if_pos hca, if_pos hca]
          by_cases hc0 : c = 0
          · rw [if_pos hc0, if_pos hc0]
          · rw [if_neg hc0, if_neg hc0]
            exact ih t1 t2 (fun hm => h1 (by simp [hm])) (fun hm => h2 (by simp [hm]))
              hmap.2
        · rw [if_neg hca, if_neg hca]

/-- C10: `cJSON_GetObjectItem` returns the first child whose key equals the
query under the byte-wise ASCII-`tolower` comparison (so not under exact
byte equality), and two queries differing only in letter case are
indistinguishable to it. -/
theorem C10_lookup_case_insensitive :
    (∀ (object : cJSON) (key : Bytes), 0 ∉ key →
      (∀ c ∈ object.child, ∀ s, c.string = some s → 0 ∉ s) →
      cJSON_GetObjectItem object key =
        object.child.find? (fun c =>
          c.string.map (fun s => s.map ctolower) == some (key.map ctolower))) ∧
    (∀ (object : cJSON) (k1 k2 : Bytes), 0 ∉ k1 → 0 ∉ k2 →
      k1.map ctolower = k2.map ctolower →
      cJSON_GetObjectItem object k1 = cJSON_GetObjectItem object k2) := by
  constructor
  · intro object key hkey hch
    unfold cJSON_GetObjectItem
    revert hch
    induction object.child with
    | nil => intro _; simp [cJSON_GetObjectItem.go]
    | cons c rest ih =>
      intro hch
      rw [cJSON_GetObjectItem.go]
      have hiff : cJSON_strcasecmp c.string (some key) = 0 ↔
          (c.string.map (fun s => s.map ctolower) == some (key.map ctolower)) = true := by
        cases hs : c.string with
        | none => simp [cJSON_strcasecmp]
        | some s =>
          have hns := hch c (by simp) s hs
          rw [show cJSON_strcasecmp (some s) (some key) = strcasecmpBytes s key from rfl,
            strcasecmpBytes_eq_zero_iff s key hns hkey]
          simp
      by_cases hz : cJSON_strcasecmp c.string (some key) = 0
      · rw [if_pos hz]
        have hpred := hiff.mp hz
        simp only [List.find?, hpred]
      · rw [if_neg hz]
        have hpred : (Option.map (fun s => List.map ctolower s) c.string ==
            some (List.map ctolower key)) = false := by
          cases hb : (Option.map (fun s => List.map ctolower s) c.string ==
            some (List.map ctolower key)) with
          | false => rfl
          | true => exact absurd (hiff.mpr hb) hz
        simp only [List.find?, hpred]
        exact ih (fun d hd => hch d (by simp [hd]))
  · intro object k1 k2 h1 h2 hmap
    unfold cJSON_GetObjectItem
    induction object.child with
    | nil => simp [cJSON_GetObjectItem.go]
    | cons c rest ih =>
      rw [cJSON_GetObjectItem.go, cJSON_GetObjectItem.go]
      have hiff : cJSON_strcasecmp c.string (some k1) = 0 ↔
          cJSON_strcasecmp c.string (some k2) = 0 := by
        cases hs : c.string with
        | none => simp [cJSON_strcasecmp]
        | some s => exact strcasecmpBytes_zero_congr s k1 k2 h1 h2 hmap
      by_cases hz : cJSON_strcasecmp c.string (some k1) = 0
      · rw [if_pos hz, if_pos (hiff.mp hz)]
      · rw [if_neg hz, if_neg (fun hc => hz (hiff.mpr hc))]
        exact ih

/-- Witness for `C10_lookup_case_insensitive`: in an object with members
`Name` and `AGE`, looking up `naMe` finds the `Name` member (first, by
case-insensitive match), exactly as the `find?` characterisation says, and
looking up `NAME` is indistinguishable from looking up `naMe`. -/
theorem C10_lookup_case_insensitive_witness :
    cJSON_GetObjectItem
        (.mk cJSON_Object none 0 (.fin 0) none
          [.mk cJSON_Number none 1 (.fin 1) (some [78, 97, 109, 101]) [],
           .mk cJSON_Number none 2 (.fin 2) (some [65, 71, 69]) []])
        [110, 97, 77, 101] =
      ((.mk cJSON_Object none 0 (.fin 0) none
          [.mk cJSON_Number none 1 (.fin 1) (some [78, 97, 109, 101]) [],
           .mk cJSON_Number none 2 (.fin 2) (some [65, 71, 69]) []] : cJSON)).child.find?
        (fun c => c.string.map (fun s => s.map ctolower) ==
          some (([110, 97, 77, 101] : Bytes).map ctolower)) ∧
    cJSON_GetObjectItem
        (.mk cJSON_Object none 0 (.fin 0) none
          [.mk cJSON_Number none 1 (.fin 1) (some [78, 97, 109, 101]) [],
           .mk cJSON_Number none 2 (.fin 2) (some [65, 71, 69]) []])
        [110, 97, 77, 101] =
      cJSON_GetObjectItem
        (.mk cJSON_Object none 0 (.fin 0) none
          [.mk cJSON_Number none 1 (.fin 1) (some [78, 97, 109, 101]) [],
           .mk cJSON_Number none 2 (.fin 2) (some [65, 71, 69]) []])
        [78, 65, 77, 69] := by
  constructor
  · refine C10_lookup_case_insensitive.1 _ [110, 97, 77, 101] (by decide) ?_
    intro c hc s hs
    simp only [cJSON.child, List.mem_cons, List.mem_singleton] at hc
    rcases hc with rfl | rfl | h
    · simp only [cJSON.string, Option.some_inj] at hs
      subst hs; decide
    · simp only [cJSON.string, Option.some_inj] at hs
      subst hs; decide
    · simp at h
  · exact C10_lookup_case_insensitive.2 _ [110, 97, 77, 101] [78, 65, 77, 69]
      (by decide) (by decide) (by decide)

/-! ## Claim C6: the `ensure` contract -/

theorem byteAt_growTo {p : printbuffer} {ns : Nat} (hns : p.length < ns)
    (hok : bufOk p) (hna : p.noalloc = false) :
    ∀ j, j < p.length → byteAt (growTo p ns).buffer j = byteAt p.buffer j := by
  intro j hj
  have hblen := hok.2 hna
  simp only [growTo, reallocBytes, byteAt]
  rw [List.getD_append _ _ _ _ (by simp; omega)]
  rw [List.getD_eq_getElem?_getD, List.getElem?_take_of_lt (by omega),
    ← List.getD_eq_getElem?_getD]

/-- C6: on a well-formed buffer, `ensure(n)` (a) hands back the existing
storage at the current offset when capacity suffices, (b) fails when it does
not and growth is disallowed, (c) fails outright when the required total
exceeds `INT_MAX`, and (d) otherwise grows to double the required total
(capped at `INT_MAX`), returning the current offset into the relocated
storage with all previously tracked content preserved. -/
theorem C6_ensure_contract (p : printbuffer) (n : Nat) (hok : bufOk p)
    (hcap : p.length ≤ INT_MAX_N) :
    (p.offset + n ≤ p.length → ensure p n = some (p, p.offset)) ∧
    (p.length < p.offset + n → p.noalloc = true → ensure p n = none) ∧
    (p.length < p.offset + n → INT_MAX_N < p.offset + n → p.noalloc = false →
      ensure p n = none) ∧
    (p.length < p.offset + n → p.offset + n ≤ INT_MAX_N → p.noalloc = false →
      ensure p n = some (growTo p (min ((p.offset + n) * 2) INT_MAX_N), p.offset) ∧
      (growTo p (min ((p.offset + n) * 2) INT_MAX_N)).length =
        min ((p.offset + n) * 2) INT_MAX_N ∧
      ∀ j, j < p.length →
        byteAt (growTo p (min ((p.offset + n) * 2) INT_MAX_N)).buffer j =
          byteAt p.buffer j) := by
  refine ⟨fun hfit => ensure_fits hfit hcap, ?_, ?_, ?_⟩
  · intro hlt hna
    unfold ensure
    by_cases hbig : n > INT_MAX_N
    · rw [if_pos hbig]
    · rw [if_neg hbig, if_neg (by omega), if_pos hna]
  · intro hlt hbig hna
    unfold ensure
    by_cases hn : n > INT_MAX_N
    · rw [if_pos hn]
    · rw [if_neg hn, if_neg (by omega), if_neg (by simp [hna]),
        if_pos (by omega), if_neg (by omega)]
  · intro hlt hle hna
    have hmin : p.length < min ((p.offset + n) * 2) INT_MAX_N := by
      rw [Nat.lt_min]
      omega
    refine ⟨?_, by simp [growTo], byteAt_growTo hmin hok hna⟩
    unfold ensure
    rw [if_neg (by omega), if_neg (by omega), if_neg (by simp [hna])]
    by_cases hdouble : (n + p.offset) * 2 > INT_MAX_N
    · rw [if_pos hdouble, if_pos (by omega)]
      have : min ((p.offset + n) * 2) INT_MAX_N = INT_MAX_N := by omega
      rw [this]
    · rw [if_neg hdouble]
      have : min ((p.offset + n) * 2) INT_MAX_N = (n + p.offset) * 2 := by omega
      rw [this]

/-- Witness for `C6_ensure_contract`: a growable 2-byte buffer at offset 1
asked for 3 more bytes grows to 8 (double the required 4), keeping its
content. -/
theorem C6_ensure_contract_witness :
    ensure ⟨[7, 7], 2, 1, false⟩ 3 =
      some (growTo ⟨[7, 7], 2, 1, false⟩
        (min ((printbuffer.offset ⟨[7, 7], 2, 1, false⟩ + 3) * 2) INT_MAX_N),
        printbuffer.offset ⟨[7, 7], 2, 1, false⟩) ∧
    byteAt (growTo ⟨[7, 7], 2, 1, false⟩
      (min ((printbuffer.offset ⟨[7, 7], 2, 1, false⟩ + 3) * 2) INT_MAX_N)).buffer 1 =
      byteAt (printbuffer.buffer ⟨[7, 7], 2, 1, false⟩) 1 := by
  have h := (C6_ensure_contract ⟨[7, 7], 2, 1, false⟩ 3
    ⟨by simp, by simp⟩ (by simp [INT_MAX_N])).2.2.2
    (by simp) (by simp [INT_MAX_N]) rfl
  exact ⟨h.1, h.2.2 1 (by simp)⟩

/-! ## Claim C9: detaching a middle array element -/

theorem walkNext_chain {h : Heap} {ns : List Nat}
    (hnext : ∀ i : Nat, i < ns.length → (h (ns.getD i 0)).next = ns[i + 1]?) :
    ∀ (k j : Nat), walkNext h ns[j]? k = ns[j + k]? := by
  intro k
  induction k with
  | zero =>
    intro j
    rw [Nat.add_zero]
    cases hj : ns[j]? with
    | none => rfl
    | some a => rfl
  | succ m ih =>
    intro j
    cases hj : ns[j]? with
    | none =>
      have hlen : ns.length ≤ j := by
        by_contra hc
        rw [List.getElem?_eq_getElem (by omega)] at hj
        simp at hj
      rw [show walkNext h none (m + 1) = none from rfl]
      rw [List.getElem?_eq_none (by omega)]
    | some a =>
      have hjlt : j < ns.length := by
        by_contra hc
        rw [List.getElem?_eq_none (by omega)] at hj
        simp at hj
      have ha : a = ns.getD j 0 := by
        rw [List.getD_eq_getElem ns 0 hjlt]
        rw [List.getElem?_eq_getElem hjlt] at hj
        exact (Option.some_inj.mp hj).symm
      rw [show walkNext h (some a) (m + 1) = walkNext h (h a).next m from rfl]
      rw [ha, hnext j hjlt, ih (j + 1)]
      congr 1
      omega

theorem setNext_at (h : Heap) (a : Nat) (v : Option Nat) :
    setNext h a v a = { h a with next := v } := by
  simp [setNext]

theorem setNext_ne (h : Heap) (a b : Nat) (v : Option Nat) (hne : b ≠ a) :
    setNext h a v b = h b := by
  simp [setNext, Function.update_noteq hne]

theorem setPrev_at (h : Heap) (a : Nat) (v : Option Nat) :
    setPrev h a v a = { h a with prev := v } := by
  simp [setPrev]

theorem setPrev_ne (h : Heap) (a b : Nat) (v : Option Nat) (hne : b ≠ a) :
    setPrev h a v b = h b := by
  simp [setPrev, Function.update_noteq hne]

/-- C9: detaching a middle element of an array (a well-formed sibling chain
with pairwise-distinct node addresses) returns that element; the remaining
elements keep their original relative order with consistent `next`/`prev`
links; the detached node's `prev` and `next` are both NULL while its other
fields are untouched; the two neighbours change only in the one link each
that had to be rewired; and every other node (the array head included) is
completely unchanged. -/
theorem C9_detach_middle_element
    (h : Heap) (arr : Nat) (ns : List Nat) (i : Nat)
    (hchain : isChain h arr ns) (hnodup : (arr :: ns).Nodup)
    (h1le : 1 ≤ i) (hlt : i + 1 < ns.length) :
    (cJSON_DetachItemFromArray h arr (i : Int)).1 = some (ns.getD i 0) ∧
    isChain (cJSON_DetachItemFromArray h arr (i : Int)).2 arr
      (ns.take i ++ ns.drop (i + 1)) ∧
    ((cJSON_DetachItemFromArray h arr (i : Int)).2 (ns.getD i 0)).prev = none ∧
    ((cJSON_DetachItemFromArray h arr (i : Int)).2 (ns.getD i 0)).next = none ∧
    ((cJSON_DetachItemFromArray h arr (i : Int)).2 (ns.getD i 0)).child =
      (h (ns.getD i 0)).child ∧
    ((cJSON_DetachItemFromArray h arr (i : Int)).2 (ns.getD i 0)).payload =
      (h (ns.getD i 0)).payload ∧
    (∀ a, a ≠ ns.getD (i - 1) 0 → a ≠ ns.getD i 0 → a ≠ ns.getD (i + 1) 0 →
      (cJSON_DetachItemFromArray h arr (i : Int)).2 a = h a) ∧
    ((cJSON_DetachItemFromArray h arr (i : Int)).2 (ns.getD (i - 1) 0)).prev =
      (h (ns.getD (i - 1) 0)).prev ∧
    ((cJSON_DetachItemFromArray h arr (i : Int)).2 (ns.getD (i - 1) 0)).child =
      (h (ns.getD (i - 1) 0)).child ∧
    ((cJSON_DetachItemFromArray h arr (i : Int)).2 (ns.getD (i - 1) 0)).payload =
      (h (ns.getD (i - 1) 0)).payload ∧
    ((cJSON_DetachItemFromArray h arr (i : Int)).2 (ns.getD (i + 1) 0)).next =
      (h (ns.getD (i + 1) 0)).next ∧
    ((cJSON_DetachItemFromArray h arr (i : Int)).2 (ns.getD (i + 1) 0)).child =
      (h (ns.getD (i + 1) 0)).child ∧
    ((cJSON_DetachItemFromArray h arr (i : Int)).2 (ns.getD (i + 1) 0)).payload =
      (h (ns.getD (i + 1) 0)).payload := by
  obtain ⟨hchild, hnext, hprev⟩ := hchain
  have harr_notin : arr ∉ ns := (List.nodup_cons.mp hnodup).1
  have hnd : ns.Nodup := (List.nodup_cons.mp hnodup).2
  have hi : i < ns.length := by omega
  have him1 : i - 1 < ns.length := by omega
  have hip1 : i + 1 < ns.length := hlt
  have hgetne : ∀ {a b : Nat}, a < ns.length → b < ns.length → a ≠ b →
      ns.getD a 0 ≠ ns.getD b 0 := by
    intro a b ha hb hab
    rw [List.getD_eq_getElem ns 0 ha, List.getD_eq_getElem ns 0 hb]
    intro hcontra
    exact hab (hnd.getElem_inj_iff.mp hcontra)
  have harrne : ∀ {a : Nat}, a < ns.length → arr ≠ ns.getD a 0 := by
    intro a ha
    rw [List.getD_eq_getElem ns 0 ha]
    intro hcontra
    exact harr_notin (hcontra ▸ List.getElem_mem ha)
  have hpc : ns.getD (i - 1) 0 ≠ ns.getD i 0 := hgetne him1 hi (by omega)
  have hcnx : ns.getD i 0 ≠ ns.getD (i + 1) 0 := hgetne hi hip1 (by omega)
  have hpnx : ns.getD (i - 1) 0 ≠ ns.getD (i + 1) 0 := hgetne him1 hip1 (by omega)
  have hhead : ns.head? = ns[0]? := by cases ns <;> simp
  have hwalkc : walkNext h (h arr).child i = some (ns.getD i 0) := by
    rw [hchild, hhead, walkNext_chain hnext i 0]
    rw [show 0 + i = i by omega, List.getElem?_eq_getElem hi,
      List.getD_eq_getElem ns 0 hi]
  have hcprev : (h (ns.getD i 0)).prev = some (ns.getD (i - 1) 0) := by
    rw [hprev i hi, if_neg (by omega), List.getElem?_eq_getElem him1,
      List.getD_eq_getElem ns 0 him1]
  have hcnext : (h (ns.getD i 0)).next = some (ns.getD (i + 1) 0) := by
    rw [hnext i hi, List.getElem?_eq_getElem hip1, List.getD_eq_getElem ns 0 hip1]
  have hchild0 : (h arr).child = some (ns.getD 0 0) := by
    rw [hchild, hhead, List.getElem?_eq_getElem (by omega),
      List.getD_eq_getElem ns 0 (by omega)]
  have hc0 : ns.getD i 0 ≠ ns.getD 0 0 := hgetne hi (by omega) (by omega)
  -- reduce the detach computation to its final heap
  have hres : cJSON_DetachItemFromArray h arr (i : Int) =
      (some (ns.getD i 0),
        setNext
          (setPrev
            (setPrev (setNext h (ns.getD (i - 1) 0) (some (ns.getD (i + 1) 0)))
              (ns.getD (i + 1) 0) (some (ns.getD (i - 1) 0)))
            (ns.getD i 0) none)
          (ns.getD i 0) none) := by
    unfold cJSON_DetachItemFromArray
    rw [if_neg (by simp), Int.toNat_natCast]
    unfold DetachItemFromArray
    rw [hwalkc]
    simp only [hcprev, hcnext]
    rw [setNext_ne _ _ _ _ hpc.symm]
    simp only [hcprev, hcnext]
    rw [setPrev_ne _ _ _ _ (harrne hip1), setNext_ne _ _ _ _ (harrne him1), hchild0]
    rw [if_neg (fun hcon => hc0 (Option.some_inj.mp hcon))]
  rw [hres]
  dsimp only
  -- reads of the final heap
  have hreadc : (setNext
      (setPrev
        (setPrev (setNext h (ns.getD (i - 1) 0) (some (ns.getD (i + 1) 0)))
          (ns.getD (i + 1) 0) (some (ns.getD (i - 1) 0)))
        (ns.getD i 0) none)
      (ns.getD i 0) none) (ns.getD i 0) =
      { h (ns.getD i 0) with prev := none, next := none } := by
    rw [setNext_at]
    rw [setPrev_at]
    rw [setPrev_ne _ _ _ _ hcnx, setNext_ne _ _ _ _ hpc.symm]
  have hreadp : (setNext
      (setPrev
        (setPrev (setNext h (ns.getD (i - 1) 0) (some (ns.getD (i + 1) 0)))
          (ns.getD (i + 1) 0) (some (ns.getD (i - 1) 0)))
        (ns.getD i 0) none)
      (ns.getD i 0) none) (ns.getD (i - 1) 0) =
      { h (ns.getD (i - 1) 0) with next := some (ns.getD (i + 1) 0) } := by
    rw [setNext_ne _ _ _ _ hpc, setPrev_ne _ _ _ _ hpc, setPrev_ne _ _ _ _ hpnx,
      setNext_at]
  have hreadnx : (setNext
      (setPrev
        (setPrev (setNext h (ns.getD (i - 1) 0) (some (ns.getD (i + 1) 0)))
          (ns.getD (i + 1) 0) (some (ns.getD (i - 1) 0)))
        (ns.getD i 0) none)
      (ns.getD i 0) none) (ns.getD (i + 1) 0) =
      { h (ns.getD (i + 1) 0) with prev := some (ns.getD (i - 1) 0) } := by
    rw [setNext_ne _ _ _ _ hcnx.symm, setPrev_ne _ _ _ _ hcnx.symm, setPrev_at,
      setNext_ne _ _ _ _ (fun he => hpnx he.symm)]
  have hframe : ∀ a, a ≠ ns.getD (i - 1) 0 → a ≠ ns.getD i 0 → a ≠ ns.getD (i + 1) 0 →
      (setNext
        (setPrev
          (setPrev (setNext h (ns.getD (i - 1) 0) (some (ns.getD (i + 1) 0)))
            (ns.getD (i + 1) 0) (some (ns.getD (i - 1) 0)))
          (ns.getD i 0) none)
        (ns.getD i 0) none) a = h a := by
    intro a hap hac hanx
    rw [setNext_ne _ _ _ _ hac, setPrev_ne _ _ _ _ hac, setPrev_ne _ _ _ _ hanx,
      setNext_ne _ _ _ _ hap]
  refine ⟨rfl, ?_, by rw [hreadc], by rw [hreadc], by rw [hreadc], by rw [hreadc],
    hframe, by rw [hreadp], by rw [hreadp], by rw [hreadp],
    by rw [hreadnx], by rw [hreadnx], by rw [hreadnx]⟩
  -- the chain property of the remaining list
  have hmslen : (ns.take i ++ ns.drop (i + 1)).length = ns.length - 1 := by
    simp
    omega
  have hms : ∀ j : Nat, (ns.take i ++ ns.drop (i + 1))[j]? =
      if j < i then ns[j]? else ns[j + 1]? := by
    intro j
    rw [List.getElem?_append]
    by_cases hj : j < i
    · rw [if_pos (by simp; omega), if_pos hj]
      simp [List.getElem?_take, hj]
    · rw [if_neg (by simp; omega), if_neg hj]
      rw [List.getElem?_drop]
      congr 1
      simp
      omega
  have hmsD : ∀ j : Nat, j < ns.length - 1 → (ns.take i ++ ns.drop (i + 1)).getD j 0 =
      if j < i then ns.getD j 0 else ns.getD (j + 1) 0 := by
    intro j hj
    rw [List.getD_eq_getElem?_getD, hms j]
    by_cases hji : j < i
    · rw [if_pos hji, if_pos hji, List.getD_eq_getElem?_getD]
    · rw [if_neg hji, if_neg hji, List.getD_eq_getElem?_getD]
  refine ⟨?_, ?_, ?_⟩
  · -- child link: the head of the list is untouched (i ≥ 1)
    rw [hframe arr (harrne him1) (harrne hi) (harrne hip1), hchild0]
    have h0i : (0 : Nat) < i := by omega
    rw [show ((ns.take i ++ ns.drop (i + 1)).head?) =
        (ns.take i ++ ns.drop (i + 1))[0]? from by
      cases hcase : ns.take i ++ ns.drop (i + 1) <;> simp]
    rw [hms 0, if_pos h0i, List.getElem?_eq_getElem (by omega),
      List.getD_eq_getElem ns 0 (by omega)]
  · -- next links
    intro j hj
    rw [hmslen] at hj
    rw [hmsD j hj, hms (j + 1)]
    by_cases hj1 : j < i - 1
    · rw [if_pos (by omega), if_pos (by omega)]
      have hjlt : j < ns.length := by omega
      rw [hframe _ (hgetne hjlt him1 (by omega)) (hgetne hjlt hi (by omega))
        (hgetne hjlt hip1 (by omega))]
      exact hnext j hjlt
    · by_cases hj2 : j = i - 1
      · subst hj2
        rw [if_pos (by omega), if_neg (by omega)]
        rw [show i - 1 + 1 + 1 = i + 1 by omega]
        rw [hreadp]
        rw [List.getElem?_eq_getElem hip1, List.getD_eq_getElem ns 0 hip1]
      · by_cases hj3 : j = i
        · subst hj3
          rw [if_neg (by omega), if_neg (by omega)]
          rw [hreadnx]
          exact hnext (j + 1) hip1
        · rw [if_neg (by omega), if_neg (by omega)]
          have hjlt : j + 1 < ns.length := by omega
          rw [hframe _ (hgetne hjlt him1 (by omega)) (hgetne hjlt hi (by omega))
            (hgetne hjlt hip1 (by omega))]
          exact hnext (j + 1) hjlt
  · -- prev links
    intro j hj
    rw [hmslen] at hj
    rw [hmsD j hj]
    by_cases hj0 : j = 0
    · subst hj0
      rw [if_pos (by omega), if_pos rfl]
      by_cases hone : i = 1
      · subst hone
        rw [show (1 : Nat) - 1 = 0 from rfl] at hreadp
        rw [hreadp]
        have := hprev 0 (by omega)
        rw [if_pos rfl] at this
        exact this
      · rw [hframe _ (hgetne (by omega) him1 (by omega)) (hgetne (by omega) hi (by omega))
          (hgetne (by omega) hip1 (by omega))]
        have := hprev 0 (by omega)
        rw [if_pos rfl] at this
        exact this
    · rw [if_neg hj0, hms (j - 1)]
      by_cases hj1 : j < i - 1
      · rw [if_pos (by omega), if_pos (by omega)]
        have hjlt : j < ns.length := by omega
        rw [hframe _ (hgetne hjlt him1 (by omega)) (hgetne hjlt hi (by omega))
          (hgetne hjlt hip1 (by omega))]
        have := hprev j hjlt
        rw [if_neg hj0] at this
        exact this
      · by_cases hj2 : j = i - 1
        · subst hj2
          rw [if_pos (by omega), if_pos (by omega)]
          rw [hreadp]
          have := hprev (i - 1) him1
          rw [if_neg (by omega)] at this
          exact this
        · by_cases hj3 : j = i
          · subst hj3
            rw [if_neg (by omega), if_pos (by omega), hreadnx]
            rw [List.getElem?_eq_getElem him1, List.getD_eq_getElem ns 0 him1]
          · rw [if_neg (by omega), if_neg (by omega)]
            have hjlt : j + 1 < ns.length := by omega
            rw [hframe _ (hgetne hjlt him1 (by omega)) (hgetne hjlt hi (by omega))
              (hgetne hjlt hip1 (by omega))]
            rw [show j - 1 + 1 = j by omega]
            have := hprev (j + 1) hjlt
            rw [if_neg (by omega), show j + 1 - 1 = j by omega] at this
            exact this

/-- A concrete four-node heap: address 10 is the array, whose children are
1 → 2 → 3. -/
def detachWitnessHeap : Heap := fun a =>
  if a = 10 then ⟨none, none, some 1, 0⟩
  else if a = 1 then ⟨some 2, none, none, 11⟩
  else if a = 2 then ⟨some 3, some 1, none, 12⟩
  else if a = 3 then ⟨none, some 2, none, 13⟩
  else ⟨none, none, none, 0⟩

/-- Witness for `C9_detach_middle_element`: detaching index 1 of `[1, 2, 3]`
returns node 2 with both links NULL, and the remaining chain is `[1, 3]`. -/
theorem C9_detach_middle_element_witness :
    (cJSON_DetachItemFromArray detachWitnessHeap 10 (1 : Int)).1 = some 2 ∧
    ((cJSON_DetachItemFromArray detachWitnessHeap 10 (1 : Int)).2 2).prev = none ∧
    ((cJSON_DetachItemFromArray detachWitnessHeap 10 (1 : Int)).2 2).next = none ∧
    isChain (cJSON_DetachItemFromArray detachWitnessHeap 10 (1 : Int)).2 10
      (([1, 2, 3] : List Nat).take 1 ++ ([1, 2, 3] : List Nat).drop 2) := by
  have hchain : isChain detachWitnessHeap 10 [1, 2, 3] := by
    refine ⟨rfl, ?_, ?_⟩
    · intro i hi
      have hi3 : i < 3 := by simpa using hi
      interval_cases i <;> rfl
    · intro i hi
      have hi3 : i < 3 := by simpa using hi
      interval_cases i <;> rfl
  have h := C9_detach_middle_element detachWitnessHeap 10 [1, 2, 3] 1 hchain
    (by decide) (by decide) (by decide)
  exact ⟨h.1, h.2.2.1, h.2.2.2.1, h.2.1⟩

/-! ## C4: container failure frees every sibling (allocation census) -/

theorem nodeCountList_append (xs ys : List cJSON) :
    nodeCountList (xs ++ ys) = nodeCountList xs + nodeCountList ys := by
  induction xs with
  | nil => simp [nodeCountList]
  | cons x xs ih =>
    show nodeCount x + nodeCountList (xs ++ ys) =
      nodeCount x + nodeCountList xs + nodeCountList ys
    rw [ih]; omega

theorem nodeCount_mk_child (t : Nat) (vs : Option Bytes) (vi : Int)
    (vd : CDouble) (s : Option Bytes) (x : cJSON) :
    nodeCount (.mk t vs vi vd s x.child) = nodeCount x := by
  cases x; rfl

theorem parse_number_nodeCount (text : Bytes) (pos : Nat) (item : cJSON)
    (after : Nat) (h : parse_number text pos = some (item, after)) :
    nodeCount item = 1 := by
  simp only [parse_number] at h
  split at h
  · exact absurd h (by simp)
  · simp only [Option.some.injEq, Prod.mk.injEq] at h
    obtain ⟨rfl, -⟩ := h
    rfl

/-- The allocation census of the recursive descent, proved for all five
mutually recursive parse functions at once by induction on fuel: a
successful call allocated exactly the nodes of the value it returns (the
root node itself is the caller's allocation) and freed nothing, while a
failing call freed exactly as many nodes as it allocated plus, for the
element loops, the sibling list it was handed. -/
theorem parse_census (fuel : Nat) :
    (∀ text pos st item pos' st',
      parse_value fuel text pos st = (some (item, pos'), st') →
      st'.alloc + 1 = st.alloc + nodeCount item ∧ st'.freed = st.freed) ∧
    (∀ text pos st st',
      parse_value fuel text pos st = (none, st') →
      st'.alloc + st.freed = st.alloc + st'.freed) ∧
    (∀ text pos st item pos' st',
      parse_array fuel text pos st = (some (item, pos'), st') →
      st'.alloc + 1 = st.alloc + nodeCount item ∧ st'.freed = st.freed) ∧
    (∀ text pos st st',
      parse_array fuel text pos st = (none, st') →
      st'.alloc + st.freed = st.alloc + st'.freed) ∧
    (∀ text pos st items allitems pos' st',
      parse_array_items fuel text pos items st = (some (allitems, pos'), st') →
      st'.alloc + nodeCountList items = st.alloc + nodeCountList allitems ∧
      st'.freed = st.freed) ∧
    (∀ text pos st items st',
      parse_array_items fuel text pos items st = (none, st') →
      st'.freed + st.alloc = st.freed + st'.alloc + nodeCountList items) ∧
    (∀ text pos st item pos' st',
      parse_object fuel text pos st = (some (item, pos'), st') →
      st'.alloc + 1 = st.alloc + nodeCount item ∧ st'.freed = st.freed) ∧
    (∀ text pos st st',
      parse_object fuel text pos st = (none, st') →
      st'.alloc + st.freed = st.alloc + st'.freed) ∧
    (∀ text pos st items allitems pos' st',
      parse_object_items fuel text pos items st = (some (allitems, pos'), st') →
      st'.alloc + nodeCountList items = st.alloc + nodeCountList allitems ∧
      st'.freed = st.freed) ∧
    (∀ text pos st items st',
      parse_object_items fuel text pos items st = (none, st') →
      st'.freed + st.alloc = st.freed + st'.alloc + nodeCountList items) := by
  induction fuel with
  | zero =>
    refine ⟨?_, ?_, ?_, ?_, ?_, ?_, ?_, ?_, ?_, ?_⟩
    · intro text pos st item pos' st' h; exact absurd h (by simp [parse_value])
    · intro text pos st st' h
      simp only [parse_value, Prod.mk.injEq] at h
      obtain ⟨-, rfl⟩ := h; omega
    · intro text pos st item pos' st' h; exact absurd h (by simp [parse_array])
    · intro text pos st st' h
      simp only [parse_array, Prod.mk.injEq] at h
      obtain ⟨-, rfl⟩ := h; omega
    · intro text pos st items allitems pos' st' h
      exact absurd h (by simp [parse_array_items])
    · intro text pos st items st' h
      simp only [parse_array_items, Prod.mk.injEq] at h
      obtain ⟨-, rfl⟩ := h
      simp [PSt.free, PSt.allocate]; omega
    · intro text pos st item pos' st' h; exact absurd h (by simp [parse_object])
    · intro text pos st st' h
      simp only [parse_object, Prod.mk.injEq] at h
      obtain ⟨-, rfl⟩ := h; omega
    · intro text pos st items allitems pos' st' h
      exact absurd h (by simp [parse_object_items])
    · intro text pos st items st' h
      simp only [parse_object_items, Prod.mk.injEq] at h
      obtain ⟨-, rfl⟩ := h
      simp [PSt.free, PSt.allocate]; omega
  | succ fuel ih =>
    obtain ⟨ihv1, ihv2, iha1, iha2, ihi1, ihi2, iho1, iho2, ihm1, ihm2⟩ := ih
    refine ⟨?_, ?_, ?_, ?_, ?_, ?_, ?_, ?_, ?_, ?_⟩
    · -- parse_value, success
      intro text pos st item pos' st' h
      simp only [parse_value] at h
      split at h
      · simp only [Prod.mk.injEq, Option.some.injEq] at h
        obtain ⟨⟨rfl, rfl⟩, rfl⟩ := h
        exact ⟨by simp [nodeCount, nodeCountList], rfl⟩
      split at h
      · simp only [Prod.mk.injEq, Option.some.injEq] at h
        obtain ⟨⟨rfl, rfl⟩, rfl⟩ := h
        exact ⟨by simp [nodeCount, nodeCountList], rfl⟩
      split at h
      · simp only [Prod.mk.injEq, Option.some.injEq] at h
        obtain ⟨⟨rfl, rfl⟩, rfl⟩ := h
        exact ⟨by simp [nodeCount, nodeCountList], rfl⟩
      split at h
      · split at h
        · exact absurd h (by simp)
        · simp only [Prod.mk.injEq, Option.some.injEq] at h
          obtain ⟨⟨rfl, rfl⟩, rfl⟩ := h
          exact ⟨by simp [nodeCount, nodeCountList], rfl⟩
      split at h
      · split at h
        · exact absurd h (by simp)
        · rename_i nitem nafter hnum
          simp only [Prod.mk.injEq, Option.some.injEq] at h
          obtain ⟨⟨rfl, rfl⟩, rfl⟩ := h
          have h1 := parse_number_nodeCount text pos nitem nafter hnum
          exact ⟨by omega, rfl⟩
      split at h
      · exact iha1 text pos st item pos' st' h
      split at h
      · exact iho1 text pos st item pos' st' h
      · exact absurd h (by simp)
    · -- parse_value, failure
      intro text pos st st' h
      simp only [parse_value] at h
      split at h
      · exact absurd h (by simp)
      split at h
      · exact absurd h (by simp)
      split at h
      · exact absurd h (by simp)
      split at h
      · split at h
        · simp only [Prod.mk.injEq] at h
          obtain ⟨-, rfl⟩ := h; rfl
        · exact absurd h (by simp)
      split at h
      · split at h
        · simp only [Prod.mk.injEq] at h
          obtain ⟨-, rfl⟩ := h; rfl
        · exact absurd h (by simp)
      split at h
      · exact iha2 text pos st st' h
      split at h
      · exact iho2 text pos st st' h
      · simp only [Prod.mk.injEq] at h
        obtain ⟨-, rfl⟩ := h; rfl
    · -- parse_array, success
      intro text pos st item pos' st' h
      simp only [parse_array] at h
      split at h
      · exact absurd h (by simp)
      split at h
      · simp only [Prod.mk.injEq, Option.some.injEq] at h
        obtain ⟨⟨rfl, rfl⟩, rfl⟩ := h
        exact ⟨by simp [nodeCount, nodeCountList], rfl⟩
      · split at h
        · exact absurd h (by simp)
        · rename_i items after st2 heq
          simp only [Prod.mk.injEq, Option.some.injEq] at h
          obtain ⟨⟨rfl, rfl⟩, rfl⟩ := h
          have h1 := ihi1 text (pos + 1) st [] items after st2 heq
          simp only [nodeCountList] at h1
          exact ⟨by simp [nodeCount]; omega, h1.2⟩
    · -- parse_array, failure
      intro text pos st st' h
      simp only [parse_array] at h
      split at h
      · simp only [Prod.mk.injEq] at h
        obtain ⟨-, rfl⟩ := h; rfl
      split at h
      · exact absurd h (by simp)
      · split at h
        · rename_i st2 heq
          simp only [Prod.mk.injEq] at h
          obtain ⟨-, rfl⟩ := h
          have h1 := ihi2 text (pos + 1) st [] st2 heq
          simp only [nodeCountList] at h1
          omega
        · exact absurd h (by simp)
    · -- parse_array_items, success
      intro text pos st items allitems pos' st' h
      simp only [parse_array_items] at h
      split at h
      · exact absurd h (by simp)
      · rename_i item0 pos2 st2 heq
        have h1 := ihv1 text (skipWsAux text pos) st.allocate item0 pos2 st2 heq
        simp only [PSt.allocate] at h1
        split at h
        · have h2 := ihi1 text (skipWsAux text pos2 + 1) st2 (items ++ [item0])
            allitems pos' st' h
          rw [nodeCountList_append] at h2
          simp only [nodeCountList] at h2
          exact ⟨by omega, by omega⟩
        split at h
        · simp only [Prod.mk.injEq, Option.some.injEq] at h
          obtain ⟨⟨rfl, rfl⟩, rfl⟩ := h
          rw [nodeCountList_append]
          simp only [nodeCountList]
          exact ⟨by omega, h1.2⟩
        · exact absurd h (by simp)
    · -- parse_array_items, failure
      intro text pos st items st' h
      simp only [parse_array_items] at h
      split at h
      · rename_i st2 heq
        have h1 := ihv2 text (skipWsAux text pos) st.allocate st2 heq
        simp only [PSt.allocate] at h1
        simp only [Prod.mk.injEq] at h
        obtain ⟨-, rfl⟩ := h
        simp only [PSt.free]
        omega
      · rename_i item0 pos2 st2 heq
        have h1 := ihv1 text (skipWsAux text pos) st.allocate item0 pos2 st2 heq
        simp only [PSt.allocate] at h1
        split at h
        · have h2 := ihi2 text (skipWsAux text pos2 + 1) st2 (items ++ [item0])
            st' h
          rw [nodeCountList_append] at h2
          simp only [nodeCountList] at h2
          omega
        split at h
        · exact absurd h (by simp)
        · simp only [Prod.mk.injEq] at h
          obtain ⟨-, rfl⟩ := h
          simp only [PSt.free, PSt.seterr]
          omega
    · -- parse_object, success
      intro text pos st item pos' st' h
      simp only [parse_object] at h
      split at h
      · exact absurd h (by simp)
      split at h
      · simp only [Prod.mk.injEq, Option.some.injEq] at h
        obtain ⟨⟨rfl, rfl⟩, rfl⟩ := h
        exact ⟨by simp [nodeCount, nodeCountList], rfl⟩
      · split at h
        · exact absurd h (by simp)
        · rename_i items after st2 heq
          simp only [Prod.mk.injEq, Option.some.injEq] at h
          obtain ⟨⟨rfl, rfl⟩, rfl⟩ := h
          have h1 := ihm1 text (pos + 1) st [] items after st2 heq
          simp only [nodeCountList] at h1
          exact ⟨by simp [nodeCount]; omega, h1.2⟩
    · -- parse_object, failure
      intro text pos st st' h
      simp only [parse_object] at h
      split at h
      · simp only [Prod.mk.injEq] at h
        obtain ⟨-, rfl⟩ := h; rfl
      split at h
      · exact absurd h (by simp)
      · split at h
        · rename_i st2 heq
          simp only [Prod.mk.injEq] at h
          obtain ⟨-, rfl⟩ := h
          have h1 := ihm2 text (pos + 1) st [] st2 heq
          simp only [nodeCountList] at h1
          omega
        · exact absurd h (by simp)
    · -- parse_object_items, success
      intro text pos st items allitems pos' st' h
      simp only [parse_object_items] at h
      split at h
      · exact absurd h (by simp)
      · rename_i key pos2 ep heq
        split at h
        · exact absurd h (by simp)
        · split at h
          · exact absurd h (by simp)
          · rename_i item0 pos4 st3 heq3
            have h1 := ihv1 text (skipWsAux text (skipWsAux text pos2 + 1))
              { st.allocate with ep := ep } item0 pos4 st3 heq3
            simp only [PSt.allocate] at h1
            split at h
            · have h2 := ihm1 text (skipWsAux text pos4 + 1) st3
                (items ++ [.mk item0.type item0.valuestring item0.valueint
                  item0.valuedouble (some key) item0.child])
                allitems pos' st' h
              rw [nodeCountList_append] at h2
              simp only [nodeCountList, nodeCount_mk_child] at h2
              exact ⟨by omega, by omega⟩
            split at h
            · simp only [Prod.mk.injEq, Option.some.injEq] at h
              obtain ⟨⟨rfl, rfl⟩, rfl⟩ := h
              rw [nodeCountList_append]
              simp only [nodeCountList, nodeCount_mk_child]
              exact ⟨by omega, h1.2⟩
            · exact absurd h (by simp)
    · -- parse_object_items, failure
      intro text pos st items st' h
      simp only [parse_object_items] at h
      split at h
      · simp only [Prod.mk.injEq] at h
        obtain ⟨-, rfl⟩ := h
        simp only [PSt.free, PSt.allocate]
        omega
      · rename_i key pos2 ep heq
        split at h
        · simp only [Prod.mk.injEq] at h
          obtain ⟨-, rfl⟩ := h
          simp only [PSt.free, PSt.seterr, PSt.allocate]
          omega
        · split at h
          · rename_i st3 heq3
            have h1 := ihv2 text (skipWsAux text (skipWsAux text pos2 + 1))
              { st.allocate with ep := ep } st3 heq3
            simp only [PSt.allocate] at h1
            simp only [Prod.mk.injEq] at h
            obtain ⟨-, rfl⟩ := h
            simp only [PSt.free]
            omega
          · rename_i item0 pos4 st3 heq3
            have h1 := ihv1 text (skipWsAux text (skipWsAux text pos2 + 1))
              { st.allocate with ep := ep } item0 pos4 st3 heq3
            simp only [PSt.allocate] at h1
            split at h
            · have h2 := ihm2 text (skipWsAux text pos4 + 1) st3
                (items ++ [.mk item0.type item0.valuestring item0.valueint
                  item0.valuedouble (some key) item0.child]) st' h
              rw [nodeCountList_append] at h2
              simp only [nodeCountList, nodeCount_mk_child] at h2
              omega
            split at h
            · exact absurd h (by simp)
            · simp only [Prod.mk.injEq] at h
              obtain ⟨-, rfl⟩ := h
              simp only [PSt.free, PSt.seterr, nodeCount_mk_child]
              omega

/-- C4 (counterexample to the original wording): the claim says the
retained error position after a failed container parse is the first
offending byte, but `parse("[-]")` — whose offending element starts at
byte 1 — fails with NO retained error position at all: `parse_number`
rejects a bare minus by returning the start pointer without touching
`ep`.  (Cleanup is still perfect: two allocations, two frees.) -/
theorem C4_error_position_not_recorded_for_bad_number :
    (cJSON_Parse [91, 45, 93]).1 = none ∧
    (cJSON_Parse [91, 45, 93]).2.1 = none ∧
    (cJSON_Parse [91, 45, 93]).2.2.alloc = 2 ∧
    (cJSON_Parse [91, 45, 93]).2.2.freed = 2 := by
  refine ⟨?_, ?_, ?_, ?_⟩ <;> with_unfolding_all rfl

/-- C4 (amended): whenever parsing fails — in particular whenever an array
element or object member fails to parse or the closing bracket/brace is
missing — no tree is handed to the caller and every node allocated during
the attempt is freed (final census balanced); inside the element loops a
failure frees the entire sibling list built so far on top of the loop's
own allocations; and `parse("[1,2,")` fails with the retained error
position at the truncation point (byte 5, the terminator) with a balanced
census.  (The error position is recorded by most failure sites but not by
malformed numbers or unterminated string literals; see the
counterexample.) -/
theorem C4_container_failure_frees_all :
    (∀ text req ep st', cJSON_ParseWithOpts text req = (none, ep, st') →
      st'.alloc = st'.freed) ∧
    (∀ fuel text pos items st st',
      parse_array_items fuel text pos items st = (none, st') →
      st'.freed + st.alloc = st.freed + st'.alloc + nodeCountList items) ∧
    (∀ fuel text pos items st st',
      parse_object_items fuel text pos items st = (none, st') →
      st'.freed + st.alloc = st.freed + st'.alloc + nodeCountList items) ∧
    (cJSON_Parse [91, 49, 44, 50, 44]).1 = none ∧
    (cJSON_Parse [91, 49, 44, 50, 44]).2.1 = some 5 ∧
    (cJSON_Parse [91, 49, 44, 50, 44]).2.2.alloc =
      (cJSON_Parse [91, 49, 44, 50, 44]).2.2.freed := by
  refine ⟨?_, ?_, ?_, ?_, ?_, ?_⟩
  · intro text req ep st' h
    simp only [cJSON_ParseWithOpts] at h
    split at h
    · rename_i st heq
      have h1 := (parse_census (2 * text.length + 2)).2.1 text
        (skipWsAux text 0) { ep := none, alloc := 1, freed := 0 } st heq
      simp only [Prod.mk.injEq] at h
      obtain ⟨-, -, rfl⟩ := h
      simp only [PSt.free] at h1 ⊢
      omega
    · rename_i c endPos st heq
      have h1 := (parse_census (2 * text.length + 2)).1 text
        (skipWsAux text 0) { ep := none, alloc := 1, freed := 0 } c endPos st heq
      split at h
      · split at h
        · simp only [Prod.mk.injEq] at h
          obtain ⟨-, -, rfl⟩ := h
          simp only [PSt.free, PSt.seterr] at h1 ⊢
          omega
        · exact absurd h (by simp)
      · exact absurd h (by simp)
  · intro fuel text pos items st st' h
    exact (parse_census fuel).2.2.2.2.2.1 text pos st items st' h
  · intro fuel text pos items st st' h
    exact (parse_census fuel).2.2.2.2.2.2.2.2.2 text pos st items st' h
  · with_unfolding_all rfl
  · with_unfolding_all rfl
  · with_unfolding_all rfl

/-- Witness for `C4_container_failure_frees_all`: its first component
applied to the concrete truncated input `"[1,2,"` — which evaluates to
the failure `(none, some 5, ⟨some 5, 4, 4⟩)` — yields the balanced
census 4 = 4. -/
theorem C4_container_failure_frees_all_witness :
    ({ ep := some 5, alloc := 4, freed := 4 } : PSt).alloc =
      ({ ep := some 5, alloc := 4, freed := 4 } : PSt).freed :=
  C4_container_failure_frees_all.1 [91, 49, 44, 50, 44] false (some 5)
    { ep := some 5, alloc := 4, freed := 4 } (by with_unfolding_all rfl)

/-! ## C5: fixed-capacity printing never writes at or past the boundary -/

/-- The per-byte escape output has exactly the length the reserving scan
charged for it. -/
theorem escapeByte_length (b : Nat) : (escapeByte b).length = escapedLen1 b := by
  by_cases h31 : b ≤ 31
  · interval_cases b <;> decide
  · by_cases h34 : b = 34
    · subst h34; decide
    · by_cases h92 : b = 92
      · subst h92; decide
      · unfold escapeByte escapedLen1
        rw [if_pos ⟨by omega, h34, h92⟩, if_neg (by omega), if_neg (by omega)]
        rfl

/-- The escaped payload has exactly the reserved length. -/
theorem escapeBytes_length (s : Bytes) :
    (escapeBytes s).length = (s.map escapedLen1).sum := by
  induction s with
  | nil => rfl
  | cons b s ih =>
    simp only [escapeBytes, List.flatMap_cons, List.length_append,
      List.map_cons, List.sum_cons, escapeByte_length] at *
    omega

/-- A number node whose rendered digits (terminator included) fit in the
region `print_number` reserves — true of every value an IEEE double can
take, and assumed of the trees the fixed-capacity safety theorem ranges
over (the model's unbounded rationals admit digit strings a real `double`
cannot produce). -/
def printNumberFits (item : cJSON) : Bool :=
  (printNumberBytes item).length < if numberIntPath item then 21 else 64

mutual

/-- Every number node of the tree satisfies `printNumberFits`. -/
def treeNumFits : cJSON → Bool
  | .mk t vs vi vd s c =>
    (!(t % 256 == cJSON_Number) || printNumberFits (.mk t vs vi vd s c)) &&
      listNumFits c

/-- `treeNumFits` over a sibling list. -/
def listNumFits : List cJSON → Bool
  | [] => true
  | x :: xs => treeNumFits x && listNumFits xs

end

theorem treeNumFits_node {item : cJSON} (h : treeNumFits item = true) :
    (item.type % 256 = cJSON_Number → printNumberFits item = true) ∧
    listNumFits item.child = true := by
  cases item with
  | mk t vs vi vd s c =>
    simp only [treeNumFits, Bool.and_eq_true, Bool.or_eq_true,
      Bool.not_eq_true', beq_eq_false_iff_ne] at h
    refine ⟨fun ht => ?_, h.2⟩
    rcases h.1 with h1 | h1
    · exact absurd ht h1
    · exact h1

theorem listNumFits_cons {x : cJSON} {xs : List cJSON}
    (h : listNumFits (x :: xs) = true) :
    treeNumFits x = true ∧ listNumFits xs = true := by
  simpa [listNumFits, Bool.and_eq_true] using h

/-- What a fixed-capacity (`noalloc`) run is allowed to do to the memory:
keep the mode, the tracked capacity and the block size, and leave every
byte at or past the capacity boundary untouched. -/
def noallocFrame (p q : printbuffer) : Prop :=
  q.noalloc = true ∧ q.length = p.length ∧
  q.buffer.length = p.buffer.length ∧
  ∀ j, p.length ≤ j → byteAt q.buffer j = byteAt p.buffer j

theorem noallocFrame_refl {p : printbuffer} (h : p.noalloc = true) :
    noallocFrame p p :=
  ⟨h, rfl, rfl, fun _ _ => rfl⟩

theorem noallocFrame_trans {p q r : printbuffer}
    (h1 : noallocFrame p q) (h2 : noallocFrame q r) : noallocFrame p r :=
  ⟨h2.1, h2.2.1.trans h1.2.1, h2.2.2.1.trans h1.2.2.1,
    fun j hj => (h2.2.2.2 j (h1.2.1 ▸ hj)).trans (h1.2.2.2 j hj)⟩

/-- In `noalloc` mode a successful `ensure` changes nothing and certifies
that the requested region lies inside the tracked capacity. -/
theorem ensure_noalloc {p p' : printbuffer} {n ptr : Nat}
    (h : ensure p n = some (p', ptr)) (hna : p.noalloc = true) :
    p' = p ∧ ptr = p.offset ∧ p.offset + n ≤ p.length := by
  unfold ensure at h
  split at h
  · exact absurd h (by simp)
  split at h
  next hfit =>
    obtain ⟨rfl, rfl⟩ : p' = p ∧ ptr = p.offset := by cases h; exact ⟨rfl, rfl⟩
    exact ⟨rfl, rfl, by omega⟩
  next hnotfit =>
    exact absurd h (by simp)

/-- The elementary safe step: reserve, then write no more than was
reserved. -/
theorem noallocFrame_write {p p1 : printbuffer} {needed ptr : Nat}
    (hna : p.noalloc = true) (he : ensure p needed = some (p1, ptr))
    (bs : Bytes) (hbs : bs.length ≤ needed) (off' : Nat) :
    noallocFrame p { p1 with buffer := writeAt p1.buffer ptr bs, offset := off' } := by
  obtain ⟨h1, h2, hfit⟩ := ensure_noalloc he hna
  rw [h1, h2]
  exact ⟨hna, rfl, writeAt_length bs p.buffer p.offset,
    fun j hj => byteAt_writeAt_ge bs p.buffer p.offset j (by omega)⟩

theorem print_number_s_frame {item : cJSON} {p : printbuffer}
    (hna : p.noalloc = true) (hfit : printNumberFits item = true) :
    noallocFrame p (print_number_s item p).1 := by
  simp only [print_number_s, print_number]
  cases he : ensure p (if numberIntPath item then 21 else 64) with
  | none => exact noallocFrame_refl hna
  | some pr =>
    obtain ⟨p1, ptr⟩ := pr
    simp only [printNumberFits, decide_eq_true_eq] at hfit
    exact noallocFrame_write hna he _
      (by simp only [List.length_append, List.length_cons, List.length_nil]; omega) _

theorem print_string_ptr_frame {input : Option Bytes} {p : printbuffer}
    (hna : p.noalloc = true) :
    noallocFrame p (print_string_ptr input p).1 := by
  cases input with
  | none =>
    simp only [print_string_ptr]
    cases he : ensure p 3 with
    | none => exact noallocFrame_refl hna
    | some pr =>
      obtain ⟨p1, ptr⟩ := pr
      exact noallocFrame_write hna he _ (by decide) _
  | some s0 =>
    simp only [print_string_ptr]
    by_cases hs : (!(cstrContent s0).any isSpecialChar) = true
    · rw [if_pos hs]
      cases he : ensure p ((cstrContent s0).length + 3) with
      | none => exact noallocFrame_refl hna
      | some pr =>
        obtain ⟨p1, ptr⟩ := pr
        exact noallocFrame_write hna he _ (by simp) _
    · rw [if_neg hs]
      cases he : ensure p (((cstrContent s0).map escapedLen1).sum + 3) with
      | none => exact noallocFrame_refl hna
      | some pr =>
        obtain ⟨p1, ptr⟩ := pr
        refine noallocFrame_write hna he _ ?_ _
        simp [escapeBytes_length]

theorem writeLit_frame {p : printbuffer} {needed : Nat} {lit : Bytes}
    (hna : p.noalloc = true) (hlen : lit.length + 1 ≤ needed) :
    noallocFrame p (writeLit p needed lit).1 := by
  unfold writeLit
  cases he : ensure p needed with
  | none => exact noallocFrame_refl hna
  | some pr =>
    obtain ⟨p1, ptr⟩ := pr
    exact noallocFrame_write hna he _ (by simp; omega) _

theorem noallocFrame_offset {p q : printbuffer} (h : noallocFrame p q) (off : Nat) :
    noallocFrame p { q with offset := off } :=
  ⟨h.1, h.2.1, h.2.2.1, h.2.2.2⟩

theorem sepLen (fmt : Bool) :
    ((if fmt then [44, 32] else [44]) ++ [0]).length ≤ (if fmt then 2 else 1) + 1 := by
  cases fmt <;> decide

theorem objEmptyLen (fmt : Bool) (depth : Nat) :
    (123 :: ((if fmt then 10 :: List.replicate depth 9 else []) ++ [125, 0])).length ≤
      if fmt then depth + 4 else 3 := by
  cases fmt <;> simp <;> omega

theorem objOpenLen (fmt : Bool) :
    (123 :: ((if fmt then [10] else []) ++ [0])).length ≤ (if fmt then 2 else 1) + 1 := by
  cases fmt <;> decide

theorem objCloseLen (fmt : Bool) (depth : Nat) :
    ((if fmt then List.replicate depth 9 else []) ++ [125, 0]).length ≤
      if fmt then depth + 1 + 1 else 2 := by
  cases fmt <;> simp <;> omega

theorem kvSepLen (fmt : Bool) :
    (58 :: (if fmt then [9] else [])).length ≤ if fmt then 2 else 1 := by
  cases fmt <;> decide

theorem objEndLen (fmt b : Bool) :
    ((if b then [] else [44]) ++ (if fmt then [10] else []) ++ [0]).length ≤
      ((if fmt then 1 else 0) + (if b then 0 else 1)) + 1 := by
  cases fmt <;> cases b <;> decide

/-- The fixed-capacity safety invariant, proved for all five mutually
recursive print functions at once by induction on fuel: a `noalloc` run —
succeeding or failing — keeps the mode, the tracked capacity and the block
size, and never touches a byte at or past the capacity boundary. -/
theorem print_noalloc_frame (fuel : Nat) :
    (∀ item depth fmt p p' ok, treeNumFits item = true →
      print_value fuel item depth fmt p = (p', ok) → p.noalloc = true →
      noallocFrame p p') ∧
    (∀ item depth fmt p p' ok, treeNumFits item = true →
      print_array fuel item depth fmt p = (p', ok) → p.noalloc = true →
      noallocFrame p p') ∧
    (∀ children depth fmt p p' ok, listNumFits children = true →
      print_array_items fuel children depth fmt p = (p', ok) → p.noalloc = true →
      noallocFrame p p') ∧
    (∀ item depth fmt p p' ok, treeNumFits item = true →
      print_object fuel item depth fmt p = (p', ok) → p.noalloc = true →
      noallocFrame p p') ∧
    (∀ children depth fmt p p' ok, listNumFits children = true →
      print_object_items fuel children depth fmt p = (p', ok) → p.noalloc = true →
      noallocFrame p p') := by
  induction fuel with
  | zero =>
    refine ⟨?_, ?_, ?_, ?_, ?_⟩
    · intro item depth fmt p p' ok _ h hna
      simp only [print_value, Prod.mk.injEq] at h
      obtain ⟨rfl, -⟩ := h
      exact noallocFrame_refl hna
    · intro item depth fmt p p' ok _ h hna
      simp only [print_array, Prod.mk.injEq] at h
      obtain ⟨rfl, -⟩ := h
      exact noallocFrame_refl hna
    · intro children depth fmt p p' ok _ h hna
      simp only [print_array_items, Prod.mk.injEq] at h
      obtain ⟨rfl, -⟩ := h
      exact noallocFrame_refl hna
    · intro item depth fmt p p' ok _ h hna
      simp only [print_object, Prod.mk.injEq] at h
      obtain ⟨rfl, -⟩ := h
      exact noallocFrame_refl hna
    · intro children depth fmt p p' ok _ h hna
      simp only [print_object_items, Prod.mk.injEq] at h
      obtain ⟨rfl, -⟩ := h
      exact noallocFrame_refl hna
  | succ fuel ih =>
    obtain ⟨ihv, iha, ihai, iho, ihoi⟩ := ih
    refine ⟨?_, ?_, ?_, ?_, ?_⟩
    · -- print_value
      intro item depth fmt p p' ok hfits h hna
      simp only [print_value] at h
      split at h
      · have hw := @writeLit_frame _ 5 nullLit hna (by decide)
        rw [h] at hw
        exact hw
      split at h
      · have hw := @writeLit_frame _ 6 falseLit hna (by decide)
        rw [h] at hw
        exact hw
      split at h
      · have hw := @writeLit_frame _ 5 trueLit hna (by decide)
        rw [h] at hw
        exact hw
      split at h
      next ht =>
        have hw := print_number_s_frame hna ((treeNumFits_node hfits).1 ht)
        rw [h] at hw
        exact hw
      split at h
      · -- Raw
        split at h
        · rw [Prod.mk.injEq] at h
          obtain ⟨rfl, -⟩ := h
          exact noallocFrame_refl hna
        · rename_i raw0
          split at h
          · rw [Prod.mk.injEq] at h
            obtain ⟨rfl, -⟩ := h
            exact noallocFrame_refl hna
          · rename_i p1 ptr he
            rw [Prod.mk.injEq] at h
            obtain ⟨rfl, -⟩ := h
            exact noallocFrame_write hna he _ (by simp) p1.offset
      split at h
      · -- String
        simp only [print_string] at h
        have hw := @print_string_ptr_frame item.valuestring _ hna
        rw [h] at hw
        exact hw
      split at h
      · exact iha item depth fmt p p' ok hfits h hna
      split at h
      · exact iho item depth fmt p p' ok hfits h hna
      · rw [Prod.mk.injEq] at h
        obtain ⟨rfl, -⟩ := h
        exact noallocFrame_refl hna
    · -- print_array
      intro item depth fmt p p' ok hfits h hna
      simp only [print_array] at h
      split at h
      · split at h
        · rw [Prod.mk.injEq] at h
          obtain ⟨rfl, -⟩ := h
          exact noallocFrame_refl hna
        · rename_i p1 ptr he
          rw [Prod.mk.injEq] at h
          obtain ⟨rfl, -⟩ := h
          exact noallocFrame_write hna he _ (by decide) p1.offset
      · split at h
        · rw [Prod.mk.injEq] at h
          obtain ⟨rfl, -⟩ := h
          exact noallocFrame_refl hna
        · rename_i p1 ptr he
          have hf1 : noallocFrame p
              { p1 with buffer := p1.buffer.set ptr 91, offset := p1.offset + 1 } :=
            noallocFrame_write hna he [91] (by decide) (p1.offset + 1)
          split at h
          · rename_i p3 heq
            rw [Prod.mk.injEq] at h
            obtain ⟨rfl, -⟩ := h
            exact noallocFrame_trans hf1
              (ihai item.child depth fmt _ _ false (treeNumFits_node hfits).2 heq hf1.1)
          · rename_i p3 heq
            have hf3 : noallocFrame p p3 :=
              noallocFrame_trans hf1
                (ihai item.child depth fmt _ p3 true (treeNumFits_node hfits).2 heq hf1.1)
            split at h
            · rw [Prod.mk.injEq] at h
              obtain ⟨rfl, -⟩ := h
              exact hf3
            · rename_i p4 ptr2 he2
              rw [Prod.mk.injEq] at h
              obtain ⟨rfl, -⟩ := h
              exact noallocFrame_trans hf3
                (noallocFrame_write hf3.1 he2 _ (by decide) p4.offset)
    · -- print_array_items
      intro children depth fmt p p' ok hfits h hna
      cases children with
      | nil =>
        simp only [print_array_items, Prod.mk.injEq] at h
        obtain ⟨rfl, -⟩ := h
        exact noallocFrame_refl hna
      | cons child rest =>
        simp only [print_array_items] at h
        obtain ⟨hc, hrest⟩ := listNumFits_cons hfits
        split at h
        · rename_i p1 heq
          rw [Prod.mk.injEq] at h
          obtain ⟨rfl, -⟩ := h
          exact ihv child (depth + 1) fmt p _ false hc heq hna
        · rename_i p1 heq
          have hf1 : noallocFrame p p1 := ihv child (depth + 1) fmt p p1 true hc heq hna
          split at h
          · rw [Prod.mk.injEq] at h
            obtain ⟨rfl, -⟩ := h
            exact noallocFrame_offset hf1 _
          · split at h
            · rw [Prod.mk.injEq] at h
              obtain ⟨rfl, -⟩ := h
              exact noallocFrame_offset hf1 _
            · rename_i p3 ptr he
              have hf4 := noallocFrame_trans (noallocFrame_offset hf1 (update p1))
                (noallocFrame_write (noallocFrame_offset hf1 (update p1)).1 he
                  ((if fmt then [44, 32] else [44]) ++ [0]) (sepLen fmt)
                  (p3.offset + if fmt then 2 else 1))
              exact noallocFrame_trans hf4 (ihai rest depth fmt _ p' ok hrest h hf4.1)
    · -- print_object
      intro item depth fmt p p' ok hfits h hna
      simp only [print_object] at h
      split at h
      · split at h
        · rw [Prod.mk.injEq] at h
          obtain ⟨rfl, -⟩ := h
          exact noallocFrame_refl hna
        · rename_i p1 ptr he
          rw [Prod.mk.injEq] at h
          obtain ⟨rfl, -⟩ := h
          exact noallocFrame_write hna he _ (objEmptyLen fmt depth) p1.offset
      · split at h
        · rw [Prod.mk.injEq] at h
          obtain ⟨rfl, -⟩ := h
          exact noallocFrame_refl hna
        · rename_i p1 ptr he
          have hf1 : noallocFrame p
              { p1 with
                buffer := writeAt p1.buffer ptr (123 :: ((if fmt then [10] else []) ++ [0])),
                offset := p1.offset + if fmt then 2 else 1 } :=
            noallocFrame_write hna he _ (objOpenLen fmt) _
          split at h
          · rename_i p3 heq
            rw [Prod.mk.injEq] at h
            obtain ⟨rfl, -⟩ := h
            exact noallocFrame_trans hf1
              (ihoi item.child (depth + 1) fmt _ _ false (treeNumFits_node hfits).2 heq hf1.1)
          · rename_i p3 heq
            have hf3 : noallocFrame p p3 :=
              noallocFrame_trans hf1
                (ihoi item.child (depth + 1) fmt _ p3 true (treeNumFits_node hfits).2 heq hf1.1)
            split at h
            · rw [Prod.mk.injEq] at h
              obtain ⟨rfl, -⟩ := h
              exact hf3
            · rename_i p4 ptr2 he2
              rw [Prod.mk.injEq] at h
              obtain ⟨rfl, -⟩ := h
              exact noallocFrame_trans hf3
                (noallocFrame_write hf3.1 he2 _ (objCloseLen fmt depth) p4.offset)
    · -- print_object_items
      intro children depth1 fmt p p' ok hfits h hna
      cases children with
      | nil =>
        simp only [print_object_items, Prod.mk.injEq] at h
        obtain ⟨rfl, -⟩ := h
        exact noallocFrame_refl hna
      | cons child rest =>
        simp only [print_object_items] at h
        obtain ⟨hc, hrest⟩ := listNumFits_cons hfits
        split at h
        · -- the indentation step failed
          rename_i p1 heq
          rw [Prod.mk.injEq] at h
          obtain ⟨rfl, -⟩ := h
          split at heq
          · split at heq
            · rw [Prod.mk.injEq] at heq
              obtain ⟨rfl, -⟩ := heq
              exact noallocFrame_refl hna
            · rename_i pa ptr he
              rw [Prod.mk.injEq] at heq
              exact absurd heq.2 (by simp)
          · rw [Prod.mk.injEq] at heq
            exact absurd heq.2 (by simp)
        · rename_i p1 heq
          have hf1 : noallocFrame p p1 := by
            split at heq
            · split at heq
              · rw [Prod.mk.injEq] at heq
                exact absurd heq.2 (by simp)
              · rename_i pa ptr he
                rw [Prod.mk.injEq] at heq
                obtain ⟨rfl, -⟩ := heq
                exact noallocFrame_write hna he _ (by simp) (pa.offset + depth1)
            · rw [Prod.mk.injEq] at heq
              obtain ⟨rfl, -⟩ := heq
              exact noallocFrame_refl hna
          split at h
          · rename_i p2 heq2
            rw [Prod.mk.injEq] at h
            obtain ⟨rfl, -⟩ := h
            have hw := @print_string_ptr_frame child.string _ hf1.1
            rw [heq2] at hw
            exact noallocFrame_trans hf1 hw
          · rename_i p2 heq2
            have hw := @print_string_ptr_frame child.string _ hf1.1
            rw [heq2] at hw
            have hf2 : noallocFrame p p2 := noallocFrame_trans hf1 hw
            split at h
            · rw [Prod.mk.injEq] at h
              obtain ⟨rfl, -⟩ := h
              exact noallocFrame_offset hf2 _
            · rename_i p4 ptr he
              have hf5 := noallocFrame_trans (noallocFrame_offset hf2 (update p2))
                (noallocFrame_write (noallocFrame_offset hf2 (update p2)).1 he
                  (58 :: (if fmt then [9] else [])) (kvSepLen fmt)
                  (p4.offset + if fmt then 2 else 1))
              split at h
              · rename_i p6 heq6
                rw [Prod.mk.injEq] at h
                obtain ⟨rfl, -⟩ := h
                exact noallocFrame_trans hf5 (ihv child depth1 fmt _ _ false hc heq6 hf5.1)
              · rename_i p6 heq6
                have hf6 : noallocFrame p p6 :=
                  noallocFrame_trans hf5 (ihv child depth1 fmt _ p6 true hc heq6 hf5.1)
                split at h
                · rw [Prod.mk.injEq] at h
                  obtain ⟨rfl, -⟩ := h
                  exact noallocFrame_offset hf6 _
                · rename_i p8 ptr2 he2
                  have hf9 := noallocFrame_trans (noallocFrame_offset hf6 (update p6))
                    (noallocFrame_write (noallocFrame_offset hf6 (update p6)).1 he2
                      ((if rest.isEmpty then [] else [44]) ++
                        (if fmt then [10] else []) ++ [0])
                      (objEndLen fmt rest.isEmpty)
                      (p8.offset + ((if fmt then 1 else 0) +
                        (if rest.isEmpty then 0 else 1))))
                  exact noallocFrame_trans hf9 (ihoi rest depth1 fmt _ p' ok hrest h hf9.1)

/-! ## The rendered bytes of the printer, as a pure function

`renderValue` restates, value-level, exactly which bytes the imperative
printer deposits (terminators that later writes overwrite are elided; the
single final terminator is accounted separately).  The content theorem
below proves the two agree on every successful run. -/

/-- The bytes `print_string_ptr` nets (quotes included, terminator
excluded). -/
def renderString (input : Option Bytes) : Bytes :=
  match input with
  | none => [34, 34]
  | some s0 =>
    let s := cstrContent s0
    if !s.any isSpecialChar then 34 :: (s ++ [34])
    else 34 :: (escapeBytes s ++ [34])

mutual

/-- The bytes a successful `print_value` nets. -/
def renderValue : Nat → cJSON → Nat → Bool → Option Bytes
  | 0, _, _, _ => none
  | fuel + 1, item, depth, fmt =>
    let t := item.type % 256
    if t = cJSON_NULL then some nullLit
    else if t = cJSON_False then some falseLit
    else if t = cJSON_True then some trueLit
    else if t = cJSON_Number then some (printNumberBytes item)
    else if t = cJSON_Raw then
      match item.valuestring with
      | none => none
      | some raw0 => some (cstrContent raw0)
    else if t = cJSON_String then some (renderString item.valuestring)
    else if t = cJSON_Array then renderArray fuel item depth fmt
    else if t = cJSON_Object then renderObject fuel item depth fmt
    else none

/-- The bytes a successful `print_array` nets. -/
def renderArray : Nat → cJSON → Nat → Bool → Option Bytes
  | 0, _, _, _ => none
  | fuel + 1, item, depth, fmt =>
    if item.child.length = 0 then some [91, 93]
    else
      match renderArrayItems fuel item.child depth fmt with
      | none => none
      | some out => some (91 :: (out ++ [93]))

/-- The bytes a successful `print_array_items` nets. -/
def renderArrayItems : Nat → List cJSON → Nat → Bool → Option Bytes
  | 0, _, _, _ => none
  | _ + 1, [], _, _ => some []
  | fuel + 1, child :: rest, depth, fmt =>
    match renderValue fuel child (depth + 1) fmt with
    | none => none
    | some out =>
      if rest.isEmpty then some out
      else
        match renderArrayItems fuel rest depth fmt with
        | none => none
        | some routl => some (out ++ ((if fmt then [44, 32] else [44]) ++ routl))

/-- The bytes a successful `print_object` nets. -/
def renderObject : Nat → cJSON → Nat → Bool → Option Bytes
  | 0, _, _, _ => none
  | fuel + 1, item, depth, fmt =>
    if item.child.length = 0 then
      some (123 :: ((if fmt then 10 :: List.replicate depth 9 else []) ++ [125]))
    else
      match renderObjectItems fuel item.child (depth + 1) fmt with
      | none => none
      | some out =>
        some (123 :: ((if fmt then [10] else []) ++
          (out ++ ((if fmt then List.replicate depth 9 else []) ++ [125]))))

/-- The bytes a successful `print_object_items` nets (`depth1` is the
already-incremented depth). -/
def renderObjectItems : Nat → List cJSON → Nat → Bool → Option Bytes
  | 0, _, _, _ => none
  | _ + 1, [], _, _ => some []
  | fuel + 1, child :: rest, depth1, fmt =>
    match renderValue fuel child depth1 fmt with
    | none => none
    | some vout =>
      match renderObjectItems fuel rest depth1 fmt with
      | none => none
      | some routl =>
        some ((if fmt then List.replicate depth1 9 else []) ++
          (renderString child.string ++
            ((58 :: (if fmt then [9] else [])) ++
              (vout ++
                (((if rest.isEmpty then [] else [44]) ++
                  (if fmt then [10] else [])) ++ routl)))))

end

/-! ## Windows: pointwise content of a written region -/

/-- `bs` sits in `buf` starting at index `a`. -/
def windowRaw (buf : List Nat) (a : Nat) (bs : Bytes) : Prop :=
  ∀ k, k < bs.length → byteAt buf (a + k) = byteAt bs k

theorem windowRaw_append {buf : List Nat} {a : Nat} {bs1 bs2 : Bytes}
    (h1 : windowRaw buf a bs1) (h2 : windowRaw buf (a + bs1.length) bs2) :
    windowRaw buf a (bs1 ++ bs2) := by
  intro k hk
  simp only [List.length_append] at hk
  by_cases hlt : k < bs1.length
  · rw [h1 k hlt, byteAt, byteAt, List.getD_append _ _ _ _ hlt]
  · have hk2 : k - bs1.length < bs2.length := by omega
    have hr : byteAt (bs1 ++ bs2) k = byteAt bs2 (k - bs1.length) := by
      simp only [byteAt]
      rw [List.getD_append_right _ _ _ _ (by omega)]
    rw [hr, show a + k = a + bs1.length + (k - bs1.length) by omega]
    exact h2 (k - bs1.length) hk2

theorem windowRaw_mono {buf buf' : List Nat} {a : Nat} {bs : Bytes}
    (h : windowRaw buf a bs)
    (hpres : ∀ j, j < a + bs.length → byteAt buf' j = byteAt buf j) :
    windowRaw buf' a bs :=
  fun k hk => (hpres _ (by omega)).trans (h k hk)

theorem windowRaw_nil {buf : List Nat} {a : Nat} : windowRaw buf a [] := by
  intro k hk
  exact absurd hk (by simp)

theorem windowRaw_singleton {buf : List Nat} {a b : Nat}
    (h : byteAt buf a = b) : windowRaw buf a [b] := by
  intro k hk
  have : k = 0 := by simpa using hk
  subst this
  simpa using h

/-- `strlen` of a list whose first `m` bytes are nonzero and whose `m`-th
byte reads as zero. -/
theorem cstrlen_eq :
    ∀ (l : List Nat) (m : Nat), (∀ k, k < m → byteAt l k ≠ 0) →
      byteAt l m = 0 → cstrlen l = m := by
  intro l
  induction l with
  | nil =>
    intro m h1 _
    match m with
    | 0 => rfl
    | m + 1 => exact absurd (rfl : byteAt [] 0 = 0) (h1 0 (by omega))
  | cons b rest ih =>
    intro m h1 h2
    match m with
    | 0 =>
      have hb : b = 0 := h2
      simp [cstrlen, hb]
    | m + 1 =>
      have hb : b ≠ 0 := h1 0 (by omega)
      have hr : cstrlen rest = m :=
        ih m (fun k hk => h1 (k + 1) (by omega)) h2
      simp only [cstrlen, List.takeWhile] at hr ⊢
      rw [show (b ≠ 0 : Bool) = true by simp [hb]]
      simp only [List.length_cons, hr]

theorem byteAt_mem {out : Bytes} {i : Nat} (h : i < out.length) :
    byteAt out i ∈ out := by
  rw [byteAt, List.getD_eq_getElem?_getD, List.getElem?_eq_getElem h,
    Option.getD_some]
  exact List.getElem_mem h

theorem byteAt_drop (l : List Nat) (s k : Nat) :
    byteAt (l.drop s) k = byteAt l (s + k) := by
  simp [byteAt, List.getD, List.getElem?_drop]

/-- `update` on a buffer whose offset sits inside a written `bs ++ [0]`
window. -/
theorem update_eq {p1 : printbuffer} {a : Nat} {out : Bytes}
    (h1 : a ≤ p1.offset) (h2 : p1.offset ≤ a + out.length)
    (hw : windowRaw p1.buffer a out)
    (h0 : byteAt p1.buffer (a + out.length) = 0)
    (hnz : ∀ b ∈ out, b ≠ 0) :
    update p1 = a + out.length := by
  have hcs : cstrlen (p1.buffer.drop p1.offset) = a + out.length - p1.offset := by
    apply cstrlen_eq
    · intro k hk
      rw [byteAt_drop]
      have hidx : p1.offset + k = a + (p1.offset - a + k) := by omega
      rw [hidx, hw _ (by omega)]
      exact hnz _ (byteAt_mem (by omega))
    · rw [byteAt_drop, show p1.offset + (a + out.length - p1.offset) = a + out.length
        by omega]
      exact h0
  simp only [update, hcs]
  omega

/-! ## Rendered bytes contain no NUL -/

theorem cstrContent_ne_zero {s : Bytes} : ∀ b ∈ cstrContent s, b ≠ 0 := by
  intro b hb
  have := List.mem_takeWhile_imp hb
  simpa using this

theorem hexDigit_ge (d : Nat) : 48 ≤ hexDigit d := by
  unfold hexDigit
  split <;> omega

theorem hexRepr4_ne_zero {n : Nat} : ∀ c ∈ hexRepr4 n, c ≠ 0 := by
  intro c hc
  simp only [hexRepr4, List.mem_append, List.mem_replicate] at hc
  rcases hc with h | h
  · omega
  · split at h
    · simp only [List.mem_singleton] at h
      omega
    · simp only [List.mem_map] at h
      obtain ⟨d, -, rfl⟩ := h
      have := hexDigit_ge d
      omega

theorem escapeByte_ne_zero (b : Nat) : ∀ c ∈ escapeByte b, c ≠ 0 := by
  intro c hc
  unfold escapeByte at hc
  split at hc
  · rename_i h
    simp only [List.mem_singleton] at hc
    omega
  · simp only [List.mem_cons] at hc
    rcases hc with rfl | hc
    · omega
    · split at hc <;>
        simp only [List.mem_cons, List.not_mem_nil, or_false] at hc
      all_goals first
      | omega
      | (rcases hc with rfl | hc
         · omega
         · exact hexRepr4_ne_zero _ hc)

theorem escapeBytes_ne_zero {s : Bytes} : ∀ c ∈ escapeBytes s, c ≠ 0 := by
  intro c hc
  simp only [escapeBytes, List.mem_flatMap] at hc
  obtain ⟨b, -, hb⟩ := hc
  exact escapeByte_ne_zero b c hb

theorem renderString_ne_zero (input : Option Bytes) :
    ∀ b ∈ renderString input, b ≠ 0 := by
  intro b hb
  unfold renderString at hb
  match input with
  | none =>
    simp only [List.mem_cons, List.not_mem_nil, or_false] at hb
    omega
  | some s0 =>
    simp only at hb
    split at hb <;>
      simp only [List.mem_cons, List.mem_append, List.not_mem_nil, or_false] at hb
    · rcases hb with rfl | h | rfl
      · omega
      · exact cstrContent_ne_zero _ h
      · omega
    · rcases hb with rfl | h | rfl
      · omega
      · exact escapeBytes_ne_zero _ h
      · omega

theorem decRepr_ne_zero {n : Nat} : ∀ b ∈ decRepr n, b ≠ 0 := by
  intro b hb
  have := decRepr_digit_range hb
  omega

theorem intRepr_ne_zero {i : Int} : ∀ b ∈ intRepr i, b ≠ 0 := by
  intro b hb
  unfold intRepr at hb
  split at hb
  · rcases hb with _ | ⟨_, h⟩
    · omega
    · exact decRepr_ne_zero _ (by simpa using h)
  · exact decRepr_ne_zero _ hb

theorem zeroPad_ne_zero {w n : Nat} : ∀ b ∈ zeroPad w n, b ≠ 0 := by
  intro b hb
  simp only [zeroPad, List.mem_append, List.mem_replicate] at hb
  rcases hb with h | h
  · omega
  · exact decRepr_ne_zero _ h

theorem fmtF0_ne_zero {q : ℚ} : ∀ b ∈ fmtF0 q, b ≠ 0 := by
  intro b hb
  unfold fmtF0 at hb
  split at hb
  · simp only [List.mem_cons] at hb
    rcases hb with rfl | hb
    · omega
    · exact decRepr_ne_zero _ hb
  · exact decRepr_ne_zero _ hb

theorem fmtF_ne_zero {q : ℚ} : ∀ b ∈ fmtF q, b ≠ 0 := by
  intro b hb
  unfold fmtF at hb
  simp only [List.mem_append, List.mem_cons] at hb
  rcases hb with (h | h) | rfl | h
  · split at h
    · simp only [List.mem_cons, List.not_mem_nil, or_false] at h
      omega
    · simp only [List.not_mem_nil] at h
  · exact decRepr_ne_zero _ h
  · omega
  · exact zeroPad_ne_zero _ h

theorem signByte_ne_zero (c : Prop) [Decidable c] :
    (if c then 45 else 43) ≠ (0 : Nat) := by
  split <;> omega

theorem fmtE_ne_zero {q : ℚ} : ∀ b ∈ fmtE q, b ≠ 0 := by
  intro b hb
  unfold fmtE at hb
  split at hb
  · simp only [List.mem_cons, List.not_mem_nil, or_false] at hb
    omega
  · simp only [List.mem_append, List.mem_cons] at hb
    rcases hb with ((h | h) | rfl | h) | rfl | rfl | h
    · split at h
      · simp only [List.mem_cons, List.not_mem_nil, or_false] at h
        omega
      · simp only [List.not_mem_nil] at h
    · exact decRepr_ne_zero _ h
    · omega
    · exact zeroPad_ne_zero _ h
    · omega
    · exact signByte_ne_zero _
    · exact zeroPad_ne_zero _ h

theorem printNumberBytes_ne_zero (item : cJSON) :
    ∀ b ∈ printNumberBytes item, b ≠ 0 := by
  intro b hb
  unfold printNumberBytes at hb
  split at hb
  · exact intRepr_ne_zero _ hb
  · split at hb
    · simp only [nullLit, List.mem_cons, List.not_mem_nil, or_false] at hb
      omega
    · split at hb
      · split at hb
        · exact fmtF0_ne_zero _ hb
        · split at hb
          · exact fmtE_ne_zero _ hb
          · exact fmtF_ne_zero _ hb
      · simp only [List.not_mem_nil] at hb
      · simp only [List.not_mem_nil] at hb

/-! ## The elementary content step -/

theorem byteAt_append_self (bs : Bytes) (x : Nat) :
    byteAt (bs ++ [x]) bs.length = x := by
  simp only [byteAt]
  rw [List.getD_append_right _ _ _ _ (le_refl _)]
  simp

theorem windowRaw_front {buf : List Nat} {a : Nat} {bs1 bs2 : Bytes}
    (h : windowRaw buf a (bs1 ++ bs2)) : windowRaw buf a bs1 := by
  intro k hk
  have h1 := h k (by simp only [List.length_append]; omega)
  rw [show byteAt (bs1 ++ bs2) k = byteAt bs1 k from by
    simp only [byteAt]; rw [List.getD_append _ _ _ _ hk]] at h1
  exact h1

theorem windowRaw_last0 {buf : List Nat} {a : Nat} {bs : Bytes}
    (h : windowRaw buf a (bs ++ [0])) : byteAt buf (a + bs.length) = 0 := by
  have h1 := h bs.length (by simp)
  rw [byteAt_append_self] at h1
  exact h1

/-- One reserve-and-write: reserve `needed`, deposit `bs` at the returned
pointer (the old offset), advance the offset by `adv`. -/
theorem write_step {p p1 : printbuffer} {needed ptr : Nat}
    (hok : bufOk p) (hol : p.offset ≤ p.length)
    (he : ensure p needed = some (p1, ptr)) (bs : Bytes)
    (hbs : bs.length ≤ needed) (adv : Nat) (hadv : adv ≤ needed) :
    ({ p1 with buffer := writeAt p1.buffer ptr bs, offset := p1.offset + adv } :
        printbuffer).noalloc = p.noalloc ∧
    bufOk { p1 with buffer := writeAt p1.buffer ptr bs, offset := p1.offset + adv } ∧
    p.length ≤ p1.length ∧
    ({ p1 with buffer := writeAt p1.buffer ptr bs, offset := p1.offset + adv } :
        printbuffer).offset = p.offset + adv ∧
    ({ p1 with buffer := writeAt p1.buffer ptr bs, offset := p1.offset + adv } :
        printbuffer).length = p1.length ∧
    p.offset + needed ≤ p1.length ∧
    (∀ j, j < p.offset →
      byteAt (writeAt p1.buffer ptr bs) j = byteAt p.buffer j) ∧
    windowRaw (writeAt p1.buffer ptr bs) p.offset bs := by
  obtain ⟨hptr, hoff, hna, hfit, hmono, hok1, hframe, -⟩ := ensure_some he hok
  subst hptr
  refine ⟨hna, ⟨?_, ?_⟩, hmono, by rw [hoff], rfl, hfit, ?_, ?_⟩
  · simp only [writeAt_length]
    exact hok1.1
  · intro hgrow
    simp only [writeAt_length]
    exact hok1.2 hgrow
  · intro j hj
    rw [byteAt_writeAt_lt bs _ _ _ (by omega)]
    exact hframe j (by omega)
  · intro k hk
    have hb : p.offset + bs.length ≤ p1.buffer.length := by
      have := hok1.1
      omega
    exact byteAt_writeAt_in bs p1.buffer p.offset k hb hk

/-- What a successful print step guarantees: rendered bytes are NUL-free
and sit at the entry offset, followed by a terminator inside the tracked
capacity; memory before the entry offset is untouched; the mode is kept
and the capacity only grows. -/
def printedV (p q : printbuffer) (out : Bytes) : Prop :=
  (∀ b ∈ out, b ≠ 0) ∧
  q.noalloc = p.noalloc ∧ bufOk q ∧ p.length ≤ q.length ∧
  p.offset ≤ q.offset ∧ q.offset ≤ p.offset + out.length ∧
  p.offset + out.length < q.length ∧
  (∀ j, j < p.offset → byteAt q.buffer j = byteAt p.buffer j) ∧
  windowRaw q.buffer p.offset out ∧
  byteAt q.buffer (p.offset + out.length) = 0

/-- The loop variant: the offset lands exactly at the end of the emitted
bytes (the loops re-derive it with `update` after every element), and no
terminator of its own is claimed (the enclosing container writes one). -/
def printedL (p q : printbuffer) (out : Bytes) : Prop :=
  (∀ b ∈ out, b ≠ 0) ∧
  q.noalloc = p.noalloc ∧ bufOk q ∧ p.length ≤ q.length ∧
  q.offset = p.offset + out.length ∧ q.offset ≤ q.length ∧
  (∀ j, j < p.offset → byteAt q.buffer j = byteAt p.buffer j) ∧
  windowRaw q.buffer p.offset out

/-- A single `ensure`-and-write of `out ++ [0]` without moving the offset
is a complete `printedV` step. -/
theorem printedV_of_write {p p1 : printbuffer} {needed ptr : Nat}
    (hok : bufOk p) (hol : p.offset ≤ p.length)
    (he : ensure p needed = some (p1, ptr)) (out : Bytes)
    (hlen : out.length + 1 ≤ needed) (hnz : ∀ b ∈ out, b ≠ 0) :
    printedV p { p1 with buffer := writeAt p1.buffer ptr (out ++ [0]) } out ∧
    ({ p1 with buffer := writeAt p1.buffer ptr (out ++ [0]) } :
      printbuffer).offset = p.offset := by
  have hw := write_step hok hol he (out ++ [0])
    (by simp only [List.length_append, List.length_cons, List.length_nil]; omega)
    0 (by omega)
  obtain ⟨hna, hok1, hmono, hoff, hlen1, hfit, hpres, hwin⟩ := hw
  simp only [Nat.add_zero] at hna hok1 hoff hlen1
  constructor
  · refine ⟨hnz, hna, hok1, ?_, ?_, ?_, ?_, hpres, windowRaw_front hwin,
      windowRaw_last0 hwin⟩ <;> (simp only [Nat.add_zero]; omega)
  · simp only [Nat.add_zero]
    omega

/-- Primed variant: the deposited bytes are given in any form equal to
`out ++ [0]`. -/
theorem printedV_of_write' {p p1 : printbuffer} {needed ptr : Nat}
    (hok : bufOk p) (hol : p.offset ≤ p.length)
    (he : ensure p needed = some (p1, ptr)) (bs out : Bytes)
    (hbs : bs = out ++ [0])
    (hlen : out.length + 1 ≤ needed) (hnz : ∀ b ∈ out, b ≠ 0) :
    printedV p { p1 with buffer := writeAt p1.buffer ptr bs } out ∧
    ({ p1 with buffer := writeAt p1.buffer ptr bs } :
      printbuffer).offset = p.offset := by
  subst hbs
  exact printedV_of_write hok hol he out hlen hnz

/-- A loop step that deposits `out ++ [0]` and advances the offset to the
end of `out`. -/
theorem step_content0 {p p1 : printbuffer} {needed ptr : Nat}
    (hok : bufOk p) (hol : p.offset ≤ p.length)
    (he : ensure p needed = some (p1, ptr)) (out : Bytes)
    (hlen : out.length + 1 ≤ needed) (hnz : ∀ b ∈ out, b ≠ 0)
    (adv : Nat) (hadv : adv = out.length) :
    printedL p
      { p1 with
        buffer := writeAt p1.buffer ptr (out ++ [0]),
        offset := p1.offset + adv } out := by
  subst hadv
  have hw := write_step hok hol he (out ++ [0])
    (by simp only [List.length_append, List.length_cons, List.length_nil]; omega)
    out.length (by omega)
  obtain ⟨hna, hok1, hmono, hoff, hlen1, hfit, hpres, hwin⟩ := hw
  exact ⟨hnz, hna, hok1, by omega, by omega, by omega, hpres,
    windowRaw_front hwin⟩

/-- A loop step that deposits bare `out` (no terminator) and advances the
offset past it. -/
theorem step_contentRaw {p p1 : printbuffer} {needed ptr : Nat}
    (hok : bufOk p) (hol : p.offset ≤ p.length)
    (he : ensure p needed = some (p1, ptr)) (out : Bytes)
    (hlen : out.length ≤ needed) (hnz : ∀ b ∈ out, b ≠ 0)
    (adv : Nat) (hadv : adv = out.length) :
    printedL p
      { p1 with
        buffer := writeAt p1.buffer ptr out,
        offset := p1.offset + adv } out := by
  subst hadv
  have hw := write_step hok hol he out hlen out.length (by omega)
  obtain ⟨hna, hok1, hmono, hoff, hlen1, hfit, hpres, hwin⟩ := hw
  exact ⟨hnz, hna, hok1, by omega, by omega, by omega, hpres, hwin⟩

theorem printedL_nil {p : printbuffer} (hok : bufOk p)
    (hol : p.offset ≤ p.length) : printedL p p [] :=
  ⟨by simp, rfl, hok, le_refl _, by simp, hol, fun _ _ => rfl, windowRaw_nil⟩

theorem mem_append_ne_zero {out1 out2 : Bytes}
    (h1 : ∀ b ∈ out1, b ≠ 0) (h2 : ∀ b ∈ out2, b ≠ 0) :
    ∀ b ∈ out1 ++ out2, b ≠ 0 := by
  intro b hb
  rcases List.mem_append.1 hb with h | h
  · exact h1 b h
  · exact h2 b h

theorem printedL_trans {p q r : printbuffer} {out1 out2 : Bytes}
    (h1 : printedL p q out1) (h2 : printedL q r out2) :
    printedL p r (out1 ++ out2) := by
  obtain ⟨nz1, na1, ok1, le1, off1, ol1, pre1, win1⟩ := h1
  obtain ⟨nz2, na2, ok2, le2, off2, ol2, pre2, win2⟩ := h2
  refine ⟨mem_append_ne_zero nz1 nz2, na2.trans na1, ok2, le_trans le1 le2,
    by simp only [List.length_append]; omega, ol2, ?_, ?_⟩
  · intro j hj
    exact (pre2 j (by omega)).trans (pre1 j hj)
  · refine windowRaw_append ?_ ?_
    · exact windowRaw_mono win1 (fun j hj => pre2 j (by omega))
    · rw [← off1]
      exact win2

theorem printedL_V_trans {p q r : printbuffer} {out1 out2 : Bytes}
    (h1 : printedL p q out1) (h2 : printedV q r out2) :
    printedV p r (out1 ++ out2) := by
  obtain ⟨nz1, na1, ok1, le1, off1, ol1, pre1, win1⟩ := h1
  obtain ⟨nz2, na2, ok2, le2, ge2, le2b, fit2, pre2, win2, nul2⟩ := h2
  refine ⟨mem_append_ne_zero nz1 nz2, na2.trans na1, ok2, le_trans le1 le2,
    by omega, by simp only [List.length_append]; omega,
    by simp only [List.length_append]; omega, ?_, ?_, ?_⟩
  · intro j hj
    exact (pre2 j (by omega)).trans (pre1 j hj)
  · refine windowRaw_append ?_ ?_
    · exact windowRaw_mono win1 (fun j hj => pre2 j (by omega))
    · rw [← off1]
      exact win2
  · rw [show p.offset + (out1 ++ out2).length = q.offset + out2.length from by
      simp only [List.length_append]; omega]
    exact nul2

theorem printedV_update {p q : printbuffer} {out : Bytes}
    (h : printedV p q out) :
    printedL p { q with offset := update q } out := by
  obtain ⟨nz, na, ok, le, ge, leb, fit, pre, win, nul⟩ := h
  have hu : update q = p.offset + out.length := update_eq ge leb win nul nz
  refine ⟨nz, na, ok, le, ?_, ?_, pre, win⟩
  · show update q = p.offset + out.length
    exact hu
  · show update q ≤ q.length
    omega

theorem renderString_none : renderString none = [34, 34] := rfl

theorem renderString_plain {s0 : Bytes}
    (hc : (!(cstrContent s0).any isSpecialChar) = true) :
    renderString (some s0) = 34 :: (cstrContent s0 ++ [34]) := by
  simp only [renderString]
  rw [if_pos hc]

theorem renderString_escaped {s0 : Bytes}
    (hc : ¬(!(cstrContent s0).any isSpecialChar) = true) :
    renderString (some s0) = 34 :: (escapeBytes (cstrContent s0) ++ [34]) := by
  simp only [renderString]
  rw [if_neg hc]

/-- Content of a successful `print_string_ptr`: it deposits exactly
`renderString input` plus a terminator at the entry offset and does not
move the offset. -/
theorem print_string_ptr_content {input : Option Bytes} {p p' : printbuffer}
    (hok : bufOk p) (hol : p.offset ≤ p.length)
    (h : print_string_ptr input p = (p', true)) :
    printedV p p' (renderString input) ∧ p'.offset = p.offset := by
  cases input with
  | none =>
    simp only [print_string_ptr] at h
    split at h
    · exact absurd h (by simp)
    · rename_i p1 ptr he
      rw [Prod.mk.injEq] at h
      obtain ⟨rfl, -⟩ := h
      rw [renderString_none]
      exact printedV_of_write' hok hol he [34, 34, 0] [34, 34] rfl (by decide)
        (by decide)
  | some s0 =>
    simp only [print_string_ptr] at h
    split at h
    next hc =>
      split at h
      · exact absurd h (by simp)
      · rename_i p1 ptr he
        rw [Prod.mk.injEq] at h
        obtain ⟨rfl, -⟩ := h
        rw [renderString_plain hc]
        refine printedV_of_write' hok hol he _ _ ?_ (by simp) ?_
        · simp
        · intro b hb
          simp only [List.mem_cons, List.mem_append, List.not_mem_nil,
            or_false] at hb
          rcases hb with rfl | hb | rfl
          · omega
          · exact cstrContent_ne_zero _ hb
          · omega
    next hc =>
      split at h
      · exact absurd h (by simp)
      · rename_i p1 ptr he
        rw [Prod.mk.injEq] at h
        obtain ⟨rfl, -⟩ := h
        rw [renderString_escaped hc]
        refine printedV_of_write' hok hol he _ _ ?_ ?_ ?_
        · simp
        · simp [escapeBytes_length]
        · intro b hb
          simp only [List.mem_cons, List.mem_append, List.not_mem_nil,
            or_false] at hb
          rcases hb with rfl | hb | rfl
          · omega
          · exact escapeBytes_ne_zero _ hb
          · omega

/-! ## Small facts about the printer's separator and framing bytes -/

theorem printedL_ok {p q : printbuffer} {out : Bytes} (h : printedL p q out) :
    bufOk q := h.2.2.1

theorem printedL_le {p q : printbuffer} {out : Bytes} (h : printedL p q out) :
    q.offset ≤ q.length := h.2.2.2.2.2.1

theorem printedV_ok {p q : printbuffer} {out : Bytes} (h : printedV p q out) :
    bufOk q := h.2.2.1

theorem printedV_le {p q : printbuffer} {out : Bytes} (h : printedV p q out) :
    q.offset ≤ q.length := by
  obtain ⟨-, -, -, -, -, hle, hfit, -, -, -⟩ := h
  omega

theorem repNz (n : Nat) : ∀ b ∈ List.replicate n 9, b ≠ 0 := by
  intro b hb
  rw [List.eq_of_mem_replicate hb]
  omega

theorem tabsNz (fmt : Bool) (n : Nat) :
    ∀ b ∈ ((if fmt then List.replicate n 9 else []) : Bytes), b ≠ 0 := by
  intro b hb
  split at hb
  · exact repNz n b hb
  · simp at hb

theorem sepNz (fmt : Bool) :
    ∀ b ∈ ((if fmt then [44, 32] else [44]) : Bytes), b ≠ 0 := by
  cases fmt <;> decide

theorem sepLen0 (fmt : Bool) :
    ((if fmt then [44, 32] else [44]) : Bytes).length + 1 ≤
      (if fmt then 2 else 1) + 1 := by
  cases fmt <;> decide

theorem sepAdv (fmt : Bool) :
    (if fmt then 2 else 1) = ((if fmt then [44, 32] else [44]) : Bytes).length := by
  cases fmt <;> rfl

theorem objOpenNz (fmt : Bool) :
    ∀ b ∈ (123 :: (if fmt then [10] else []) : Bytes), b ≠ 0 := by
  cases fmt <;> decide

theorem objOpenLen0 (fmt : Bool) :
    (123 :: (if fmt then [10] else []) : Bytes).length + 1 ≤
      (if fmt then 2 else 1) + 1 := by
  cases fmt <;> decide

theorem objOpenAdv (fmt : Bool) :
    (if fmt then 2 else 1) = (123 :: (if fmt then [10] else []) : Bytes).length := by
  cases fmt <;> rfl

theorem kvNz (fmt : Bool) :
    ∀ b ∈ (58 :: (if fmt then [9] else []) : Bytes), b ≠ 0 := by
  cases fmt <;> decide

theorem kvLen (fmt : Bool) :
    (58 :: (if fmt then [9] else []) : Bytes).length ≤ if fmt then 2 else 1 := by
  cases fmt <;> decide

theorem kvAdv (fmt : Bool) :
    (if fmt then 2 else 1) = (58 :: (if fmt then [9] else []) : Bytes).length := by
  cases fmt <;> rfl

theorem endNz (fmt b : Bool) :
    ∀ c ∈ (((if b then [] else [44]) ++ (if fmt then [10] else [])) : Bytes),
      c ≠ 0 := by
  cases fmt <;> cases b <;> decide

theorem endLen0 (fmt b : Bool) :
    (((if b then [] else [44]) ++ (if fmt then [10] else [])) : Bytes).length + 1 ≤
      ((if fmt then 1 else 0) + (if b then 0 else 1)) + 1 := by
  cases fmt <;> cases b <;> decide

theorem endAdv (fmt b : Bool) :
    ((if fmt then 1 else 0) + (if b then 0 else 1)) =
      (((if b then [] else [44]) ++ (if fmt then [10] else [])) : Bytes).length := by
  cases fmt <;> cases b <;> rfl

theorem objEmptyNz (fmt : Bool) (depth : Nat) :
    ∀ b ∈ (123 :: ((if fmt then 10 :: List.replicate depth 9 else []) ++ [125]) :
      Bytes), b ≠ 0 := by
  intro b hb
  simp only [List.mem_cons, List.mem_append, List.not_mem_nil, or_false] at hb
  rcases hb with rfl | hb | rfl
  · omega
  · split at hb
    · rcases List.mem_cons.1 hb with rfl | hb
      · omega
      · exact repNz _ b hb
    · simp at hb
  · omega

theorem objEmptyLen2 (fmt : Bool) (depth : Nat) :
    (123 :: ((if fmt then 10 :: List.replicate depth 9 else []) ++ [125]) :
      Bytes).length + 1 ≤ if fmt then depth + 4 else 3 := by
  cases fmt <;> simp <;> omega

theorem closeNz (fmt : Bool) (depth : Nat) :
    ∀ b ∈ (((if fmt then List.replicate depth 9 else []) ++ [125]) : Bytes),
      b ≠ 0 := by
  intro b hb
  rcases List.mem_append.1 hb with hb | hb
  · exact tabsNz fmt depth b hb
  · simp only [List.mem_singleton] at hb
    omega

theorem closeLen2 (fmt : Bool) (depth : Nat) :
    (((if fmt then List.replicate depth 9 else []) ++ [125]) : Bytes).length + 1 ≤
      if fmt then depth + 1 + 1 else 2 := by
  cases fmt <;> simp <;> omega

/-- The printer's content, proved for all five mutually recursive print
functions at once by induction on fuel: a successful run deposits exactly
the `render*` bytes (plus one terminator) at the entry offset, touching
nothing before it, and the loops leave the offset exactly past what they
emitted. -/
theorem print_content (fuel : Nat) :
    (∀ item depth fmt p p', treeNumFits item = true → bufOk p →
      p.offset ≤ p.length → print_value fuel item depth fmt p = (p', true) →
      ∃ out, renderValue fuel item depth fmt = some out ∧ printedV p p' out) ∧
    (∀ item depth fmt p p', treeNumFits item = true → bufOk p →
      p.offset ≤ p.length → print_array fuel item depth fmt p = (p', true) →
      ∃ out, renderArray fuel item depth fmt = some out ∧ printedV p p' out) ∧
    (∀ children depth fmt p p', listNumFits children = true → bufOk p →
      p.offset ≤ p.length →
      print_array_items fuel children depth fmt p = (p', true) →
      ∃ out, renderArrayItems fuel children depth fmt = some out ∧
        printedL p p' out) ∧
    (∀ item depth fmt p p', treeNumFits item = true → bufOk p →
      p.offset ≤ p.length → print_object fuel item depth fmt p = (p', true) →
      ∃ out, renderObject fuel item depth fmt = some out ∧ printedV p p' out) ∧
    (∀ children depth fmt p p', listNumFits children = true → bufOk p →
      p.offset ≤ p.length →
      print_object_items fuel children depth fmt p = (p', true) →
      ∃ out, renderObjectItems fuel children depth fmt = some out ∧
        printedL p p' out) := by
  induction fuel with
  | zero =>
    refine ⟨?_, ?_, ?_, ?_, ?_⟩
    · intro item depth fmt p p' _ _ _ h
      simp only [print_value] at h
      exact absurd h (by simp)
    · intro item depth fmt p p' _ _ _ h
      simp only [print_array] at h
      exact absurd h (by simp)
    · intro children depth fmt p p' _ _ _ h
      simp only [print_array_items] at h
      exact absurd h (by simp)
    · intro item depth fmt p p' _ _ _ h
      simp only [print_object] at h
      exact absurd h (by simp)
    · intro children depth fmt p p' _ _ _ h
      simp only [print_object_items] at h
      exact absurd h (by simp)
  | succ fuel ih =>
    obtain ⟨ihv, iha, ihai, iho, ihoi⟩ := ih
    refine ⟨?_, ?_, ?_, ?_, ?_⟩
    · -- print_value
      intro item depth fmt p p' hfits hok hol h
      simp only [print_value] at h
      split at h
      next h1 =>
        simp only [writeLit] at h
        split at h
        · exact absurd h (by simp)
        · rename_i p1 ptr he
          rw [Prod.mk.injEq] at h
          obtain ⟨rfl, -⟩ := h
          refine ⟨nullLit, ?_, (printedV_of_write hok hol he nullLit
            (by decide) (by decide)).1⟩
          simp only [renderValue]
          rw [if_pos h1]
      next h1 =>
      split at h
      next h2 =>
        simp only [writeLit] at h
        split at h
        · exact absurd h (by simp)
        · rename_i p1 ptr he
          rw [Prod.mk.injEq] at h
          obtain ⟨rfl, -⟩ := h
          refine ⟨falseLit, ?_, (printedV_of_write hok hol he falseLit
            (by decide) (by decide)).1⟩
          simp only [renderValue]
          rw [if_neg h1, if_pos h2]
      next h2 =>
      split at h
      next h3 =>
        simp only [writeLit] at h
        split at h
        · exact absurd h (by simp)
        · rename_i p1 ptr he
          rw [Prod.mk.injEq] at h
          obtain ⟨rfl, -⟩ := h
          refine ⟨trueLit, ?_, (printedV_of_write hok hol he trueLit
            (by decide) (by decide)).1⟩
          simp only [renderValue]
          rw [if_neg h1, if_neg h2, if_pos h3]
      next h3 =>
      split at h
      next h4 =>
        simp only [print_number_s, print_number] at h
        split at h
        · exact absurd h (by simp)
        · rename_i p1 ptr hpn
          rw [Prod.mk.injEq] at h
          obtain ⟨rfl, -⟩ := h
          split at hpn
          · exact absurd hpn (by simp)
          · rename_i p2 ptr2 he
            rw [Option.some.injEq, Prod.mk.injEq] at hpn
            obtain ⟨rfl, -⟩ := hpn
            have hpf := (treeNumFits_node hfits).1 h4
            simp only [printNumberFits, decide_eq_true_eq] at hpf
            refine ⟨printNumberBytes item, ?_, (printedV_of_write hok hol he
              (printNumberBytes item) (by omega)
              (printNumberBytes_ne_zero item)).1⟩
            simp only [renderValue]
            rw [if_neg h1, if_neg h2, if_neg h3, if_pos h4]
      next h4 =>
      split at h
      next h5 =>
        split at h
        · exact absurd h (by simp)
        · rename_i raw0 hvs
          split at h
          · exact absurd h (by simp)
          · rename_i p1 ptr he
            rw [Prod.mk.injEq] at h
            obtain ⟨rfl, -⟩ := h
            refine ⟨cstrContent raw0, ?_, (printedV_of_write' hok hol he _ _
              rfl (by simp) cstrContent_ne_zero).1⟩
            simp only [renderValue]
            rw [if_neg h1, if_neg h2, if_neg h3, if_neg h4, if_pos h5, hvs]
      next h5 =>
      split at h
      next h6 =>
        simp only [print_string] at h
        refine ⟨renderString item.valuestring, ?_,
          (print_string_ptr_content hok hol h).1⟩
        simp only [renderValue]
        rw [if_neg h1, if_neg h2, if_neg h3, if_neg h4, if_neg h5, if_pos h6]
      next h6 =>
      split at h
      next h7 =>
        obtain ⟨out, hr, hV⟩ := iha item depth fmt p p' hfits hok hol h
        refine ⟨out, ?_, hV⟩
        simp only [renderValue]
        rw [if_neg h1, if_neg h2, if_neg h3, if_neg h4, if_neg h5, if_neg h6,
          if_pos h7]
        exact hr
      next h7 =>
      split at h
      next h8 =>
        obtain ⟨out, hr, hV⟩ := iho item depth fmt p p' hfits hok hol h
        refine ⟨out, ?_, hV⟩
        simp only [renderValue]
        rw [if_neg h1, if_neg h2, if_neg h3, if_neg h4, if_neg h5, if_neg h6,
          if_neg h7, if_pos h8]
        exact hr
      next h8 =>
        exact absurd h (by simp)
    · -- print_array
      intro item depth fmt p p' hfits hok hol h
      simp only [print_array] at h
      split at h
      next hemp =>
        split at h
        · exact absurd h (by simp)
        · rename_i p1 ptr he
          rw [Prod.mk.injEq] at h
          obtain ⟨rfl, -⟩ := h
          refine ⟨[91, 93], ?_, (printedV_of_write hok hol he [91, 93]
            (by decide) (by decide)).1⟩
          simp only [renderArray]
          rw [if_pos hemp]
      next hemp =>
        split at h
        · exact absurd h (by simp)
        · rename_i p1 ptr he
          have hopen : printedL p
              { p1 with buffer := p1.buffer.set ptr 91, offset := p1.offset + 1 }
              [91] :=
            step_contentRaw hok hol he [91] (by decide) (by decide) 1 (by decide)
          split at h
          · exact absurd h (by simp)
          · rename_i p3 heq
            obtain ⟨outi, hri, hLi⟩ := ihai item.child depth fmt _ p3
              (treeNumFits_node hfits).2 (printedL_ok hopen) (printedL_le hopen)
              heq
            have hL13 := printedL_trans hopen hLi
            split at h
            · exact absurd h (by simp)
            · rename_i p4 ptr2 he2
              rw [Prod.mk.injEq] at h
              obtain ⟨rfl, -⟩ := h
              have hclose := (printedV_of_write (printedL_ok hL13)
                (printedL_le hL13) he2 [93] (by decide) (by decide)).1
              have htot := printedL_V_trans hL13 hclose
              rw [List.append_assoc] at htot
              refine ⟨91 :: (outi ++ [93]), ?_, htot⟩
              simp only [renderArray]
              rw [if_neg hemp, hri]
    · -- print_array_items
      intro children depth fmt p p' hfits hok hol h
      cases children with
      | nil =>
        simp only [print_array_items] at h
        rw [Prod.mk.injEq] at h
        obtain ⟨rfl, -⟩ := h
        exact ⟨[], by simp only [renderArrayItems], printedL_nil hok hol⟩
      | cons child rest =>
        simp only [print_array_items] at h
        obtain ⟨hc, hrest⟩ := listNumFits_cons hfits
        split at h
        · exact absurd h (by simp)
        · rename_i p1 heq
          obtain ⟨outv, hrv, hV⟩ := ihv child (depth + 1) fmt p p1 hc hok hol heq
          have hL1 := printedV_update hV
          split at h
          next hre =>
            rw [Prod.mk.injEq] at h
            obtain ⟨rfl, -⟩ := h
            refine ⟨outv, ?_, hL1⟩
            simp only [renderArrayItems]
            rw [hrv]
            simp only [if_pos hre]
          next hre =>
            split at h
            · exact absurd h (by simp)
            · rename_i p3 ptr he
              have hsep : printedL { p1 with offset := update p1 }
                  { p3 with
                    buffer := writeAt p3.buffer ptr
                      ((if fmt then [44, 32] else [44]) ++ [0]),
                    offset := p3.offset + if fmt then 2 else 1 }
                  (if fmt then [44, 32] else [44]) :=
                step_content0 (printedL_ok hL1) (printedL_le hL1) he _
                  (sepLen0 fmt) (sepNz fmt) _ (sepAdv fmt)
              obtain ⟨outr, hrr, hLr⟩ := ihai rest depth fmt _ p' hrest
                (printedL_ok hsep) (printedL_le hsep) h
              refine ⟨outv ++ ((if fmt then [44, 32] else [44]) ++ outr), ?_,
                printedL_trans hL1 (printedL_trans hsep hLr)⟩
              simp only [renderArrayItems]
              rw [hrv]
              simp only [if_neg hre]
              rw [hrr]
    · -- print_object
      intro item depth fmt p p' hfits hok hol h
      simp only [print_object] at h
      split at h
      next hemp =>
        split at h
        · exact absurd h (by simp)
        · rename_i p1 ptr he
          rw [Prod.mk.injEq] at h
          obtain ⟨rfl, -⟩ := h
          refine ⟨123 :: ((if fmt then 10 :: List.replicate depth 9 else []) ++
            [125]), ?_, (printedV_of_write' hok hol he _ _ (by simp)
            (objEmptyLen2 fmt depth) (objEmptyNz fmt depth)).1⟩
          simp only [renderObject]
          rw [if_pos hemp]
      next hemp =>
        split at h
        · exact absurd h (by simp)
        · rename_i p1 ptr he
          have hopen : printedL p
              { p1 with
                buffer := writeAt p1.buffer ptr
                  (123 :: ((if fmt then [10] else []) ++ [0])),
                offset := p1.offset + if fmt then 2 else 1 }
              (123 :: (if fmt then [10] else [])) :=
            step_content0 hok hol he _ (objOpenLen0 fmt) (objOpenNz fmt) _
              (objOpenAdv fmt)
          split at h
          · exact absurd h (by simp)
          · rename_i p3 heq
            obtain ⟨outi, hri, hLi⟩ := ihoi item.child (depth + 1) fmt _ p3
              (treeNumFits_node hfits).2 (printedL_ok hopen) (printedL_le hopen)
              heq
            have hL13 := printedL_trans hopen hLi
            split at h
            · exact absurd h (by simp)
            · rename_i p4 ptr2 he2
              rw [Prod.mk.injEq] at h
              obtain ⟨rfl, -⟩ := h
              have hclose := (printedV_of_write' (printedL_ok hL13)
                (printedL_le hL13) he2
                ((if fmt then List.replicate depth 9 else []) ++ [125, 0])
                ((if fmt then List.replicate depth 9 else []) ++ [125])
                (by simp) (closeLen2 fmt depth) (closeNz fmt depth)).1
              have htot := printedL_V_trans hL13 hclose
              rw [List.append_assoc] at htot
              refine ⟨123 :: ((if fmt then [10] else []) ++
                (outi ++ ((if fmt then List.replicate depth 9 else []) ++
                  [125]))), ?_, ?_⟩
              · simp only [renderObject]
                rw [if_neg hemp, hri]
              · rw [show (123 :: ((if fmt then [10] else []) ++
                  (outi ++ ((if fmt then List.replicate depth 9 else []) ++
                    [125]))) : Bytes) =
                  (123 :: (if fmt then [10] else [])) ++
                    (outi ++ ((if fmt then List.replicate depth 9 else []) ++
                      [125])) from by simp]
                exact htot
    · -- print_object_items
      intro children depth1 fmt p p' hfits hok hol h
      cases children with
      | nil =>
        simp only [print_object_items] at h
        rw [Prod.mk.injEq] at h
        obtain ⟨rfl, -⟩ := h
        exact ⟨[], by simp only [renderObjectItems], printedL_nil hok hol⟩
      | cons child rest =>
        simp only [print_object_items] at h
        obtain ⟨hc, hrest⟩ := listNumFits_cons hfits
        split at h
        · exact absurd h (by simp)
        · rename_i p1 heq
          have hL1 : printedL p p1
              (if fmt then List.replicate depth1 9 else []) := by
            split at heq
            next hfmt =>
              rw [if_pos hfmt]
              split at heq
              · exact absurd heq (by simp)
              · rename_i pa ptr he
                rw [Prod.mk.injEq] at heq
                obtain ⟨rfl, -⟩ := heq
                exact step_contentRaw hok hol he _ (by simp) (repNz depth1) _
                  (by simp)
            next hfmt =>
              rw [if_neg hfmt]
              rw [Prod.mk.injEq] at heq
              obtain ⟨rfl, -⟩ := heq
              exact printedL_nil hok hol
          split at h
          · exact absurd h (by simp)
          · rename_i p2 heq2
            have hkey := print_string_ptr_content (printedL_ok hL1)
              (printedL_le hL1) heq2
            have hL2 := printedV_update hkey.1
            split at h
            · exact absurd h (by simp)
            · rename_i p4 ptr he
              have hL3 : printedL { p2 with offset := update p2 }
                  { p4 with
                    buffer := writeAt p4.buffer ptr
                      (58 :: (if fmt then [9] else [])),
                    offset := p4.offset + if fmt then 2 else 1 }
                  (58 :: (if fmt then [9] else [])) :=
                step_contentRaw (printedL_ok hL2) (printedL_le hL2) he _
                  (kvLen fmt) (kvNz fmt) _ (kvAdv fmt)
              split at h
              · exact absurd h (by simp)
              · rename_i p6 heq6
                obtain ⟨outv, hrv, hV⟩ := ihv child depth1 fmt _ p6 hc
                  (printedL_ok hL3) (printedL_le hL3) heq6
                have hL4 := printedV_update hV
                split at h
                · exact absurd h (by simp)
                · rename_i p8 ptr2 he2
                  have hL5 : printedL { p6 with offset := update p6 }
                      { p8 with
                        buffer := writeAt p8.buffer ptr2
                          ((if rest.isEmpty then [] else [44]) ++
                            (if fmt then [10] else []) ++ [0]),
                        offset := p8.offset + ((if fmt then 1 else 0) +
                          (if rest.isEmpty then 0 else 1)) }
                      ((if rest.isEmpty then [] else [44]) ++
                        (if fmt then [10] else [])) :=
                    step_content0 (printedL_ok hL4) (printedL_le hL4) he2 _
                      (endLen0 fmt rest.isEmpty) (endNz fmt rest.isEmpty) _
                      (endAdv fmt rest.isEmpty)
                  obtain ⟨outr, hrr, hLr⟩ := ihoi rest depth1 fmt _ p' hrest
                    (printedL_ok hL5) (printedL_le hL5) h
                  refine ⟨(if fmt then List.replicate depth1 9 else []) ++
                    (renderString child.string ++
                      ((58 :: (if fmt then [9] else [])) ++
                        (outv ++
                          (((if rest.isEmpty then [] else [44]) ++
                            (if fmt then [10] else [])) ++ outr)))), ?_,
                    printedL_trans hL1 (printedL_trans hL2 (printedL_trans hL3
                      (printedL_trans hL4 (printedL_trans hL5 hLr))))⟩
                  simp only [renderObjectItems]
                  rw [hrv, hrr]

theorem byteAt_eq_getElem {l : Bytes} {i : Nat} (h : i < l.length) :
    byteAt l i = l[i] := by
  rw [byteAt, List.getD_eq_getElem?_getD, List.getElem?_eq_getElem h,
    Option.getD_some]

theorem take_window {buf : List Nat} {out : Bytes}
    (hlen : out.length ≤ buf.length) (hw : windowRaw buf 0 out) :
    buf.take out.length = out := by
  apply List.ext_getElem
  · simp only [List.length_take]
    omega
  · intro k h1 h2
    have hkb : k < buf.length := lt_of_lt_of_le h2 hlen
    have hk := hw k h2
    rw [Nat.zero_add] at hk
    rw [show (buf.take out.length)[k] = buf[k] from List.getElem_take _,
      ← byteAt_eq_getElem, ← byteAt_eq_getElem, hk]

/-- A successful `print` returns exactly the `renderValue` bytes. -/
theorem print_eq_render {item : cJSON} {fmt : Bool} {out : Bytes}
    (hfits : treeNumFits item = true) (h : print item fmt = some out) :
    renderValue (2 * nodeCount item + 2) item 0 fmt = some out := by
  simp only [print] at h
  split at h
  · exact absurd h (by simp)
  · rename_i p1 heq
    have hok0 : bufOk
        { buffer := List.replicate 256 0,
          length := 256,
          offset := 0,
          noalloc := false } := by
      constructor
      · show (256 : Nat) ≤ (List.replicate 256 0).length
        rw [List.length_replicate]
      · intro _
        show (List.replicate 256 0).length = 256
        rw [List.length_replicate]
    obtain ⟨out0, hr, hV⟩ := (print_content (2 * nodeCount item + 2)).1 item 0 fmt
      { buffer := List.replicate 256 0, length := 256, offset := 0,
        noalloc := false } p1 hfits hok0 (Nat.zero_le _) heq
    obtain ⟨nz, na, ok, le, ge, leb, fit, pre, win, nul⟩ := hV
    have hge : (0 : Nat) ≤ p1.offset := ge
    have hleb : p1.offset ≤ 0 + out0.length := leb
    have hwin : windowRaw p1.buffer 0 out0 := win
    have hnul : byteAt p1.buffer (0 + out0.length) = 0 := nul
    have hfit : (0 : Nat) + out0.length < p1.length := fit
    have hu : update p1 = out0.length := by
      have h3 := update_eq hge hleb hwin hnul nz
      omega
    rw [Option.some.injEq] at h
    subst h
    rw [hu, take_window (by have := ok.1; omega) hwin]
    exact hr


/-- C5: fixed-capacity printing never writes at or past the supplied
capacity boundary — the returned memory has the caller's block size and
agrees with the caller's bytes everywhere at or past the capacity
(success or failure) — success means the whole serialization (rendered
bytes plus terminator) fit within the supplied capacity and is what the
buffer now holds, and a buffer one byte smaller than the serialization
requires makes the call fail (concretely: `"true"` needs 4 bytes plus
terminator; capacity 4 fails leaving all ten caller bytes untouched,
capacity 5 succeeds and writes exactly the serialization and its
terminator, the bytes past it untouched).  The number-fitting hypothesis
says every number node's rendered digits fit the 21/64-byte region
`sprintf` is given, which is true of every IEEE double but not of the
model's unbounded rationals. -/
theorem C5_preallocated_no_oob_write :
    (∀ item buf len fmt, treeNumFits item = true →
      (cJSON_PrintPreallocated item buf len fmt).1.length = buf.length ∧
      ∀ j : Nat, len.toNat ≤ j →
        byteAt (cJSON_PrintPreallocated item buf len fmt).1 j = byteAt buf j) ∧
    (∀ item buf len fmt, treeNumFits item = true → len.toNat ≤ buf.length →
      (cJSON_PrintPreallocated item buf len fmt).2 = true →
      ∃ s, renderValue (2 * nodeCount item + 2) item 0 fmt = some s ∧
        s.length + 1 ≤ len.toNat ∧
        (cJSON_PrintPreallocated item buf len fmt).1.take s.length = s) ∧
    (cJSON_PrintPreallocated (.mk cJSON_True none 1 (.fin 0) none [])
        (List.replicate 10 65) 4 false).2 = false ∧
    (cJSON_PrintPreallocated (.mk cJSON_True none 1 (.fin 0) none [])
        (List.replicate 10 65) 4 false).1 = List.replicate 10 65 ∧
    (cJSON_PrintPreallocated (.mk cJSON_True none 1 (.fin 0) none [])
        (List.replicate 10 65) 5 false).2 = true ∧
    (cJSON_PrintPreallocated (.mk cJSON_True none 1 (.fin 0) none [])
        (List.replicate 10 65) 5 false).1 =
      [116, 114, 117, 101, 0, 65, 65, 65, 65, 65] := by
  refine ⟨?_, ?_, by with_unfolding_all rfl, by with_unfolding_all rfl,
    by with_unfolding_all rfl, by with_unfolding_all rfl⟩
  · intro item buf len fmt hfits
    simp only [cJSON_PrintPreallocated]
    split
    · exact ⟨rfl, fun j hj => rfl⟩
    · cases hr : print_value (2 * nodeCount item + 2) item 0 fmt
          { buffer := buf, length := len.toNat, offset := 0, noalloc := true } with
      | mk p1 ok =>
        have hframe := (print_noalloc_frame (2 * nodeCount item + 2)).1 item 0 fmt
          _ p1 ok hfits hr rfl
        exact ⟨hframe.2.2.1, fun j hj => hframe.2.2.2 j hj⟩
  · intro item buf len fmt hfits hcap h
    simp only [cJSON_PrintPreallocated] at h ⊢
    split at h
    · exact absurd h (by simp)
    · rename_i hneg
      rw [if_neg hneg]
      cases hr : print_value (2 * nodeCount item + 2) item 0 fmt
          { buffer := buf, length := len.toNat, offset := 0, noalloc := true } with
      | mk p1 ok =>
        rw [hr] at h
        simp only at h
        subst h
        have hframe := (print_noalloc_frame (2 * nodeCount item + 2)).1 item 0 fmt
          _ p1 true hfits hr rfl
        have hok0 : bufOk
            { buffer := buf,
              length := len.toNat,
              offset := 0,
              noalloc := true } := by
          constructor
          · exact hcap
          · intro hno
            simp at hno
        obtain ⟨s, hrs, hV⟩ := (print_content (2 * nodeCount item + 2)).1 item 0
          fmt _ p1 hfits hok0 (Nat.zero_le _) hr
        obtain ⟨nz, na, ok1, le1, ge, leb, fit, pre, win, nul⟩ := hV
        have hwin : windowRaw p1.buffer 0 s := win
        have hfit : (0 : Nat) + s.length < p1.length := fit
        have hlen1 : p1.length = len.toNat := hframe.2.1
        refine ⟨s, hrs, by omega, ?_⟩
        show (p1.buffer.take s.length) = s
        exact take_window (by have hb := ok1.1; omega) hwin

/-- Witness for `C5_preallocated_no_oob_write`: its safety component at the
concrete one-byte-short call — a `true` node printed into capacity 4 backed
by ten bytes of 65 — shows byte 7 (past the capacity) unchanged. -/
theorem C5_preallocated_no_oob_write_witness :
    treeNumFits (.mk cJSON_True none 1 (.fin 0) none []) = true ∧
    byteAt (cJSON_PrintPreallocated (.mk cJSON_True none 1 (.fin 0) none [])
      (List.replicate 10 65) 4 false).1 7 = byteAt (List.replicate 10 65) 7 :=
  ⟨by with_unfolding_all rfl,
    (C5_preallocated_no_oob_write.1 (.mk cJSON_True none 1 (.fin 0) none [])
      (List.replicate 10 65) 4 false (by with_unfolding_all rfl)).2 7 (by decide)⟩


/-! ## C1: reparsing printed text.  Window-reading lemmas -/

theorem windowRaw_suffix {text : Bytes} {pos : Nat} {a b : Bytes}
    (h : windowRaw text pos (a ++ b)) : windowRaw text (pos + a.length) b := by
  intro k hk
  have h1 := h (a.length + k) (by simp only [List.length_append]; omega)
  rw [show pos + (a.length + k) = pos + a.length + k from by omega] at h1
  rw [h1, byteAt, byteAt, List.getD_append_right _ _ _ _ (by omega)]
  simp

theorem windowRaw_cons_head {text : Bytes} {pos b : Nat} {rest : Bytes}
    (h : windowRaw text pos (b :: rest)) : byteAt text pos = b := by
  have h1 := h 0 (by simp)
  simpa using h1

theorem windowRaw_cons_tail {text : Bytes} {pos b : Nat} {rest : Bytes}
    (h : windowRaw text pos (b :: rest)) : windowRaw text (pos + 1) rest := by
  have := windowRaw_suffix (a := [b]) (b := rest) h
  simpa using this

theorem matchLit_of_window {text : Bytes} :
    ∀ (lit : Bytes) (pos : Nat), windowRaw text pos lit →
      matchLit text pos lit = true := by
  intro lit
  induction lit with
  | nil => intro pos _; rfl
  | cons b rest ih =>
    intro pos h
    simp only [matchLit, Bool.and_eq_true, beq_iff_eq]
    exact ⟨windowRaw_cons_head h, ih (pos + 1) (windowRaw_cons_tail h)⟩

theorem matchLit_false {text : Bytes} {pos b : Nat} (rest : Bytes)
    (h : byteAt text pos ≠ b) : matchLit text pos (b :: rest) = false := by
  simp [matchLit, h]

theorem skipWsAux_stay {text : Bytes} {p : Nat}
    (h : ¬(0 < byteAt text p ∧ byteAt text p ≤ 32)) : skipWsAux text p = p := by
  simp only [skipWsAux, skipWsFuel]
  rw [if_neg h]

theorem cstrContent_of_ne {s : Bytes} (h : ∀ b ∈ s, b ≠ 0) :
    cstrContent s = s := by
  simp only [cstrContent]
  apply List.takeWhile_eq_self_iff.2
  intro b hb
  simpa using h b hb

/-- The byte after a rendered number must not extend it. -/
def isNumTerm (b : Nat) : Bool :=
  !(isDigit b || b == 46 || b == 101 || b == 69 || b == 43 || b == 45)

/-- The possible first bytes of a rendered value. -/
def goodFirst (b : Nat) : Prop :=
  b = 110 ∨ b = 102 ∨ b = 116 ∨ b = 34 ∨ b = 45 ∨ (48 ≤ b ∧ b ≤ 57) ∨
    b = 91 ∨ b = 123

/-! ## Decimal digits round-trip -/

/-- Big-endian digit-bytes value. -/
def valOfDigits (ds : Bytes) : Nat :=
  ds.foldl (fun acc d => acc * 10 + (d - 48)) 0

theorem valOfDigits_append1 (ds : Bytes) (d : Nat) :
    valOfDigits (ds ++ [d]) = valOfDigits ds * 10 + (d - 48) := by
  simp [valOfDigits, List.foldl_append]

theorem digitsVal_window {text : Bytes} :
    ∀ (ds : Bytes) (pos : Nat), windowRaw text pos ds →
      digitsVal text pos ds.length = valOfDigits ds := by
  intro ds
  induction ds using List.reverseRecOn with
  | nil => intro pos _; rfl
  | append_singleton ds d ih =>
    intro pos hw
    have h1 : windowRaw text pos ds := windowRaw_front hw
    have h2 : byteAt text (pos + ds.length) = d := by
      have := hw ds.length (by simp)
      rwa [byteAt_append_self] at this
    simp only [List.length_append, List.length_cons, List.length_nil,
      digitsVal, valOfDigits_append1]
    rw [ih pos h1, h2]

theorem decDigitsAux_val :
    ∀ (fuel n : Nat), n < fuel →
      valOfDigits ((decDigitsAux fuel n).reverse.map (fun d => d + 48)) = n := by
  intro fuel
  induction fuel with
  | zero => intro n h; omega
  | succ f ih =>
    intro n h
    match n with
    | 0 => rfl
    | n + 1 =>
      show valOfDigits
        ((((n + 1) % 10) :: decDigitsAux f ((n + 1) / 10)).reverse.map
          (fun d => d + 48)) = n + 1
      rw [List.reverse_cons, List.map_append]
      simp only [List.map_cons, List.map_nil]
      rw [valOfDigits_append1, ih ((n + 1) / 10) (by omega)]
      omega

theorem decRepr_val (m : Nat) : valOfDigits (decRepr m) = m := by
  unfold decRepr
  split
  · rename_i h
    subst h
    rfl
  · exact decDigitsAux_val (m + 1) m (by omega)

theorem decRepr_len_pos (m : Nat) : 0 < (decRepr m).length := by
  unfold decRepr
  split
  · simp
  · rename_i h
    simp only [List.length_map, List.length_reverse]
    match hm : decDigitsAux (m + 1) m with
    | [] =>
      exfalso
      match m, hm with
      | 0, _ => exact h rfl
      | m + 1, hm => simp [decDigitsAux] at hm
    | d :: rest => simp

theorem digitRunFuel_window {text : Bytes} :
    ∀ (fuel pos n : Nat), n < fuel →
      (∀ k, k < n → isDigit (byteAt text (pos + k)) = true) →
      isDigit (byteAt text (pos + n)) = false →
      digitRunFuel text fuel pos = n := by
  intro fuel
  induction fuel with
  | zero => intro pos n h; omega
  | succ f ih =>
    intro pos n hn hdig hend
    match n with
    | 0 =>
      simp only [digitRunFuel]
      rw [if_neg (by simpa using hend)]
    | n + 1 =>
      simp only [digitRunFuel]
      rw [if_pos (by simpa using hdig 0 (by omega))]
      rw [ih (pos + 1) n (by omega)
        (fun k hk => by
          have := hdig (k + 1) (by omega)
          rwa [show pos + (k + 1) = pos + 1 + k from by omega] at this)
        (by rwa [show pos + 1 + n = pos + (n + 1) from by omega])]

theorem isDigit_of_decRepr {m b : Nat} (h : b ∈ decRepr m) :
    isDigit b = true := by
  have := decRepr_digit_range h
  simp only [isDigit, Bool.and_eq_true, decide_eq_true_eq]
  omega

theorem digitRun_window {text : Bytes} {pos : Nat} {ds : Bytes}
    (hw : windowRaw text pos ds) (hds : ∀ b ∈ ds, isDigit b = true)
    (hend : isDigit (byteAt text (pos + ds.length)) = false) :
    digitRun text pos = ds.length := by
  by_cases hl : ds.length = 0
  · rw [hl]
    exact digitRunFuel_window (text.length + 1) pos 0 (by omega)
      (fun k hk => absurd hk (by omega)) (by rwa [hl] at hend)
  have hlt : pos + ds.length ≤ text.length := by
    · have hlast := hw (ds.length - 1) (by omega)
      have hdig : isDigit (byteAt ds (ds.length - 1)) = true :=
        hds _ (byteAt_mem (by omega))
      have hne : byteAt text (pos + (ds.length - 1)) ≠ 0 := by
        rw [hlast]
        simp only [isDigit, Bool.and_eq_true, decide_eq_true_eq] at hdig
        omega
      have := byteAt_pos_lt (s := text) (i := pos + (ds.length - 1)) (by
        by_contra hc
        push_neg at hc
        exact hne (by omega))
      omega
  exact digitRunFuel_window (text.length + 1) pos ds.length (by omega)
    (fun k hk => by rw [hw k hk]; exact hds _ (byteAt_mem hk)) hend

theorem isNumTerm_facts {b : Nat} (h : isNumTerm b = true) :
    isDigit b = false ∧ b ≠ 46 ∧ b ≠ 101 ∧ b ≠ 69 ∧ b ≠ 43 ∧ b ≠ 45 := by
  simp only [isNumTerm, Bool.not_eq_true', Bool.or_eq_false_iff,
    beq_eq_false_iff_ne] at h
  exact ⟨h.1.1.1.1.1, h.1.1.1.1.2, h.1.1.1.2, h.1.1.2, h.1.2, h.2⟩

theorem intRepr_len_pos (i : Int) : 0 < (intRepr i).length := by
  unfold intRepr
  split
  · simp
  · exact decRepr_len_pos _

/-- `strtod` on the window of a bare decimal representation. -/
theorem strtodM_decRepr {text : Bytes} {pos m : Nat}
    (hw : windowRaw text pos (decRepr m))
    (hterm : isNumTerm (byteAt text (pos + (decRepr m).length)) = true) :
    strtodM text pos = ((m : ℚ), pos + (decRepr m).length) := by
  obtain ⟨htd, ht46, ht101, ht69, -, -⟩ := isNumTerm_facts hterm
  have hlen := decRepr_len_pos m
  have h0 : byteAt text pos = byteAt (decRepr m) 0 := by simpa using hw 0 hlen
  have h0r : 48 ≤ byteAt text pos ∧ byteAt text pos ≤ 57 := by
    rw [h0]
    exact decRepr_digit_range (byteAt_mem hlen)
  have hrun : digitRun text pos = (decRepr m).length :=
    digitRun_window hw (fun b hb => isDigit_of_decRepr hb)
      (by simpa using htd)
  have hval : digitsVal text pos (decRepr m).length = m := by
    rw [digitsVal_window _ pos hw, decRepr_val]
  simp only [strtodM]
  simp only [if_neg (show ¬(byteAt text pos = 45 ∨ byteAt text pos = 43) from
    by omega)]
  rw [hrun, hval]
  simp only [if_neg ht46, if_neg (show ¬(byteAt text
    (pos + (decRepr m).length) = 101 ∨ byteAt text
    (pos + (decRepr m).length) = 69) from by
      intro hc
      rcases hc with hc | hc
      · exact ht101 hc
      · exact ht69 hc)]
  rw [if_neg (show ¬((decRepr m).length + 0 = 0) from by omega)]
  simp only [if_neg (show ¬(byteAt text pos = 45) from by omega), digitsVal]
  norm_num

/-- `strtod` on the window of `intRepr`. -/
theorem strtodM_intRepr {text : Bytes} {pos : Nat} (vi : Int)
    (hw : windowRaw text pos (intRepr vi))
    (hterm : isNumTerm (byteAt text (pos + (intRepr vi).length)) = true) :
    strtodM text pos = ((vi : ℚ), pos + (intRepr vi).length) := by
  by_cases hneg : vi < 0
  · rw [show intRepr vi = 45 :: decRepr vi.natAbs from by
      unfold intRepr; rw [if_pos hneg]] at hw hterm ⊢
    obtain ⟨htd, ht46, ht101, ht69, -, -⟩ := isNumTerm_facts hterm
    have h45 : byteAt text pos = 45 := windowRaw_cons_head hw
    have hw1 : windowRaw text (pos + 1) (decRepr vi.natAbs) :=
      windowRaw_cons_tail hw
    have hlen := decRepr_len_pos vi.natAbs
    have hterm1 : pos + (45 :: decRepr vi.natAbs).length =
        pos + 1 + (decRepr vi.natAbs).length := by simp; omega
    rw [hterm1] at htd ht46 ht101 ht69
    have hrun : digitRun text (pos + 1) = (decRepr vi.natAbs).length :=
      digitRun_window hw1 (fun b hb => isDigit_of_decRepr hb)
        (by simpa using htd)
    have hval : digitsVal text (pos + 1) (decRepr vi.natAbs).length =
        vi.natAbs := by
      rw [digitsVal_window _ _ hw1, decRepr_val]
    simp only [strtodM]
    simp only [if_pos (show byteAt text pos = 45 ∨ byteAt text pos = 43 from
      Or.inl h45)]
    rw [hrun, hval]
    simp only [if_neg ht46, if_neg (show ¬(byteAt text
      (pos + 1 + (decRepr vi.natAbs).length) = 101 ∨ byteAt text
      (pos + 1 + (decRepr vi.natAbs).length) = 69) from by
        intro hc
        rcases hc with hc | hc
        · exact ht101 hc
        · exact ht69 hc)]
    rw [if_neg (show ¬((decRepr vi.natAbs).length + 0 = 0) from by omega)]
    simp only [if_pos h45, digitsVal]
    have h2 : ((vi.natAbs : ℚ)) = -(vi : ℚ) := by
      rw [Int.cast_natAbs]
      exact_mod_cast abs_of_neg hneg
    rw [Prod.mk.injEq]
    constructor
    · norm_num [h2]
    · norm_num
      omega
  · rw [show intRepr vi = decRepr vi.toNat from by
      unfold intRepr; rw [if_neg hneg]] at hw hterm ⊢
    rw [strtodM_decRepr hw hterm]
    have h1 : (vi.toNat : ℤ) = vi := Int.toNat_of_nonneg (by omega)
    have h2 : ((vi.toNat : ℚ)) = (vi : ℚ) := by
      calc ((vi.toNat : ℚ)) = (((vi.toNat : ℤ) : ℚ)) := by push_cast; ring
      _ = (vi : ℚ) := by rw [h1]
    rw [h2]

theorem saturatedInt_id {vi : Int} (h1 : INT_MIN ≤ vi) (h2 : vi ≤ INT_MAX) :
    saturatedInt (.fin (vi : ℚ)) = vi := by
  unfold saturatedInt
  split
  next hc =>
    simp only [CDouble.le, decide_eq_true_eq] at hc
    have : INT_MAX ≤ vi := by exact_mod_cast hc
    omega
  next hc =>
    split
    next hc2 =>
      simp only [CDouble.le, decide_eq_true_eq] at hc2
      have : vi ≤ INT_MIN := by exact_mod_cast hc2
      omega
    next hc2 =>
      show ((vi : ℚ)).num.tdiv ((vi : ℚ)).den = vi
      rw [Rat.intCast_num, Rat.intCast_den]
      exact Int.tdiv_one vi

/-- `parse_number` on the window of a rendered in-range integer. -/
theorem parse_number_render {text : Bytes} {pos : Nat} {vi : Int}
    (hr1 : INT_MIN ≤ vi) (hr2 : vi ≤ INT_MAX)
    (hw : windowRaw text pos (intRepr vi))
    (hterm : isNumTerm (byteAt text (pos + (intRepr vi).length)) = true) :
    parse_number text pos =
      some (.mk cJSON_Number none vi (.fin (vi : ℚ)) none [],
        pos + (intRepr vi).length) := by
  simp only [parse_number]
  rw [strtodM_intRepr vi hw hterm]
  rw [if_neg (show ¬(pos + (intRepr vi).length = pos) from by
    have := intRepr_len_pos vi
    omega)]
  rw [saturatedInt_id hr1 hr2]

/-! ## String scan/copy round-trip -/

theorem hexDigitsAux_lt_sixteen :
    ∀ (fuel n d : Nat), d ∈ hexDigitsAux fuel n → d < 16 := by
  intro fuel
  induction fuel with
  | zero => intro n d hd; simp [hexDigitsAux] at hd
  | succ f ih =>
    intro n d hd
    match n with
    | 0 => simp [hexDigitsAux] at hd
    | n + 1 =>
      simp only [hexDigitsAux, List.mem_cons] at hd
      rcases hd with rfl | hd
      · omega
      · exact ih _ _ hd

theorem hexDigit_range {d : Nat} (h : d < 16) :
    (48 ≤ hexDigit d ∧ hexDigit d ≤ 57) ∨
    (97 ≤ hexDigit d ∧ hexDigit d ≤ 102) := by
  unfold hexDigit
  split <;> omega

theorem hexRepr4_scan_safe {n : Nat} :
    ∀ c ∈ hexRepr4 n, c ≠ 34 ∧ c ≠ 0 ∧ c ≠ 92 := by
  intro c hc
  simp only [hexRepr4, List.mem_append, List.mem_replicate] at hc
  rcases hc with h | h
  · omega
  · split at h
    · simp only [List.mem_singleton] at h
      omega
    · simp only [List.mem_map] at h
      obtain ⟨d, hd, rfl⟩ := h
      have := hexDigit_range (hexDigitsAux_lt_sixteen _ _ _
        (List.mem_reverse.1 hd))
      omega

theorem escapeByte_plain {b : Nat} (h : 31 < b ∧ b ≠ 34 ∧ b ≠ 92) :
    escapeByte b = [b] := by
  unfold escapeByte
  rw [if_pos h]

theorem hexRepr4_small {b : Nat} (h : b < 32) :
    hexRepr4 b = [48, 48, hexDigit (b / 16), hexDigit (b % 16)] := by
  interval_cases b <;> rfl

theorem hexVal_hexDigit {d : Nat} (h : d < 16) :
    hexVal (hexDigit d) = some d := by
  interval_cases d <;> rfl

theorem parse_hex4_window32 {text : Bytes} {q b : Nat} (hb : b < 32)
    (hw : windowRaw text q (hexRepr4 b)) : parse_hex4 text q = b := by
  rw [hexRepr4_small hb] at hw
  have h0 : byteAt text q = 48 := windowRaw_cons_head hw
  have hw1 := windowRaw_cons_tail hw
  have h1 : byteAt text (q + 1) = 48 := windowRaw_cons_head hw1
  have hw2 := windowRaw_cons_tail hw1
  have h2 : byteAt text (q + 1 + 1) = hexDigit (b / 16) :=
    windowRaw_cons_head hw2
  have hw3 := windowRaw_cons_tail hw2
  have h3 : byteAt text (q + 1 + 1 + 1) = hexDigit (b % 16) :=
    windowRaw_cons_head hw3
  rw [show q + 1 + 1 = q + 2 from by omega] at h2
  rw [show q + 1 + 1 + 1 = q + 3 from by omega] at h3
  unfold parse_hex4
  rw [h0, h1, h2, h3, hexVal_hexDigit (by omega), hexVal_hexDigit (by omega)]
  show ((((0 : Nat) * 16 + 0) * 16 + b / 16) * 16 + b % 16) = b
  omega

theorem encodeUTF8_small {b : Nat} (h : b < 128) : encodeUTF8 b = [b] := by
  unfold encodeUTF8
  rw [if_pos h]

theorem utf16_render {text : Bytes} {q b input_end : Nat} (hlow : b < 32)
    (hb0 : b ≠ 0) (hwhex : windowRaw text (q + 2) (hexRepr4 b))
    (hend : q + 6 ≤ input_end) :
    utf16_literal_to_utf8 text q input_end = some (6, [b]) := by
  have hph : parse_hex4 text (q + 2) = b := parse_hex4_window32 hlow hwhex
  unfold utf16_literal_to_utf8
  rw [hph]
  rw [if_neg (by omega), if_neg (by omega), if_neg (by omega),
    if_neg (by omega), encodeUTF8_small (by omega)]

/-- Push a run of scan-inert bytes under the scanner's fuel. -/
theorem scanFuel_add_plain {text : Bytes} :
    ∀ (run : Bytes) (q fuel r : Nat), windowRaw text q run →
      (∀ b ∈ run, b ≠ 34 ∧ b ≠ 0 ∧ b ≠ 92) →
      scanStringEndFuel text fuel (q + run.length) = some r →
      scanStringEndFuel text (fuel + run.length) q = some r := by
  intro run
  induction run with
  | nil => intro q fuel r _ _ h; simpa using h
  | cons b rest ih =>
    intro q fuel r hw hp h
    have hb := hp b (by simp)
    have h0 := windowRaw_cons_head hw
    rw [show fuel + (b :: rest).length = (fuel + rest.length) + 1 from by
      simp; omega]
    simp only [scanStringEndFuel]
    rw [if_neg (by omega), if_neg (by omega), if_neg (by omega)]
    exact ih (q + 1) fuel r (windowRaw_cons_tail hw)
      (fun c hc => hp c (by simp [hc]))
      (by rwa [show q + 1 + rest.length = q + (b :: rest).length from by
        simp; omega])

theorem scanFuel_plain {text : Bytes} :
    ∀ (run : Bytes) (q fuel : Nat), windowRaw text q (run ++ [34]) →
      (∀ b ∈ run, b ≠ 34 ∧ b ≠ 0 ∧ b ≠ 92) → run.length < fuel →
      scanStringEndFuel text fuel q = some (q + run.length) := by
  intro run
  induction run with
  | nil =>
    intro q fuel hw _ hf
    match fuel, hf with
    | f + 1, _ =>
      simp only [scanStringEndFuel]
      rw [if_pos (by simpa using windowRaw_cons_head hw)]
      simp
  | cons b rest ih =>
    intro q fuel hw hp hf
    have hb := hp b (by simp)
    have h0 : byteAt text q = b := by
      have := hw 0 (by simp)
      simpa using this
    match fuel, hf with
    | f + 1, hf =>
      simp only [scanStringEndFuel]
      rw [if_neg (by omega), if_neg (by omega), if_neg (by omega)]
      have := ih (q + 1) f
        (by
          have := windowRaw_suffix (a := [b]) (b := rest ++ [34]) (by
            simpa using hw)
          simpa using this)
        (fun c hc => hp c (by simp [hc])) (by simp at hf ⊢; omega)
      rw [this]
      simp only [Option.some.injEq]
      simp
      omega

theorem escapeBytes_cons (b : Nat) (rest : Bytes) :
    escapeBytes (b :: rest) = escapeByte b ++ escapeBytes rest := by
  simp [escapeBytes]

theorem escapeByte_hex {b : Nat}
    (hb : b ≠ 8 ∧ b ≠ 9 ∧ b ≠ 10 ∧ b ≠ 12 ∧ b ≠ 13 ∧ b ≠ 34 ∧ b ≠ 92)
    (hle : b ≤ 31) : escapeByte b = 92 :: 117 :: hexRepr4 b := by
  interval_cases b <;> first | (exfalso; omega) | decide

theorem scanFuel_esc {text : Bytes} :
    ∀ (s : Bytes) (q fuel : Nat),
      windowRaw text q (escapeBytes s ++ [34]) → (∀ b ∈ s, b ≠ 0) →
      (escapeBytes s).length < fuel →
      scanStringEndFuel text fuel q = some (q + (escapeBytes s).length) := by
  intro s
  induction s with
  | nil =>
    intro q fuel hw _ hf
    match fuel, hf with
    | f + 1, _ =>
      simp only [scanStringEndFuel]
      rw [if_pos (by simpa using windowRaw_cons_head (by simpa using hw))]
      simp [escapeBytes]
  | cons b rest ih =>
    intro q fuel hw hnz hf
    have hb0 : b ≠ 0 := hnz b (by simp)
    rw [escapeBytes_cons] at hw hf
    rw [List.append_assoc] at hw
    by_cases hpl : 31 < b ∧ b ≠ 34 ∧ b ≠ 92
    · rw [escapeByte_plain hpl] at hw hf
      have h0 : byteAt text q = b := by
        have := hw 0 (by simp)
        simpa using this
      match fuel, hf with
      | f + 1, hf =>
        simp only [scanStringEndFuel]
        rw [if_neg (by omega), if_neg (by omega), if_neg (by omega)]
        have hrec := ih (q + 1) f
          (by
            have := windowRaw_suffix (a := [b])
              (b := escapeBytes rest ++ [34]) (by simpa using hw)
            simpa using this)
          (fun c hc => hnz c (by simp [hc]))
          (by simp at hf ⊢; omega)
        rw [hrec]
        rw [escapeBytes_cons, escapeByte_plain hpl]
        simp only [Option.some.injEq]
        simp
        omega
    · -- an escape sequence: 92 :: tail
      have hesc : ∃ c0 t', escapeByte b = 92 :: c0 :: t' ∧ c0 ≠ 0 ∧
          (∀ c ∈ t', c ≠ 34 ∧ c ≠ 0 ∧ c ≠ 92) := by
        by_cases h92 : b = 92
        · subst h92; exact ⟨92, [], by decide, by omega, by simp⟩
        by_cases h34 : b = 34
        · subst h34; exact ⟨34, [], by decide, by omega, by simp⟩
        by_cases h8 : b = 8
        · subst h8; exact ⟨98, [], by decide, by omega, by simp⟩
        by_cases h12 : b = 12
        · subst h12; exact ⟨102, [], by decide, by omega, by simp⟩
        by_cases h10 : b = 10
        · subst h10; exact ⟨110, [], by decide, by omega, by simp⟩
        by_cases h13 : b = 13
        · subst h13; exact ⟨114, [], by decide, by omega, by simp⟩
        by_cases h9 : b = 9
        · subst h9; exact ⟨116, [], by decide, by omega, by simp⟩
        refine ⟨117, hexRepr4 b, ?_, by omega, hexRepr4_scan_safe⟩
        exact escapeByte_hex ⟨h8, h9, h10, h12, h13, h34, h92⟩ (by omega)
      obtain ⟨c0, t', ht, hc0, htsafe⟩ := hesc
      rw [ht] at hw hf
      have h0 : byteAt text q = 92 := by
        have := hw 0 (by simp)
        simpa using this
      have h1 : byteAt text (q + 1) = c0 := by
        have := hw 1 (by simp)
        simpa using this
      match fuel, hf with
      | f + 1, hf =>
        simp only [scanStringEndFuel]
        rw [if_neg (by omega), if_neg (by omega), if_pos h0,
          if_neg (by omega)]
        -- after the backslash pair, walk the rest of the escape as inert
        have hwrest : windowRaw text (q + 2 + t'.length)
            (escapeBytes rest ++ [34]) := by
          have h4 := windowRaw_suffix (a := 92 :: c0 :: t')
            (b := escapeBytes rest ++ [34]) (by simpa using hw)
          simp only [List.length_cons] at h4
          rw [show q + 2 + t'.length = q + (t'.length + 1 + 1) from by
            omega]
          exact h4
        have hwt : windowRaw text (q + 2) t' := by
          have h3 := windowRaw_suffix (a := [92, c0])
            (b := t' ++ (escapeBytes rest ++ [34])) (by
              have : (92 :: c0 :: t') ++ (escapeBytes rest ++ [34]) =
                [92, c0] ++ (t' ++ (escapeBytes rest ++ [34])) := by simp
              rw [this] at hw
              exact hw)
          exact windowRaw_front (by simpa using h3)
        have hrec := ih (q + 2 + t'.length) (f - t'.length)
          hwrest (fun c hc => hnz c (by simp [hc]))
          (by simp at hf; omega)
        have hadd := scanFuel_add_plain t' (q + 2) (f - t'.length)
          (q + 2 + t'.length + (escapeBytes rest).length)
          hwt (fun c hc => htsafe c (by simp [hc]))
          (by rw [hrec])
        rw [show f = f - t'.length + t'.length from by simp at hf; omega]
        rw [hadd]
        rw [escapeBytes_cons, ht]
        simp only [Option.some.injEq]
        simp
        omega

theorem copy_plain {text : Bytes} :
    ∀ (s : Bytes) (q fuel : Nat), windowRaw text q s → (∀ b ∈ s, b ≠ 92) →
      s.length < fuel → copyStringAux text (q + s.length) fuel q = .ok s := by
  intro s
  induction s with
  | nil =>
    intro q fuel _ _ _
    cases fuel <;> simp [copyStringAux]
  | cons b rest ih =>
    intro q fuel hw hp hf
    have h0 : byteAt text q = b := windowRaw_cons_head hw
    match fuel, hf with
    | f + 1, hf =>
      simp only [copyStringAux]
      rw [if_neg (by simp only [List.length_cons]; omega)]
      rw [h0, if_pos (hp b (by simp))]
      have hrec := ih (q + 1) f (windowRaw_cons_tail hw)
        (fun c hc => hp c (by simp [hc])) (by simp at hf; omega)
      rw [show q + (b :: rest).length = q + 1 + rest.length from by
        simp only [List.length_cons]; omega]
      rw [hrec]
      rfl

/-- One named escape (`\\`, `\"`, `\b`, `\f`, `\n`, `\r`, `\t`) through the
copy loop, given the copy-correctness of the remaining payload. -/
theorem copy_esc_named {text : Bytes} (b e2 : Nat)
    (heb : escapeByte b = [92, e2]) (hun : escUnescape e2 = some b)
    (he117 : ¬e2 = 117) (rest : Bytes)
    (ih : ∀ (q fuel : Nat), windowRaw text q (escapeBytes rest) →
      (∀ c ∈ rest, c ≠ 0) → (escapeBytes rest).length < fuel →
      copyStringAux text (q + (escapeBytes rest).length) fuel q = .ok rest)
    (q fuel : Nat)
    (hw : windowRaw text q (escapeByte b ++ escapeBytes rest))
    (hnzr : ∀ c ∈ rest, c ≠ 0)
    (hf : (escapeByte b ++ escapeBytes rest).length < fuel) :
    copyStringAux text (q + (escapeByte b ++ escapeBytes rest).length) fuel q
      = .ok (b :: rest) := by
  rw [heb] at hw hf ⊢
  have h0 : byteAt text q = 92 := by
    have := hw 0 (by simp)
    simpa using this
  have h1 : byteAt text (q + 1) = e2 := by
    have := hw 1 (by simp)
    simpa using this
  match fuel, hf with
  | f + 1, hf =>
    simp only [copyStringAux]
    rw [if_neg (by
      simp only [List.length_append, List.length_cons, List.length_nil]
      omega)]
    rw [h0, h1]
    rw [if_neg (by simp), if_neg he117]
    simp only [hun]
    have hwrest : windowRaw text (q + 2) (escapeBytes rest) := by
      have h3 := windowRaw_suffix (a := [92, e2]) (b := escapeBytes rest) hw
      simpa using h3
    have hrec := ih (q + 2) f hwrest hnzr (by
      simp only [List.length_append, List.length_cons, List.length_nil] at hf
      omega)
    rw [show q + ([92, e2] ++ escapeBytes rest).length =
        q + 2 + (escapeBytes rest).length from by
      simp only [List.length_append, List.length_cons, List.length_nil]
      omega]
    rw [hrec]
    rfl

theorem copy_esc {text : Bytes} :
    ∀ (s : Bytes) (q fuel : Nat), windowRaw text q (escapeBytes s) →
      (∀ b ∈ s, b ≠ 0) → (escapeBytes s).length < fuel →
      copyStringAux text (q + (escapeBytes s).length) fuel q = .ok s := by
  intro s
  induction s with
  | nil =>
    intro q fuel _ _ _
    cases fuel <;> simp [copyStringAux, escapeBytes]
  | cons b rest ih =>
    intro q fuel hw hnz hf
    have hb0 : b ≠ 0 := hnz b (by simp)
    have hnzr : ∀ c ∈ rest, c ≠ 0 := fun c hc => hnz c (by simp [hc])
    rw [escapeBytes_cons] at hw hf ⊢
    by_cases hpl : 31 < b ∧ b ≠ 34 ∧ b ≠ 92
    · rw [escapeByte_plain hpl] at hw hf ⊢
      have h0 : byteAt text q = b := by
        have := hw 0 (by simp)
        simpa using this
      match fuel, hf with
      | f + 1, hf =>
        simp only [copyStringAux]
        rw [if_neg (by
          simp only [List.length_append, List.length_cons, List.length_nil]
          omega)]
        rw [h0, if_pos hpl.2.2]
        have hwrest : windowRaw text (q + 1) (escapeBytes rest) := by
          have := windowRaw_suffix (a := [b]) (b := escapeBytes rest) hw
          simpa using this
        have hrec := ih (q + 1) f hwrest hnzr (by simp at hf; omega)
        rw [show q + ([b] ++ escapeBytes rest).length =
            q + 1 + (escapeBytes rest).length from by
          simp only [List.length_append, List.length_cons, List.length_nil]
          omega]
        rw [hrec]
        rfl
    · by_cases h92 : b = 92
      · subst h92
        exact copy_esc_named 92 92 (by decide) (by decide) (by decide) rest ih q fuel hw hnzr hf
      by_cases h34 : b = 34
      · subst h34
        exact copy_esc_named 34 34 (by decide) (by decide) (by decide) rest ih q fuel hw hnzr hf
      by_cases h8 : b = 8
      · subst h8
        exact copy_esc_named 8 98 (by decide) (by decide) (by decide) rest ih q fuel hw hnzr hf
      by_cases h12 : b = 12
      · subst h12
        exact copy_esc_named 12 102 (by decide) (by decide) (by decide) rest ih q fuel hw hnzr hf
      by_cases h10 : b = 10
      · subst h10
        exact copy_esc_named 10 110 (by decide) (by decide) (by decide) rest ih q fuel hw hnzr hf
      by_cases h13 : b = 13
      · subst h13
        exact copy_esc_named 13 114 (by decide) (by decide) (by decide) rest ih q fuel hw hnzr hf
      by_cases h9 : b = 9
      · subst h9
        exact copy_esc_named 9 116 (by decide) (by decide) (by decide) rest ih q fuel hw hnzr hf
      · -- the \u00XX case
        have hle : b ≤ 31 := by omega
        have heb : escapeByte b = 92 :: 117 :: hexRepr4 b :=
          escapeByte_hex ⟨h8, h9, h10, h12, h13, h34, h92⟩ hle
        rw [heb] at hw hf ⊢
        rw [hexRepr4_small (by omega)] at hw hf ⊢
        have h0 : byteAt text q = 92 := by
          have := hw 0 (by simp)
          simpa using this
        have h1 : byteAt text (q + 1) = 117 := by
          have := hw 1 (by simp)
          simpa using this
        have hwhex : windowRaw text (q + 2) (hexRepr4 b) := by
          rw [hexRepr4_small (by omega)]
          have h2 := windowRaw_cons_tail (windowRaw_cons_tail (by
            simpa using hw))
          exact windowRaw_front (by
            rw [show q + 1 + 1 = q + 2 from by omega] at h2
            exact h2)
        have hutf : utf16_literal_to_utf8 text q
            (q + ((92 :: 117 :: hexRepr4 b) ++ escapeBytes rest).length) =
            some (6, [b]) :=
          utf16_render (by omega) hb0 hwhex (by
            rw [hexRepr4_small (by omega)]
            simp only [List.length_append, List.length_cons]
            omega)
        rw [hexRepr4_small (by omega)] at hutf
        match fuel, hf with
        | f + 1, hf =>
          simp only [copyStringAux]
          rw [if_neg (by
            simp only [List.length_append, List.length_cons]
            omega)]
          rw [h0, h1]
          rw [if_neg (by simp), if_pos rfl]
          simp only [hutf]
          have hwrest : windowRaw text (q + 6) (escapeBytes rest) := by
            have h3 := windowRaw_suffix
              (a := [92, 117, 48, 48, hexDigit (b / 16), hexDigit (b % 16)])
              (b := escapeBytes rest) (by simpa using hw)
            simpa using h3
          have hrec := ih (q + 6) f hwrest hnzr (by
            simp only [List.length_append, List.length_cons] at hf
            omega)
          rw [show q + ((92 :: 117 :: 48 :: 48 :: hexDigit (b / 16) ::
              hexDigit (b % 16) :: []) ++ escapeBytes rest).length =
              q + 6 + (escapeBytes rest).length from by
            simp only [List.length_append, List.length_cons, List.length_nil]
            omega]
          rw [hrec]
          rfl

/-- `parse_string` inverts `renderString` on a NUL-free payload: it
recovers exactly the payload, consumes exactly the rendered bytes, and
leaves the error pointer untouched. -/
theorem parse_string_render {text : Bytes} {pos : Nat} {s : Bytes}
    (ep : Option Nat) (hnz : ∀ b ∈ s, b ≠ 0)
    (hw : windowRaw text pos (renderString (some s))) :
    parse_string text pos ep =
      (some (s, pos + (renderString (some s)).length), ep) := by
  by_cases hsp : (!(cstrContent s).any isSpecialChar) = true
  · rw [renderString_plain hsp, cstrContent_of_ne hnz] at hw ⊢
    rw [cstrContent_of_ne hnz] at hsp
    have h034 : byteAt text pos = 34 := windowRaw_cons_head hw
    have hwtail : windowRaw text (pos + 1) (s ++ [34]) :=
      windowRaw_cons_tail hw
    have hplain : ∀ b ∈ s, b ≠ 34 ∧ b ≠ 0 ∧ b ≠ 92 := by
      intro b hb
      have hb0 := hnz b hb
      have hs2 : isSpecialChar b = false := by
        rw [Bool.not_eq_true', List.any_eq_false] at hsp
        exact Bool.eq_false_iff.2 (hsp b hb)
      simp only [isSpecialChar, Bool.or_eq_false_iff, Bool.and_eq_false_iff,
        beq_eq_false_iff_ne, ne_eq, decide_eq_false_iff_not] at hs2
      omega
    have hclose : byteAt text (pos + 1 + s.length) = 34 :=
      windowRaw_cons_head (windowRaw_suffix (a := s) (b := [34]) hwtail)
    have hlen : s.length < text.length := by
      have := byteAt_pos_lt (s := text) (i := pos + 1 + s.length)
        (by rw [hclose]; omega)
      omega
    have hscan : scanStringEnd text (pos + 1) = some (pos + 1 + s.length) :=
      scanFuel_plain s (pos + 1) (text.length + 1) hwtail hplain (by omega)
    have hcopy : copyStringAux text (pos + 1 + s.length)
        (pos + 1 + s.length + 1) (pos + 1) = .ok s :=
      copy_plain s (pos + 1) (pos + 1 + s.length + 1)
        (windowRaw_front hwtail) (fun b hb => (hplain b hb).2.2) (by omega)
    simp only [parse_string]
    rw [if_neg (by rw [h034]; simp)]
    simp only [hscan, hcopy]
    have harith : pos + 1 + s.length + 1 =
        pos + (34 :: (s ++ [34])).length := by
      simp only [List.length_cons, List.length_append, List.length_nil]
      omega
    rw [harith]
  · rw [renderString_escaped hsp, cstrContent_of_ne hnz] at hw ⊢
    have h034 : byteAt text pos = 34 := windowRaw_cons_head hw
    have hwtail : windowRaw text (pos + 1) (escapeBytes s ++ [34]) :=
      windowRaw_cons_tail hw
    have hclose : byteAt text (pos + 1 + (escapeBytes s).length) = 34 :=
      windowRaw_cons_head
        (windowRaw_suffix (a := escapeBytes s) (b := [34]) hwtail)
    have hlen : (escapeBytes s).length < text.length := by
      have := byteAt_pos_lt (s := text)
        (i := pos + 1 + (escapeBytes s).length) (by rw [hclose]; omega)
      omega
    have hscan : scanStringEnd text (pos + 1) =
        some (pos + 1 + (escapeBytes s).length) :=
      scanFuel_esc s (pos + 1) (text.length + 1) hwtail hnz (by omega)
    have hcopy : copyStringAux text (pos + 1 + (escapeBytes s).length)
        (pos + 1 + (escapeBytes s).length + 1) (pos + 1) = .ok s :=
      copy_esc s (pos + 1) (pos + 1 + (escapeBytes s).length + 1)
        (windowRaw_front hwtail) hnz (by omega)
    simp only [parse_string]
    rw [if_neg (by rw [h034]; simp)]
    simp only [hscan, hcopy]
    have harith : pos + 1 + (escapeBytes s).length + 1 =
        pos + (34 :: (escapeBytes s ++ [34])).length := by
      simp only [List.length_cons, List.length_append, List.length_nil]
      omega
    rw [harith]

/-! ## Good trees and the round-trip comparison -/

mutual

/-- The trees the amended round-trip claim ranges over: every node carries a
recognised kind; scalar kinds have no children; numbers take the printer's
integer fast path (`numberIntPath`); strings hold a NUL-free payload;
object members all carry NUL-free keys. -/
def goodTree : cJSON → Bool
  | .mk t vs vi vd _ c =>
    if t % 256 = cJSON_NULL ∨ t % 256 = cJSON_False ∨ t % 256 = cJSON_True
      then c.isEmpty
    else if t % 256 = cJSON_Number then
      numberIntPath (.mk t vs vi vd none []) && c.isEmpty
    else if t % 256 = cJSON_String then
      (match vs with
        | none => false
        | some s => s.all (fun b => !(b == 0))) && c.isEmpty
    else if t % 256 = cJSON_Array then goodList c
    else if t % 256 = cJSON_Object then goodList c && keysOk c
    else false

/-- `goodTree` over a sibling list. -/
def goodList : List cJSON → Bool
  | [] => true
  | x :: xs => goodTree x && goodList xs

/-- Every node of the list carries a NUL-free key. -/
def keysOk : List cJSON → Bool
  | [] => true
  | x :: xs =>
    (match x.string with
      | none => false
      | some k => k.all (fun b => !(b == 0))) && keysOk xs

end

mutual

/-- The round-trip comparison of the claim: same kind; numbers agree
exactly on the integer mirror and within `DBL_EPSILON` (the printer's own
tolerance) on the double; strings agree exactly; children agree pointwise
in order, and object members also agree on their keys. -/
def roundEq : cJSON → cJSON → Bool
  | .mk t vs vi vd _ c, b =>
    (t % 256 == b.type % 256) &&
    (if t % 256 = cJSON_Number then
      (vi == b.valueint) &&
        CDouble.le (CDouble.fabs (CDouble.sub vd b.valuedouble))
          (.fin DBL_EPSILON)
    else if t % 256 = cJSON_String then vs == b.valuestring
    else true) &&
    (if t % 256 = cJSON_Object then roundEqKeys c b.child
      else roundEqList c b.child)

/-- `roundEq` over sibling lists, pointwise in order. -/
def roundEqList : List cJSON → List cJSON → Bool
  | [], [] => true
  | [], _ :: _ => false
  | _ :: _, [] => false
  | a :: as, b :: bs => roundEq a b && roundEqList as bs

/-- `roundEqList` strengthened with key agreement (object members). -/
def roundEqKeys : List cJSON → List cJSON → Bool
  | [], [] => true
  | [], _ :: _ => false
  | _ :: _, [] => false
  | a :: as, b :: bs =>
    (a.string == b.string) && roundEq a b && roundEqKeys as bs

end

/-- `roundEq` never inspects the right node's key slot, so rekeying it (as
`parse_object` does when it moves the parsed name into the member) changes
nothing. -/
theorem roundEq_rekey (a item : cJSON) (k : Option Bytes) :
    roundEq a (.mk item.type item.valuestring item.valueint item.valuedouble
      k item.child) = roundEq a item := by
  cases a
  cases item
  with_unfolding_all rfl

/-- What `numberIntPath` forces: a finite double within `DBL_EPSILON` of
the integer mirror, and an in-range mirror. -/
theorem goodNumber_facts {t : Nat} {vs : Option Bytes} {vi : Int}
    {vd : CDouble} (h : numberIntPath (.mk t vs vi vd none []) = true) :
    ∃ q : ℚ, vd = .fin q ∧ |(vi : ℚ) - q| ≤ DBL_EPSILON ∧
      INT_MIN ≤ vi ∧ vi ≤ INT_MAX := by
  simp only [numberIntPath, cJSON.valueint, cJSON.valuedouble,
    Bool.and_eq_true] at h
  obtain ⟨⟨h1, h2⟩, h3⟩ := h
  cases vd with
  | nan => exact absurd h3 (by simp [CDouble.le])
  | inf neg =>
    cases neg with
    | true => exact absurd h3 (by simp [CDouble.le])
    | false => exact absurd h2 (by simp [CDouble.le])
  | fin q =>
    refine ⟨q, rfl, ?_, ?_, ?_⟩
    · simpa [CDouble.sub, CDouble.fabs, CDouble.le] using h1
    · have hq : ((INT_MIN : ℤ) : ℚ) ≤ q := by
        simpa [CDouble.le] using h3
      have he : |(vi : ℚ) - q| ≤ DBL_EPSILON := by
        simpa [CDouble.sub, CDouble.fabs, CDouble.le] using h1
      by_contra hc
      have hvi : vi ≤ INT_MIN - 1 := by omega
      have hviq : (vi : ℚ) ≤ ((INT_MIN : ℤ) : ℚ) - 1 := by
        exact_mod_cast hvi
      have habs := abs_le.1 he
      rw [show DBL_EPSILON = 1 / 4503599627370496 from rfl] at habs
      linarith
    · have hq : q ≤ ((INT_MAX : ℤ) : ℚ) := by
        simpa [CDouble.le] using h2
      have he : |(vi : ℚ) - q| ≤ DBL_EPSILON := by
        simpa [CDouble.sub, CDouble.fabs, CDouble.le] using h1
      by_contra hc
      have hvi : INT_MAX + 1 ≤ vi := by omega
      have hviq : ((INT_MAX : ℤ) : ℚ) + 1 ≤ (vi : ℚ) := by
        exact_mod_cast hvi
      have habs := abs_le.1 he
      rw [show DBL_EPSILON = 1 / 4503599627370496 from rfl] at habs
      linarith

theorem byteAt_append_left {a b : Bytes} {k : Nat} (h : k < a.length) :
    byteAt (a ++ b) k = byteAt a k := by
  simp only [byteAt]
  rw [List.getD_append _ _ _ _ h]

theorem renderString_head (input : Option Bytes) :
    byteAt (renderString input) 0 = 34 ∧ 0 < (renderString input).length := by
  cases input with
  | none => exact ⟨rfl, by decide⟩
  | some s0 =>
    simp only [renderString]
    split <;> exact ⟨rfl, by simp⟩

theorem intRepr_head (vi : Int) :
    byteAt (intRepr vi) 0 = 45 ∨ isDigit (byteAt (intRepr vi) 0) = true := by
  simp only [intRepr]
  split
  · left
    rfl
  · right
    exact isDigit_of_decRepr (byteAt_mem (decRepr_len_pos _))

theorem goodFirst_stay {b : Nat} (h : goodFirst b) : ¬(0 < b ∧ b ≤ 32) := by
  rcases h with h | h | h | h | h | h | h | h <;> omega

theorem nodeCount_mk (t : Nat) (vs : Option Bytes) (vi : Int)
    (vd : CDouble) (s : Option Bytes) (c : List cJSON) :
    nodeCount (.mk t vs vi vd s c) = 1 + nodeCountList c := by
  simp only [nodeCount]

theorem nodeCount_pos (x : cJSON) : 1 ≤ nodeCount x := by
  cases x with
  | mk t vs vi vd s c =>
    rw [nodeCount_mk]
    omega

theorem windowRaw_self (out : Bytes) : windowRaw out 0 out := by
  intro k hk
  simp

theorem windowRaw_head {text : Bytes} {pos : Nat} {out : Bytes}
    (hw : windowRaw text pos out) (h : 0 < out.length) :
    byteAt text pos = byteAt out 0 := by
  have := hw 0 h
  simpa using this

/-! ## `goodTree` implies the sprintf-reserve bound `treeNumFits` -/

theorem decDigitsAux_length_le :
    ∀ (fuel n d : Nat), n < 10 ^ d → (decDigitsAux fuel n).length ≤ d := by
  intro fuel
  induction fuel with
  | zero => intro n d _; simp [decDigitsAux]
  | succ f ih =>
    intro n d hn
    match n with
    | 0 => simp [decDigitsAux]
    | n + 1 =>
      have hd : d ≠ 0 := by
        intro h
        rw [h, pow_zero] at hn
        omega
      simp only [decDigitsAux, List.length_cons]
      have := ih ((n + 1) / 10) (d - 1) (by
        have h10 : 10 ^ d = 10 ^ (d - 1) * 10 := by
          rw [← pow_succ]
          congr 1
          omega
        omega)
      omega

theorem decRepr_length_le {n d : Nat} (hn : n < 10 ^ d) (hd : 0 < d) :
    (decRepr n).length ≤ d := by
  simp only [decRepr]
  split
  · simpa using hd
  · rw [List.length_map, List.length_reverse]
    exact decDigitsAux_length_le _ _ _ hn

theorem goodNumber_printFits {t : Nat} {vs : Option Bytes} {vi : Int}
    {vd : CDouble} {s : Option Bytes} {c : List cJSON}
    (h : numberIntPath (.mk t vs vi vd none []) = true) :
    printNumberFits (.mk t vs vi vd s c) = true := by
  have hnp : numberIntPath (.mk t vs vi vd s c) = true := h
  obtain ⟨q, _, _, hlo, hhi⟩ := goodNumber_facts h
  simp only [printNumberFits, hnp, if_pos, printNumberBytes,
    decide_eq_true_eq]
  have hlen : (intRepr vi).length ≤ 11 := by
    simp only [intRepr, cJSON.valueint]
    split
    · simp only [List.length_cons]
      have : vi.natAbs < 10 ^ 10 := by
        simp only [INT_MIN] at hlo
        omega
      have := decRepr_length_le this (by omega)
      omega
    · have : vi.toNat < 10 ^ 10 := by
        simp only [INT_MAX] at hhi
        omega
      have := decRepr_length_le this (by omega)
      omega
  show (intRepr (cJSON.mk t vs vi vd s c).valueint).length < 21
  simp only [cJSON.valueint]
  omega

theorem goodTree_numFits_aux : ∀ n : Nat,
    (∀ item : cJSON, nodeCount item ≤ n → goodTree item = true →
      treeNumFits item = true) ∧
    (∀ l : List cJSON, nodeCountList l ≤ n → goodList l = true →
      listNumFits l = true) := by
  intro n
  induction n with
  | zero =>
    constructor
    · intro item hle _
      have := nodeCount_pos item
      omega
    · intro l hle _
      cases l with
      | nil => rfl
      | cons x xs =>
        have := nodeCount_pos x
        simp only [nodeCountList] at hle
        omega
  | succ m ih =>
    have hitem : ∀ item : cJSON, nodeCount item ≤ m + 1 →
        goodTree item = true → treeNumFits item = true := by
      intro item hle hg
      cases item with
      | mk t vs vi vd s c =>
        rw [nodeCount_mk] at hle
        simp only [goodTree] at hg
        simp only [treeNumFits, Bool.and_eq_true, Bool.or_eq_true,
          Bool.not_eq_true', beq_eq_false_iff_ne, ne_eq, beq_iff_eq]
        split at hg
        · rename_i hcase
          rw [List.isEmpty_iff] at hg
          subst hg
          refine ⟨?_, rfl⟩
          left
          simp only [cJSON_NULL, cJSON_False, cJSON_True, cJSON_Number] at *
          omega
        · split at hg
          · rename_i hnum
            simp only [Bool.and_eq_true, List.isEmpty_iff] at hg
            obtain ⟨hn, rfl⟩ := hg
            exact ⟨Or.inr (goodNumber_printFits hn), rfl⟩
          · split at hg
            · rename_i h1 h2 hstr
              simp only [Bool.and_eq_true, List.isEmpty_iff] at hg
              obtain ⟨_, rfl⟩ := hg
              refine ⟨?_, rfl⟩
              left
              exact fun hc => h2 (by rw [hc])
            · split at hg
              · rename_i h1 hnum h2 harr
                refine ⟨Or.inl (fun hc => hnum (by rw [hc])), ?_⟩
                exact (ih.2 c (by omega) hg)
              · split at hg
                · rename_i h1 hnum h2 h3 hobj
                  simp only [Bool.and_eq_true] at hg
                  refine ⟨Or.inl (fun hc => hnum (by rw [hc])), ?_⟩
                  exact (ih.2 c (by omega) hg.1)
                · exact absurd hg (by simp)
    refine ⟨hitem, ?_⟩
    intro l hle hg
    cases l with
    | nil => rfl
    | cons x xs =>
      simp only [nodeCountList] at hle
      simp only [goodList, Bool.and_eq_true] at hg
      simp only [listNumFits, Bool.and_eq_true]
      have hx := nodeCount_pos x
      exact ⟨hitem x (by omega) hg.1, ih.2 xs (by omega) hg.2⟩

theorem goodTree_numFits {item : cJSON} (hg : goodTree item = true) :
    treeNumFits item = true :=
  (goodTree_numFits_aux (nodeCount item)).1 item (le_refl _) hg

/-! ## The round-trip induction: conclusions and scalar cases -/

/-- Round-trip conclusion for one rendered value: non-empty output with a
recognisable first byte, the size bound feeding the top-level fuel, and
`parse_value` consuming exactly the rendered bytes into a `roundEq` tree. -/
def parseBackV (item : cJSON) (out : Bytes) : Prop :=
  0 < out.length ∧ goodFirst (byteAt out 0) ∧
  3 * nodeCount item ≤ 2 * out.length + 2 ∧
  ∀ text pos st pfuel, windowRaw text pos out →
    isNumTerm (byteAt text (pos + out.length)) = true →
    3 * nodeCount item ≤ pfuel →
    ∃ T' st', parse_value pfuel text pos st =
        (some (T', pos + out.length), st') ∧ roundEq item T' = true

/-- Round-trip conclusion for a rendered array. -/
def parseBackA (item : cJSON) (out : Bytes) : Prop :=
  0 < out.length ∧ byteAt out 0 = 91 ∧
  3 * nodeCount item ≤ 2 * out.length + 2 ∧
  ∀ text pos st pfuel, windowRaw text pos out →
    3 * nodeCount item ≤ pfuel + 1 →
    ∃ T' st', parse_array pfuel text pos st =
        (some (T', pos + out.length), st') ∧ roundEq item T' = true

/-- Round-trip conclusion for a rendered non-empty element list (the
closing bracket sits right after the rendered bytes). -/
def parseBackAI (items : List cJSON) (out : Bytes) : Prop :=
  0 < out.length ∧ goodFirst (byteAt out 0) ∧
  3 * nodeCountList items + 1 ≤ 2 * out.length + 3 ∧
  ∀ text pos st prev pfuel, windowRaw text pos out →
    byteAt text (pos + out.length) = 93 →
    3 * nodeCountList items + 1 ≤ pfuel →
    ∃ Ts st', parse_array_items pfuel text pos prev st =
        (some (prev ++ Ts, pos + out.length + 1), st') ∧
      roundEqList items Ts = true

/-- Round-trip conclusion for a rendered object. -/
def parseBackO (item : cJSON) (out : Bytes) : Prop :=
  0 < out.length ∧ byteAt out 0 = 123 ∧
  3 * nodeCount item ≤ 2 * out.length + 2 ∧
  ∀ text pos st pfuel, windowRaw text pos out →
    3 * nodeCount item ≤ pfuel + 1 →
    ∃ T' st', parse_object pfuel text pos st =
        (some (T', pos + out.length), st') ∧ roundEq item T' = true

/-- Round-trip conclusion for a rendered non-empty member list. -/
def parseBackOI (items : List cJSON) (out : Bytes) : Prop :=
  0 < out.length ∧ byteAt out 0 = 34 ∧
  3 * nodeCountList items + 1 ≤ 2 * out.length + 3 ∧
  ∀ text pos st prev pfuel, windowRaw text pos out →
    byteAt text (pos + out.length) = 125 →
    3 * nodeCountList items + 1 ≤ pfuel →
    ∃ Ts st', parse_object_items pfuel text pos prev st =
        (some (prev ++ Ts, pos + out.length + 1), st') ∧
      roundEqKeys items Ts = true

theorem matchLit_ne_head {text : Bytes} {pos : Nat} {lit : Bytes}
    (hlit : 0 < lit.length) (h : byteAt text pos ≠ byteAt lit 0) :
    matchLit text pos lit = false := by
  cases lit with
  | nil => simp at hlit
  | cons x rest => exact matchLit_false rest (by simpa using h)

theorem matchLit_not_true {text : Bytes} {pos : Nat} {lit : Bytes}
    (hlit : 0 < lit.length) (h : byteAt text pos ≠ byteAt lit 0) :
    ¬(matchLit text pos lit = true) := by
  rw [matchLit_ne_head hlit h]
  simp

theorem parseBackV_null {t : Nat} {vs : Option Bytes} {vi : Int}
    {vd : CDouble} {s : Option Bytes} (ht : t % 256 = cJSON_NULL) :
    parseBackV (.mk t vs vi vd s []) nullLit := by
  refine ⟨by decide, Or.inl rfl, ?_, ?_⟩
  · rw [nodeCount_mk]
    simp only [nodeCountList]
    decide
  · intro text pos st pfuel hw hterm hpf
    rw [nodeCount_mk] at hpf
    simp only [nodeCountList] at hpf
    obtain ⟨g, rfl⟩ : ∃ g, pfuel = g + 1 := ⟨pfuel - 1, by omega⟩
    refine ⟨.mk cJSON_NULL none 0 (.fin 0) none [], st, ?_, ?_⟩
    · simp only [parse_value]
      rw [if_pos (matchLit_of_window nullLit pos hw)]
      rfl
    · simp only [roundEq, cJSON.type, cJSON.valuestring, cJSON.valueint,
        cJSON.valuedouble, cJSON.child, ht]
      rw [if_neg (by decide), if_neg (by decide), if_neg (by decide)]
      simp only [roundEqList]
      decide

theorem parseBackV_false {t : Nat} {vs : Option Bytes} {vi : Int}
    {vd : CDouble} {s : Option Bytes} (ht : t % 256 = cJSON_False) :
    parseBackV (.mk t vs vi vd s []) falseLit := by
  refine ⟨by decide, Or.inr (Or.inl rfl), ?_, ?_⟩
  · rw [nodeCount_mk]
    simp only [nodeCountList]
    decide
  · intro text pos st pfuel hw hterm hpf
    rw [nodeCount_mk] at hpf
    simp only [nodeCountList] at hpf
    obtain ⟨g, rfl⟩ : ∃ g, pfuel = g + 1 := ⟨pfuel - 1, by omega⟩
    have hb : byteAt text pos = 102 := windowRaw_head hw (by decide)
    refine ⟨.mk cJSON_False none 0 (.fin 0) none [], st, ?_, ?_⟩
    · simp only [parse_value]
      rw [if_neg (matchLit_not_true (by decide) (by rw [hb]; decide))]
      rw [if_pos (matchLit_of_window falseLit pos hw)]
      rfl
    · simp only [roundEq, cJSON.type, cJSON.valuestring, cJSON.valueint,
        cJSON.valuedouble, cJSON.child, ht]
      rw [if_neg (by decide), if_neg (by decide), if_neg (by decide)]
      simp only [roundEqList]
      decide

theorem parseBackV_true {t : Nat} {vs : Option Bytes} {vi : Int}
    {vd : CDouble} {s : Option Bytes} (ht : t % 256 = cJSON_True) :
    parseBackV (.mk t vs vi vd s []) trueLit := by
  refine ⟨by decide, Or.inr (Or.inr (Or.inl rfl)), ?_, ?_⟩
  · rw [nodeCount_mk]
    simp only [nodeCountList]
    decide
  · intro text pos st pfuel hw hterm hpf
    rw [nodeCount_mk] at hpf
    simp only [nodeCountList] at hpf
    obtain ⟨g, rfl⟩ : ∃ g, pfuel = g + 1 := ⟨pfuel - 1, by omega⟩
    have hb : byteAt text pos = 116 := windowRaw_head hw (by decide)
    refine ⟨.mk cJSON_True none 1 (.fin 0) none [], st, ?_, ?_⟩
    · simp only [parse_value]
      rw [if_neg (matchLit_not_true (by decide) (by rw [hb]; decide))]
      rw [if_neg (matchLit_not_true (by decide) (by rw [hb]; decide))]
      rw [if_pos (matchLit_of_window trueLit pos hw)]
      rfl
    · simp only [roundEq, cJSON.type, cJSON.valuestring, cJSON.valueint,
        cJSON.valuedouble, cJSON.child, ht]
      rw [if_neg (by decide), if_neg (by decide), if_neg (by decide)]
      simp only [roundEqList]
      decide

theorem parseBackV_number {t : Nat} {vs : Option Bytes} {vi : Int}
    {vd : CDouble} {s : Option Bytes} (ht : t % 256 = cJSON_Number)
    (hn : numberIntPath (.mk t vs vi vd none []) = true) :
    parseBackV (.mk t vs vi vd s []) (intRepr vi) := by
  obtain ⟨q, hvd, heps, hlo, hhi⟩ := goodNumber_facts hn
  have hlen0 : 0 < (intRepr vi).length := intRepr_len_pos vi
  have hgf : goodFirst (byteAt (intRepr vi) 0) := by
    rcases intRepr_head vi with h | h
    · exact Or.inr (Or.inr (Or.inr (Or.inr (Or.inl h))))
    · refine Or.inr (Or.inr (Or.inr (Or.inr (Or.inr (Or.inl ?_)))))
      simpa [isDigit] using h
  refine ⟨hlen0, hgf, ?_, ?_⟩
  · rw [nodeCount_mk]
    simp only [nodeCountList]
    omega
  · intro text pos st pfuel hw hterm hpf
    rw [nodeCount_mk] at hpf
    simp only [nodeCountList] at hpf
    obtain ⟨g, rfl⟩ : ∃ g, pfuel = g + 1 := ⟨pfuel - 1, by omega⟩
    have hb := windowRaw_head hw hlen0
    have hfacts : byteAt text pos = 45 ∨
        (48 ≤ byteAt text pos ∧ byteAt text pos ≤ 57) := by
      rw [hb]
      rcases intRepr_head vi with h | h
      · exact Or.inl h
      · right
        simpa [isDigit] using h
    refine ⟨.mk cJSON_Number none vi (.fin (vi : ℚ)) none [], st, ?_, ?_⟩
    · simp only [parse_value]
      rw [if_neg (matchLit_not_true (by decide) (by
        show byteAt text pos ≠ 110
        omega))]
      rw [if_neg (matchLit_not_true (by decide) (by
        show byteAt text pos ≠ 102
        omega))]
      rw [if_neg (matchLit_not_true (by decide) (by
        show byteAt text pos ≠ 116
        omega))]
      rw [if_neg (show ¬(byteAt text pos = 34) from by omega)]
      rw [if_pos hfacts]
      simp only [parse_number_render hlo hhi hw hterm]
    · simp only [roundEq, cJSON.type, cJSON.valuestring, cJSON.valueint,
        cJSON.valuedouble, cJSON.child, ht, hvd]
      norm_num [cJSON_Number, cJSON_Object, roundEqList]
      simp only [CDouble.sub, CDouble.fabs, CDouble.le, decide_eq_true_eq]
      rw [abs_sub_comm]
      exact heps

theorem parseBackV_string {t : Nat} {vi : Int} {vd : CDouble}
    {s : Option Bytes} {str : Bytes} (ht : t % 256 = cJSON_String)
    (hnz : ∀ b ∈ str, b ≠ 0) :
    parseBackV (.mk t (some str) vi vd s []) (renderString (some str)) := by
  obtain ⟨hhead, hlen0⟩ := renderString_head (some str)
  refine ⟨hlen0, by rw [hhead]; exact Or.inr (Or.inr (Or.inr (Or.inl rfl))),
    ?_, ?_⟩
  · rw [nodeCount_mk]
    simp only [nodeCountList]
    omega
  · intro text pos st pfuel hw hterm hpf
    rw [nodeCount_mk] at hpf
    simp only [nodeCountList] at hpf
    obtain ⟨g, rfl⟩ : ∃ g, pfuel = g + 1 := ⟨pfuel - 1, by omega⟩
    have hb : byteAt text pos = 34 := by
      rw [windowRaw_head hw hlen0, hhead]
    refine ⟨.mk cJSON_String (some str) 0 (.fin 0) none [],
      { st with ep := st.ep }, ?_, ?_⟩
    · simp only [parse_value]
      rw [if_neg (matchLit_not_true (by decide) (by rw [hb]; decide))]
      rw [if_neg (matchLit_not_true (by decide) (by rw [hb]; decide))]
      rw [if_neg (matchLit_not_true (by decide) (by rw [hb]; decide))]
      rw [if_pos hb]
      simp only [parse_string_render st.ep hnz hw]
    · simp only [roundEq, cJSON.type, cJSON.valuestring, cJSON.valueint,
        cJSON.valuedouble, cJSON.child, ht]
      norm_num [cJSON_Number, cJSON_String, cJSON_Object, roundEqList]

theorem parseBackV_of_A {item : cJSON} {out : Bytes}
    (ht : item.type % 256 = cJSON_Array) (h : parseBackA item out) :
    parseBackV item out := by
  obtain ⟨hlen, hhead, hsize, hparse⟩ := h
  refine ⟨hlen, by rw [hhead]; exact Or.inr (Or.inr (Or.inr (Or.inr
    (Or.inr (Or.inr (Or.inl rfl)))))), hsize, ?_⟩
  intro text pos st pfuel hw hterm hpf
  have hnc := nodeCount_pos item
  obtain ⟨g, rfl⟩ : ∃ g, pfuel = g + 1 := ⟨pfuel - 1, by omega⟩
  have hb : byteAt text pos = 91 := by rw [windowRaw_head hw hlen, hhead]
  obtain ⟨T', st', heq, hre⟩ := hparse text pos st g hw (by omega)
  refine ⟨T', st', ?_, hre⟩
  simp only [parse_value]
  rw [if_neg (matchLit_not_true (by decide) (by rw [hb]; decide))]
  rw [if_neg (matchLit_not_true (by decide) (by rw [hb]; decide))]
  rw [if_neg (matchLit_not_true (by decide) (by rw [hb]; decide))]
  rw [if_neg (show ¬(byteAt text pos = 34) from by rw [hb]; decide)]
  rw [if_neg (show ¬(byteAt text pos = 45 ∨
    (48 ≤ byteAt text pos ∧ byteAt text pos ≤ 57)) from by rw [hb]; decide)]
  rw [if_pos hb]
  exact heq

theorem parseBackV_of_O {item : cJSON} {out : Bytes}
    (ht : item.type % 256 = cJSON_Object) (h : parseBackO item out) :
    parseBackV item out := by
  obtain ⟨hlen, hhead, hsize, hparse⟩ := h
  refine ⟨hlen, by rw [hhead]; exact Or.inr (Or.inr (Or.inr (Or.inr
    (Or.inr (Or.inr (Or.inr rfl)))))), hsize, ?_⟩
  intro text pos st pfuel hw hterm hpf
  have hnc := nodeCount_pos item
  obtain ⟨g, rfl⟩ : ∃ g, pfuel = g + 1 := ⟨pfuel - 1, by omega⟩
  have hb : byteAt text pos = 123 := by rw [windowRaw_head hw hlen, hhead]
  obtain ⟨T', st', heq, hre⟩ := hparse text pos st g hw (by omega)
  refine ⟨T', st', ?_, hre⟩
  simp only [parse_value]
  rw [if_neg (matchLit_not_true (by decide) (by rw [hb]; decide))]
  rw [if_neg (matchLit_not_true (by decide) (by rw [hb]; decide))]
  rw [if_neg (matchLit_not_true (by decide) (by rw [hb]; decide))]
  rw [if_neg (show ¬(byteAt text pos = 34) from by rw [hb]; decide)]
  rw [if_neg (show ¬(byteAt text pos = 45 ∨
    (48 ≤ byteAt text pos ∧ byteAt text pos ≤ 57)) from by rw [hb]; decide)]
  rw [if_neg (show ¬(byteAt text pos = 91) from by rw [hb]; decide)]
  rw [if_pos hb]
  exact heq

theorem nodeCountList_pos {l : List cJSON} (h : l ≠ []) :
    1 ≤ nodeCountList l := by
  cases l with
  | nil => exact absurd rfl h
  | cons y ys =>
    simp only [nodeCountList]
    have := nodeCount_pos y
    omega

theorem renderObjectItems_nil {fuel depth1 : Nat} {fmt : Bool}
    {routl : Bytes} (h : renderObjectItems fuel [] depth1 fmt = some routl) :
    routl = [] := by
  cases fuel with
  | zero =>
    simp only [renderObjectItems] at h
    exact absurd h (by simp)
  | succ n =>
    simp only [renderObjectItems] at h
    rw [Option.some.injEq] at h
    exact h.symm

/-- The round-trip induction: every successful unformatted render of a good
tree parses back, consuming exactly the rendered bytes, into a `roundEq`
tree — stated simultaneously for the five mutually recursive printer
functions. -/
theorem parse_of_render : ∀ fuel : Nat,
    (∀ item depth out, renderValue fuel item depth false = some out →
      goodTree item = true → parseBackV item out) ∧
    (∀ item depth out, renderArray fuel item depth false = some out →
      item.type % 256 = cJSON_Array → goodList item.child = true →
      parseBackA item out) ∧
    (∀ items depth out, renderArrayItems fuel items depth false = some out →
      goodList items = true → items ≠ [] → parseBackAI items out) ∧
    (∀ item depth out, renderObject fuel item depth false = some out →
      item.type % 256 = cJSON_Object → goodList item.child = true →
      keysOk item.child = true → parseBackO item out) ∧
    (∀ items depth1 out, renderObjectItems fuel items depth1 false = some out →
      goodList items = true → keysOk items = true → items ≠ [] →
      parseBackOI items out) := by
  intro fuel
  induction fuel with
  | zero =>
    refine ⟨?_, ?_, ?_, ?_, ?_⟩
    · intro item depth out h _
      simp only [renderValue] at h
      exact absurd h (by simp)
    · intro item depth out h _ _
      simp only [renderArray] at h
      exact absurd h (by simp)
    · intro items depth out h _ _
      simp only [renderArrayItems] at h
      exact absurd h (by simp)
    · intro item depth out h _ _ _
      simp only [renderObject] at h
      exact absurd h (by simp)
    · intro items depth1 out h _ _ _
      simp only [renderObjectItems] at h
      exact absurd h (by simp)
  | succ fuel ih =>
    obtain ⟨ihV, ihA, ihAI, ihO, ihOI⟩ := ih
    refine ⟨?_, ?_, ?_, ?_, ?_⟩
    · -- renderValue (fuel + 1)
      intro item depth out h hg
      cases item with
      | mk t vs vi vd s c =>
        simp only [renderValue, cJSON.type] at h
        simp only [goodTree] at hg
        split at h
        · -- NULL
          rename_i ht
          rw [Option.some.injEq] at h
          subst h
          rw [ht] at hg
          norm_num [cJSON_NULL, cJSON_False, cJSON_True, cJSON_Number,
            cJSON_String, cJSON_Array, cJSON_Object, List.isEmpty_iff] at hg
          subst hg
          exact parseBackV_null ht
        split at h
        · -- False
          rename_i ht
          rw [Option.some.injEq] at h
          subst h
          rw [ht] at hg
          norm_num [cJSON_NULL, cJSON_False, cJSON_True, cJSON_Number,
            cJSON_String, cJSON_Array, cJSON_Object, List.isEmpty_iff] at hg
          subst hg
          exact parseBackV_false ht
        split at h
        · -- True
          rename_i ht
          rw [Option.some.injEq] at h
          subst h
          rw [ht] at hg
          norm_num [cJSON_NULL, cJSON_False, cJSON_True, cJSON_Number,
            cJSON_String, cJSON_Array, cJSON_Object, List.isEmpty_iff] at hg
          subst hg
          exact parseBackV_true ht
        split at h
        · -- Number
          rename_i ht
          rw [Option.some.injEq] at h
          subst h
          rw [ht] at hg
          norm_num [cJSON_NULL, cJSON_False, cJSON_True, cJSON_Number,
            cJSON_String, cJSON_Array, cJSON_Object, List.isEmpty_iff] at hg
          obtain ⟨hn, rfl⟩ := hg
          have hout : printNumberBytes (.mk t vs vi vd s []) = intRepr vi := by
            have hnp : numberIntPath (.mk t vs vi vd s []) = true := hn
            simp only [printNumberBytes]
            rw [if_pos hnp]
            rfl
          rw [hout]
          exact parseBackV_number ht hn
        split at h
        · -- Raw: excluded by goodTree
          rename_i ht
          rw [ht] at hg
          norm_num [cJSON_NULL, cJSON_False, cJSON_True, cJSON_Number,
            cJSON_String, cJSON_Array, cJSON_Object, cJSON_Raw,
            List.isEmpty_iff] at hg
        split at h
        · -- String
          rename_i ht
          rw [ht] at hg
          norm_num [cJSON_NULL, cJSON_False, cJSON_True, cJSON_Number,
            cJSON_String, cJSON_Array, cJSON_Object, List.isEmpty_iff] at hg
          obtain ⟨hvs, rfl⟩ := hg
          cases hx : vs with
          | none =>
            rw [hx] at hvs
            exact absurd hvs (by simp)
          | some str =>
            rw [hx] at h hvs
            rw [Option.some.injEq] at h
            subst h
            have hnz : ∀ b ∈ str, b ≠ 0 := by
              intro b hb
              simp only [List.all_eq_true] at hvs
              simpa using hvs b hb
            exact parseBackV_string ht hnz
        split at h
        · -- Array
          rename_i ht
          rw [ht] at hg
          norm_num [cJSON_NULL, cJSON_False, cJSON_True, cJSON_Number,
            cJSON_String, cJSON_Array, cJSON_Object, List.isEmpty_iff] at hg
          exact parseBackV_of_A ht (ihA _ depth out h ht hg)
        split at h
        · -- Object
          rename_i ht
          rw [ht] at hg
          norm_num [cJSON_NULL, cJSON_False, cJSON_True, cJSON_Number,
            cJSON_String, cJSON_Array, cJSON_Object, List.isEmpty_iff] at hg
          exact parseBackV_of_O ht (ihO _ depth out h ht hg.1 hg.2)
        · exact absurd h (by simp)
    · -- renderArray (fuel + 1)
      intro item depth out h ht hgl
      cases item with
      | mk t vs vi vd s c =>
        simp only [cJSON.type] at ht
        simp only [cJSON.child] at hgl
        simp only [renderArray, cJSON.child] at h
        split at h
        · -- empty array
          rename_i hclen
          rw [Option.some.injEq] at h
          subst h
          have hc : c = [] := List.length_eq_zero.1 hclen
          subst hc
          refine ⟨by decide, rfl, ?_, ?_⟩
          · rw [nodeCount_mk]
            simp only [nodeCountList]
            decide
          · intro text pos st pfuel hw hpf
            rw [nodeCount_mk] at hpf
            simp only [nodeCountList] at hpf
            obtain ⟨g, rfl⟩ : ∃ g, pfuel = g + 1 := ⟨pfuel - 1, by omega⟩
            have hb : byteAt text pos = 91 := windowRaw_head hw (by decide)
            have hb1 : byteAt text (pos + 1) = 93 := by
              have := hw 1 (by decide)
              simpa using this
            refine ⟨.mk cJSON_Array none 0 (.fin 0) none [], st, ?_, ?_⟩
            · simp only [parse_array]
              rw [if_neg (by rw [hb]; decide)]
              rw [skipWsAux_stay (by rw [hb1]; decide)]
              rw [if_pos hb1]
              rfl
            · simp only [roundEq, cJSON.type, cJSON.valuestring,
                cJSON.valueint, cJSON.valuedouble, cJSON.child, ht]
              norm_num [cJSON_Number, cJSON_String, cJSON_Array,
                cJSON_Object, roundEqList]
        · -- non-empty array
          rename_i hclen
          split at h
          · exact absurd h (by simp)
          · rename_i outl houtl
            rw [Option.some.injEq] at h
            subst h
            have hcne : c ≠ [] := by
              intro hcon
              rw [hcon] at hclen
              simp at hclen
            obtain ⟨hl0, hgf, hsz, hpar⟩ := ihAI c depth outl houtl hgl hcne
            refine ⟨by simp, rfl, ?_, ?_⟩
            · rw [nodeCount_mk]
              simp only [List.length_cons, List.length_append,
                List.length_nil]
              omega
            · intro text pos st pfuel hw hpf
              rw [nodeCount_mk] at hpf
              obtain ⟨g, rfl⟩ : ∃ g, pfuel = g + 1 := ⟨pfuel - 1, by omega⟩
              have hb : byteAt text pos = 91 := windowRaw_head hw (by simp)
              have hwtail : windowRaw text (pos + 1) (outl ++ [93]) :=
                windowRaw_cons_tail hw
              have hbyte1 : byteAt text (pos + 1) = byteAt outl 0 := by
                rw [windowRaw_head hwtail (by simp)]
                exact byteAt_append_left hl0
              have hstay : skipWsAux text (pos + 1) = pos + 1 :=
                skipWsAux_stay (by rw [hbyte1]; exact goodFirst_stay hgf)
              have hne93 : byteAt text (pos + 1) ≠ 93 := by
                rw [hbyte1]
                rcases hgf with hf | hf | hf | hf | hf | hf | hf | hf <;> omega
              have hwoutl : windowRaw text (pos + 1) outl :=
                windowRaw_front hwtail
              have hclose : byteAt text (pos + 1 + outl.length) = 93 :=
                windowRaw_cons_head
                  (windowRaw_suffix (a := outl) (b := [93]) hwtail)
              have hszl := nodeCountList_pos hcne
              obtain ⟨Ts, st2, hloop, hround⟩ :=
                hpar text (pos + 1) st [] g hwoutl hclose (by omega)
              refine ⟨.mk cJSON_Array none 0 (.fin 0) none Ts, st2, ?_, ?_⟩
              · simp only [parse_array]
                rw [if_neg (by rw [hb]; decide)]
                rw [hstay]
                rw [if_neg hne93]
                simp only [hloop]
                rw [show ([] : List cJSON) ++ Ts = Ts from List.nil_append Ts]
                rw [show pos + 1 + outl.length + 1 =
                    pos + (91 :: (outl ++ [93])).length from by
                  simp only [List.length_cons, List.length_append,
                    List.length_nil]
                  omega]
              · simp only [roundEq, cJSON.type, cJSON.valuestring,
                  cJSON.valueint, cJSON.valuedouble, cJSON.child, ht]
                norm_num [cJSON_Number, cJSON_String, cJSON_Array,
                  cJSON_Object]
                exact hround
    · -- renderArrayItems (fuel + 1)
      intro items depth out h hgl hne
      cases items with
      | nil => exact absurd rfl hne
      | cons x rest =>
        simp only [goodList, Bool.and_eq_true] at hgl
        obtain ⟨hgx, hgrest⟩ := hgl
        simp only [renderArrayItems] at h
        split at h
        · exact absurd h (by simp)
        · rename_i vout hvout
          obtain ⟨hv0, hvgf, hvsz, hvpar⟩ := ihV x (depth + 1) vout hvout hgx
          by_cases hre : rest.isEmpty
          · rw [if_pos hre] at h
            rw [Option.some.injEq] at h
            subst h
            have hrest : rest = [] := List.isEmpty_iff.1 hre
            subst hrest
            refine ⟨hv0, hvgf, ?_, ?_⟩
            · simp only [nodeCountList]
              omega
            · intro text pos st prev pfuel hw hclose hpf
              simp only [nodeCountList] at hpf
              obtain ⟨f, rfl⟩ : ∃ f, pfuel = f + 1 := ⟨pfuel - 1, by omega⟩
              have hstay : skipWsAux text pos = pos := skipWsAux_stay (by
                rw [windowRaw_head hw hv0]; exact goodFirst_stay hvgf)
              obtain ⟨T', st2, hpv, hround⟩ := hvpar text pos st.allocate f hw
                (by rw [hclose]; decide) (by have := nodeCount_pos x; omega)
              refine ⟨[T'], st2, ?_, ?_⟩
              · simp only [parse_array_items]
                rw [hstay]
                simp only [hpv]
                rw [skipWsAux_stay (by rw [hclose]; decide)]
                rw [if_neg (by rw [hclose]; decide)]
                rw [if_pos hclose]
              · simp only [roundEqList, Bool.and_eq_true]
                exact ⟨hround, trivial⟩
          · rw [if_neg hre] at h
            split at h
            · exact absurd h (by simp)
            · rename_i routl hroutl
              rw [Option.some.injEq] at h
              rw [show (if (false : Bool) then ([44, 32] : Bytes) else [44]) =
                [44] from rfl] at h
              subst h
              have hrne : rest ≠ [] := by
                intro hcon
                subst hcon
                exact hre rfl
              obtain ⟨hr0, hrgf, hrsz, hrpar⟩ :=
                ihAI rest depth routl hroutl hgrest hrne
              refine ⟨by simp, by rw [byteAt_append_left hv0]; exact hvgf,
                ?_, ?_⟩
              · simp only [nodeCountList, List.length_append,
                  List.length_cons]
                omega
              · intro text pos st prev pfuel hw hclose hpf
                simp only [nodeCountList] at hpf
                obtain ⟨f, rfl⟩ : ∃ f, pfuel = f + 1 := ⟨pfuel - 1, by omega⟩
                have hwv : windowRaw text pos vout := windowRaw_front hw
                have hwsep : windowRaw text (pos + vout.length)
                    ([44] ++ routl) :=
                  windowRaw_suffix (a := vout) (b := [44] ++ routl) hw
                have hsep : byteAt text (pos + vout.length) = 44 :=
                  windowRaw_cons_head hwsep
                have hwr : windowRaw text (pos + vout.length + 1) routl := by
                  have := windowRaw_cons_tail hwsep
                  simpa using this
                have hstay : skipWsAux text pos = pos := skipWsAux_stay (by
                  rw [windowRaw_head hw (by simp)]
                  rw [byteAt_append_left hv0]
                  exact goodFirst_stay hvgf)
                have hncr := nodeCountList_pos hrne
                have hncx := nodeCount_pos x
                obtain ⟨T', st2, hpv, hroundv⟩ :=
                  hvpar text pos st.allocate f hwv
                    (by rw [hsep]; decide) (by omega)
                have hclose2 : byteAt text
                    (pos + vout.length + 1 + routl.length) = 93 := by
                  rw [show pos + vout.length + 1 + routl.length =
                      pos + (vout ++ ([44] ++ routl)).length from by
                    simp only [List.length_append, List.length_cons,
                      List.length_nil]
                    omega]
                  exact hclose
                obtain ⟨Ts', st3, hloop, hroundr⟩ :=
                  hrpar text (pos + vout.length + 1) st2 (prev ++ [T']) f
                    hwr hclose2 (by omega)
                refine ⟨T' :: Ts', st3, ?_, ?_⟩
                · simp only [parse_array_items]
                  rw [hstay]
                  simp only [hpv]
                  rw [skipWsAux_stay (by rw [hsep]; decide)]
                  rw [if_pos hsep]
                  rw [hloop]
                  rw [show (prev ++ [T']) ++ Ts' = prev ++ (T' :: Ts') from by
                    simp]
                  rw [show pos + vout.length + 1 + routl.length + 1 =
                      pos + (vout ++ ([44] ++ routl)).length + 1 from by
                    simp only [List.length_append, List.length_cons,
                      List.length_nil]
                    omega]
                · simp only [roundEqList, Bool.and_eq_true]
                  exact ⟨hroundv, hroundr⟩
    · -- renderObject (fuel + 1)
      intro item depth out h ht hgl hko
      cases item with
      | mk t vs vi vd s c =>
        simp only [cJSON.type] at ht
        simp only [cJSON.child] at hgl hko
        simp only [renderObject, cJSON.child] at h
        split at h
        · -- empty object
          rename_i hclen
          rw [show (if (false : Bool) then
              (10 :: List.replicate depth 9 : Bytes) else []) = []
            from rfl] at h
          rw [Option.some.injEq] at h
          subst h
          have hc : c = [] := List.length_eq_zero.1 hclen
          subst hc
          refine ⟨by simp, rfl, ?_, ?_⟩
          · rw [nodeCount_mk]
            simp only [nodeCountList]
            simp
          · intro text pos st pfuel hw hpf
            rw [nodeCount_mk] at hpf
            simp only [nodeCountList] at hpf
            obtain ⟨g, rfl⟩ : ∃ g, pfuel = g + 1 := ⟨pfuel - 1, by omega⟩
            have hb : byteAt text pos = 123 := windowRaw_head hw (by simp)
            have hb1 : byteAt text (pos + 1) = 125 := by
              have := hw 1 (by simp)
              simpa using this
            refine ⟨.mk cJSON_Object none 0 (.fin 0) none [], st, ?_, ?_⟩
            · simp only [parse_object]
              rw [if_neg (by rw [hb]; decide)]
              rw [skipWsAux_stay (by rw [hb1]; decide)]
              rw [if_pos hb1]
              rfl
            · simp only [roundEq, cJSON.type, cJSON.valuestring,
                cJSON.valueint, cJSON.valuedouble, cJSON.child, ht]
              norm_num [cJSON_Number, cJSON_String, cJSON_Array,
                cJSON_Object, roundEqKeys]
        · -- non-empty object
          rename_i hclen
          split at h
          · exact absurd h (by simp)
          · rename_i outl houtl
            rw [show (if (false : Bool) then ([10] : Bytes) else []) = []
              from rfl] at h
            rw [show (if (false : Bool) then
                (List.replicate depth 9 : Bytes) else []) = [] from rfl] at h
            rw [Option.some.injEq] at h
            simp only [List.nil_append] at h
            subst h
            have hcne : c ≠ [] := by
              intro hcon
              rw [hcon] at hclen
              simp at hclen
            obtain ⟨hl0, hhead34, hsz, hpar⟩ :=
              ihOI c (depth + 1) outl houtl hgl hko hcne
            refine ⟨by simp, rfl, ?_, ?_⟩
            · rw [nodeCount_mk]
              simp only [List.length_cons, List.length_append,
                List.length_nil]
              omega
            · intro text pos st pfuel hw hpf
              rw [nodeCount_mk] at hpf
              obtain ⟨g, rfl⟩ : ∃ g, pfuel = g + 1 := ⟨pfuel - 1, by omega⟩
              have hb : byteAt text pos = 123 := windowRaw_head hw (by simp)
              have hwtail : windowRaw text (pos + 1) (outl ++ [125]) :=
                windowRaw_cons_tail hw
              have hbyte1 : byteAt text (pos + 1) = 34 := by
                rw [windowRaw_head hwtail (by simp)]
                rw [byteAt_append_left hl0]
                exact hhead34
              have hstay : skipWsAux text (pos + 1) = pos + 1 :=
                skipWsAux_stay (by rw [hbyte1]; decide)
              have hne125 : byteAt text (pos + 1) ≠ 125 := by
                rw [hbyte1]
                decide
              have hwoutl : windowRaw text (pos + 1) outl :=
                windowRaw_front hwtail
              have hclose : byteAt text (pos + 1 + outl.length) = 125 :=
                windowRaw_cons_head
                  (windowRaw_suffix (a := outl) (b := [125]) hwtail)
              have hszl := nodeCountList_pos hcne
              obtain ⟨Ts, st2, hloop, hround⟩ :=
                hpar text (pos + 1) st [] g hwoutl hclose (by omega)
              refine ⟨.mk cJSON_Object none 0 (.fin 0) none Ts, st2, ?_, ?_⟩
              · simp only [parse_object]
                rw [if_neg (by rw [hb]; decide)]
                rw [hstay]
                rw [if_neg hne125]
                simp only [hloop]
                rw [show ([] : List cJSON) ++ Ts = Ts from List.nil_append Ts]
                rw [show pos + 1 + outl.length + 1 =
                    pos + (123 :: (outl ++ [125])).length from by
                  simp only [List.length_cons, List.length_append,
                    List.length_nil]
                  omega]
              · simp only [roundEq, cJSON.type, cJSON.valuestring,
                  cJSON.valueint, cJSON.valuedouble, cJSON.child, ht]
                norm_num [cJSON_Number, cJSON_String, cJSON_Array,
                  cJSON_Object]
                exact hround
    · -- renderObjectItems (fuel + 1)
      intro items depth1 out h hgl hko hne
      cases items with
      | nil => exact absurd rfl hne
      | cons x rest =>
        simp only [goodList, Bool.and_eq_true] at hgl
        obtain ⟨hgx, hgrest⟩ := hgl
        simp only [keysOk, Bool.and_eq_true] at hko
        obtain ⟨hkx, hkrest⟩ := hko
        obtain ⟨k, hxs, hknz⟩ : ∃ k, x.string = some k ∧ ∀ b ∈ k, b ≠ 0 := by
          cases hx : x.string with
          | none =>
            rw [hx] at hkx
            exact absurd hkx (by simp)
          | some k0 =>
            rw [hx] at hkx
            refine ⟨k0, rfl, ?_⟩
            intro b hb
            simp only [List.all_eq_true] at hkx
            simpa using hkx b hb
        simp only [renderObjectItems] at h
        split at h
        · exact absurd h (by simp)
        · rename_i vout hvout
          split at h
          · exact absurd h (by simp)
          · rename_i routl hroutl
            rw [Option.some.injEq] at h
            rw [show (if (false : Bool) then
                (List.replicate depth1 9 : Bytes) else []) = [] from rfl] at h
            rw [show (if (false : Bool) then ([9] : Bytes) else []) = []
              from rfl] at h
            rw [show (if (false : Bool) then ([10] : Bytes) else []) = []
              from rfl] at h
            rw [hxs] at h
            obtain ⟨hv0, hvgf, hvsz, hvpar⟩ := ihV x depth1 vout hvout hgx
            obtain ⟨hsh, hsl⟩ := renderString_head (some k)
            by_cases hre : rest.isEmpty
            · have hrest : rest = [] := List.isEmpty_iff.1 hre
              subst hrest
              have hrnil := renderObjectItems_nil hroutl
              subst hrnil
              rw [show (if List.isEmpty ([] : List cJSON) then ([] : Bytes)
                else [44]) = [] from rfl] at h
              simp only [List.nil_append, List.append_nil] at h
              subst h
              refine ⟨by simp, by rw [byteAt_append_left hsl]; exact hsh,
                ?_, ?_⟩
              · simp only [nodeCountList, List.length_append,
                  List.length_cons]
                omega
              · intro text pos st prev pfuel hw hclose hpf
                simp only [nodeCountList] at hpf
                obtain ⟨f, rfl⟩ : ∃ f, pfuel = f + 1 := ⟨pfuel - 1, by omega⟩
                have hwk : windowRaw text pos (renderString (some k)) :=
                  windowRaw_front hw
                have hwcolon : windowRaw text
                    (pos + (renderString (some k)).length) (58 :: vout) :=
                  windowRaw_suffix (a := renderString (some k))
                    (b := 58 :: vout) hw
                have h58 : byteAt text
                    (pos + (renderString (some k)).length) = 58 :=
                  windowRaw_cons_head hwcolon
                have hwv : windowRaw text
                    (pos + (renderString (some k)).length + 1) vout :=
                  windowRaw_cons_tail hwcolon
                have hstay : skipWsAux text pos = pos := skipWsAux_stay (by
                  rw [windowRaw_head hw (by simp), byteAt_append_left hsl,
                    hsh]
                  decide)
                have hps := parse_string_render (st.allocate).ep hknz hwk
                have hterm : byteAt text
                    (pos + (renderString (some k)).length + 1 + vout.length)
                    = 125 := by
                  rw [show pos + (renderString (some k)).length + 1 +
                      vout.length =
                      pos + (renderString (some k) ++ 58 :: vout).length
                    from by
                    simp only [List.length_append, List.length_cons]
                    omega]
                  exact hclose
                have hncx := nodeCount_pos x
                obtain ⟨T', st3, hpv, hroundv⟩ := hvpar text
                  (pos + (renderString (some k)).length + 1)
                  { st.allocate with ep := st.allocate.ep } f hwv
                  (by rw [hterm]; decide) (by omega)
                refine ⟨[.mk T'.type T'.valuestring T'.valueint
                  T'.valuedouble (some k) T'.child], st3, ?_, ?_⟩
                · simp only [parse_object_items]
                  rw [hstay]
                  simp only [hps]
                  rw [skipWsAux_stay (by rw [h58]; decide)]
                  rw [if_neg (by rw [h58]; decide)]
                  have hvhead : byteAt text
                      (pos + (renderString (some k)).length + 1) =
                      byteAt vout 0 := windowRaw_head hwv hv0
                  rw [skipWsAux_stay (by
                    rw [hvhead]; exact goodFirst_stay hvgf)]
                  simp only [hpv]
                  rw [skipWsAux_stay (by rw [hterm]; decide)]
                  rw [if_neg (by rw [hterm]; decide)]
                  rw [if_pos hterm]
                  rw [show pos + (renderString (some k)).length + 1 +
                      vout.length + 1 =
                      pos + (renderString (some k) ++ 58 :: vout).length + 1
                    from by
                    simp only [List.length_append, List.length_cons]
                    omega]
                  rfl
                · simp only [roundEqKeys, Bool.and_eq_true]
                  refine ⟨⟨?_, ?_⟩, trivial⟩
                  · rw [hxs]
                    simp only [cJSON.string]
                    simp
                  · rw [roundEq_rekey x T' (some k)]
                    exact hroundv
            · have hrne : rest ≠ [] := by
                intro hcon
                subst hcon
                exact hre rfl
              rw [show (if List.isEmpty rest then ([] : Bytes) else [44]) =
                [44] from by rw [if_neg hre]] at h
              simp only [List.nil_append, List.append_nil] at h
              subst h
              obtain ⟨hr0, hrh34, hrsz, hrpar⟩ :=
                ihOI rest depth1 routl hroutl hgrest hkrest hrne
              refine ⟨by simp, by rw [byteAt_append_left hsl]; exact hsh,
                ?_, ?_⟩
              · simp only [nodeCountList, List.length_append,
                  List.length_cons]
                omega
              · intro text pos st prev pfuel hw hclose hpf
                simp only [nodeCountList] at hpf
                obtain ⟨f, rfl⟩ : ∃ f, pfuel = f + 1 := ⟨pfuel - 1, by omega⟩
                have hwk : windowRaw text pos (renderString (some k)) :=
                  windowRaw_front hw
                have hwcolon : windowRaw text
                    (pos + (renderString (some k)).length)
                    (58 :: (vout ++ 44 :: routl)) :=
                  windowRaw_suffix (a := renderString (some k))
                    (b := 58 :: (vout ++ 44 :: routl)) hw
                have h58 : byteAt text
                    (pos + (renderString (some k)).length) = 58 :=
                  windowRaw_cons_head hwcolon
                have hwtail : windowRaw text
                    (pos + (renderString (some k)).length + 1)
                    (vout ++ 44 :: routl) :=
                  windowRaw_cons_tail hwcolon
                have hwv : windowRaw text
                    (pos + (renderString (some k)).length + 1) vout :=
                  windowRaw_front hwtail
                have hwsep : windowRaw text
                    (pos + (renderString (some k)).length + 1 + vout.length)
                    (44 :: routl) :=
                  windowRaw_suffix (a := vout) (b := 44 :: routl) hwtail
                have hsep : byteAt text
                    (pos + (renderString (some k)).length + 1 + vout.length)
                    = 44 :=
                  windowRaw_cons_head hwsep
                have hwr : windowRaw text
                    (pos + (renderString (some k)).length + 1 + vout.length
                      + 1) routl :=
                  windowRaw_cons_tail hwsep
                have hstay : skipWsAux text pos = pos := skipWsAux_stay (by
                  rw [windowRaw_head hw (by simp), byteAt_append_left hsl,
                    hsh]
                  decide)
                have hps := parse_string_render (st.allocate).ep hknz hwk
                have hncx := nodeCount_pos x
                have hncr := nodeCountList_pos hrne
                obtain ⟨T', st3, hpv, hroundv⟩ := hvpar text
                  (pos + (renderString (some k)).length + 1)
                  { st.allocate with ep := st.allocate.ep } f hwv
                  (by rw [hsep]; decide) (by omega)
                have hclose2 : byteAt text
                    (pos + (renderString (some k)).length + 1 + vout.length
                      + 1 + routl.length) = 125 := by
                  rw [show pos + (renderString (some k)).length + 1 +
                      vout.length + 1 + routl.length =
                      pos + (renderString (some k) ++
                        58 :: (vout ++ 44 :: routl)).length from by
                    simp only [List.length_append, List.length_cons]
                    omega]
                  exact hclose
                obtain ⟨Ts', st4, hloop, hroundr⟩ := hrpar text
                  (pos + (renderString (some k)).length + 1 + vout.length
                    + 1) st3
                  (prev ++ [.mk T'.type T'.valuestring T'.valueint
                    T'.valuedouble (some k) T'.child]) f hwr hclose2
                  (by omega)
                refine ⟨.mk T'.type T'.valuestring T'.valueint
                  T'.valuedouble (some k) T'.child :: Ts', st4, ?_, ?_⟩
                · simp only [parse_object_items]
                  rw [hstay]
                  simp only [hps]
                  rw [skipWsAux_stay (by rw [h58]; decide)]
                  rw [if_neg (by rw [h58]; decide)]
                  have hvhead : byteAt text
                      (pos + (renderString (some k)).length + 1) =
                      byteAt vout 0 := windowRaw_head hwv hv0
                  rw [skipWsAux_stay (by
                    rw [hvhead]; exact goodFirst_stay hvgf)]
                  simp only [hpv]
                  rw [skipWsAux_stay (by rw [hsep]; decide)]
                  rw [if_pos hsep]
                  rw [hloop]
                  rw [show (prev ++ [cJSON.mk T'.type T'.valuestring
                      T'.valueint T'.valuedouble (some k) T'.child]) ++ Ts' =
                      prev ++ (cJSON.mk T'.type T'.valuestring T'.valueint
                      T'.valuedouble (some k) T'.child :: Ts') from by simp]
                  rw [show pos + (renderString (some k)).length + 1 +
                      vout.length + 1 + routl.length + 1 =
                      pos + (renderString (some k) ++
                        58 :: (vout ++ 44 :: routl)).length + 1 from by
                    simp only [List.length_append, List.length_cons]
                    omega]
                  rfl
                · simp only [roundEqKeys, Bool.and_eq_true]
                  refine ⟨⟨?_, ?_⟩, hroundr⟩
                  · rw [hxs]
                    simp only [cJSON.string]
                    simp
                  · rw [roundEq_rekey x T' (some k)]
                    exact hroundv

/-- Top-level assembly: printing a good tree unformatted and re-parsing the
printed bytes succeeds, consumes the whole text, and returns a `roundEq`
tree. -/
theorem unformatted_round_trip (item : cJSON) (out : Bytes)
    (hg : goodTree item = true)
    (hp : cJSON_PrintUnformatted item = some out) :
    ∃ T ep st, cJSON_Parse out = (some (T, out.length), ep, st) ∧
      roundEq item T = true := by
  simp only [cJSON_PrintUnformatted] at hp
  have hrender := print_eq_render (goodTree_numFits hg) hp
  obtain ⟨hl0, hgf, hsz, hpar⟩ :=
    (parse_of_render (2 * nodeCount item + 2)).1 item 0 out hrender hg
  have hstay0 : skipWsAux out 0 = 0 := skipWsAux_stay (goodFirst_stay hgf)
  have hterm : isNumTerm (byteAt out (0 + out.length)) = true := by
    rw [show byteAt out (0 + out.length) = 0 from by
      simp only [byteAt, Nat.zero_add]
      exact List.getD_eq_default _ _ (le_refl _)]
    decide
  obtain ⟨T', st', hpv, hround⟩ := hpar out 0 ⟨none, 1, 0⟩
    (2 * out.length + 2) (windowRaw_self out) hterm (by omega)
  refine ⟨T', st'.ep, st', ?_, hround⟩
  simp only [cJSON_Parse, cJSON_ParseWithOpts, hstay0, hpv]
  rw [if_neg (show ¬(false = true) from by decide)]
  rw [show ((0 : Nat) + out.length) = out.length from by omega]

/-- C1 counterexample: the round trip does not preserve values up to the
printer's tolerance on every tree produced by parsing well-formed compact
JSON.  Parsing "1.0000001" yields a Number whose double is 1.0000001; the
unformatted printer emits it through `%f` as "1.000000"; re-parsing that
text yields 1.0, and the printer's own equality test (|a − b| ≤
DBL_EPSILON) rejects the pair, as does the round-trip comparison. -/
theorem C1_numeric_drift_exceeds_tolerance :
    ∃ T1 p1 T2 p2,
      (cJSON_Parse [49, 46, 48, 48, 48, 48, 48, 48, 49]).1 = some (T1, p1) ∧
      cJSON_PrintUnformatted T1 = some [49, 46, 48, 48, 48, 48, 48, 48] ∧
      (cJSON_Parse [49, 46, 48, 48, 48, 48, 48, 48]).1 = some (T2, p2) ∧
      T1.type = cJSON_Number ∧ T2.type = cJSON_Number ∧
      CDouble.le (CDouble.fabs (CDouble.sub T1.valuedouble T2.valuedouble))
        (.fin DBL_EPSILON) = false ∧
      roundEq T1 T2 = false := by
  refine ⟨.mk cJSON_Number none 1 (.fin (10000001 / 10000000 : ℚ)) none [],
    9, .mk cJSON_Number none 1 (.fin 1) none [], 8,
    ?_, ?_, ?_, rfl, rfl, ?_, ?_⟩
  · with_unfolding_all rfl
  · with_unfolding_all rfl
  · with_unfolding_all rfl
  · with_unfolding_all rfl
  · with_unfolding_all rfl

/-- C1 (amended): for every good tree — recognised kinds, childless
scalars, NUL-free strings and member keys, and every Number on the
printer's integer fast path — printing unformatted (`cJSON_PrintUnformatted`)
and re-parsing the printed text succeeds, consumes exactly the printed
bytes, and yields a tree with the same kinds, the same member keys, the
same child order, equal integer mirrors and strings, and doubles within
the printer's own tolerance `DBL_EPSILON` (all captured by `roundEq`). -/
theorem C1_unformatted_round_trip :
    ∀ (item : cJSON) (out : Bytes), goodTree item = true →
      cJSON_PrintUnformatted item = some out →
      ∃ T ep st, cJSON_Parse out = (some (T, out.length), ep, st) ∧
        roundEq item T = true :=
  unformatted_round_trip

/-- C1 witness: the good tree for the object text `{"a":1}` prints to
exactly those seven bytes and re-parses to a `roundEq`-equal tree. -/
theorem C1_unformatted_round_trip_witness :
    goodTree (cJSON.mk cJSON_Object none 0 (.fin 0) none
      [.mk cJSON_Number none 1 (.fin 1) (some [97]) []]) = true ∧
    ∃ T ep st, cJSON_Parse [123, 34, 97, 34, 58, 49, 125] =
        (some (T, 7), ep, st) ∧
      roundEq (cJSON.mk cJSON_Object none 0 (.fin 0) none
        [.mk cJSON_Number none 1 (.fin 1) (some [97]) []]) T = true :=
  ⟨by with_unfolding_all rfl,
    C1_unformatted_round_trip
      (cJSON.mk cJSON_Object none 0 (.fin 0) none
        [.mk cJSON_Number none 1 (.fin 1) (some [97]) []])
      [123, 34, 97, 34, 58, 49, 125]
      (by with_unfolding_all rfl) (by with_unfolding_all rfl)⟩

end CJsonModel
